import Mathlib

/-!
Shallow embedding of the cJSON value-tree library (src/cJSON.c) and proofs
about its specification claims.

Modelling conventions used throughout this file:

* C text is modelled as `List Char`, one element per byte.  The terminating
  NUL byte of a C string is modelled by the end of the list; theorems that
  quantify over inputs therefore restrict to byte-valued, NUL-free lists
  where the distinction matters.
* Double-precision values are modelled by `DoubleV`: either NaN, a signed
  infinity, or a finite value represented exactly as a fraction
  `QVal` (integer numerator over positive natural denominator).  Every
  finite IEEE double is such a fraction, and all comparisons performed by
  the C code (`==`, `<=`, `<`, `floor`, `fabs`) are exact on this
  representation; comparisons are implemented by cross multiplication.
  Threshold literals such as `1.0e60` are modelled by their exact decimal
  values.
* Heap allocation is modelled as always succeeding; the allocation-failure
  paths of the C code are out of scope for the claims below except where a
  claim is about what gets passed to the release hook, which is modelled by
  an explicit log of released buffers.
* The mutually recursive descent of the parser is modelled with an explicit
  fuel parameter; the top-level entry point supplies fuel larger than the
  input length, which is shown to be enough.
-/

/-! ## Finite-double model: exact fractions -/

/-- A finite double value, represented exactly as `num / den`.
All values produced by the code keep `0 < den`. -/
structure QVal where
  num : Int
  den : Nat
deriving DecidableEq, Repr

/-- The integer `n` as a `QVal`. -/
def QVal.ofInt (n : Int) : QVal := ⟨n, 1⟩

/-- Well-formedness: positive denominator. -/
def QVal.wf (q : QVal) : Prop := 0 < q.den

instance (q : QVal) : Decidable q.wf := by unfold QVal.wf; infer_instance

/-- Value equality of two fractions, by cross multiplication. -/
def QVal.eqv (a b : QVal) : Bool := a.num * b.den == b.num * a.den

/-- The double model: NaN, signed infinity, or an exact finite value. -/
inductive DoubleV where
  | finite (q : QVal)
  | nan
  | inf (neg : Bool)
deriving DecidableEq, Repr

namespace DoubleV

/-- C predicate `d == 0` (false for NaN, false for infinities). -/
def isZero : DoubleV → Bool
  | .finite q => q.num == 0
  | _ => false

/-- C predicate `fabs(floor(d) - d) <= DBL_EPSILON`.  For a finite value the
fractional part is `(num mod den) / den`, so the comparison against
`DBL_EPSILON = 2^-52` cross-multiplies to `(num mod den) * 2^52 <= den`.
For NaN the comparison is false; for an infinity `floor(d) - d` is NaN and
the comparison is false as well. -/
def fracLeEps : DoubleV → Bool
  | .finite q => (q.num.emod q.den) * 2 ^ 52 ≤ (q.den : Int)
  | _ => false

/-- C predicate `d <= INT_MAX` (false for NaN and `+inf`, true for `-inf`). -/
def leIntMax : DoubleV → Bool
  | .finite q => decide (q.num ≤ 2147483647 * (q.den : Int))
  | .nan => false
  | .inf neg => neg

/-- C predicate `d >= INT_MIN` (false for NaN and `-inf`, true for `+inf`). -/
def geIntMin : DoubleV → Bool
  | .finite q => decide (-2147483648 * (q.den : Int) ≤ q.num)
  | .nan => false
  | .inf neg => !neg

/-- C predicate `(d * 0) != 0`, the NaN/infinity test of `print_number`:
`x * 0` is `0` for every finite `x` and NaN otherwise. -/
def mulZeroNeZero : DoubleV → Bool
  | .finite _ => false
  | _ => true

/-- C predicate `fabs(d) < 1.0e60`. -/
def absLt1e60 : DoubleV → Bool
  | .finite q => decide ((q.num.natAbs : Int) < 10 ^ 60 * (q.den : Int))
  | _ => false

/-- C predicate `fabs(d) < 1.0e-6`. -/
def absLt1eNeg6 : DoubleV → Bool
  | .finite q => decide ((q.num.natAbs : Int) * 10 ^ 6 < (q.den : Int))
  | _ => false

/-- C predicate `fabs(d) > 1.0e9` (true for both infinities, false for NaN). -/
def absGt1e9 : DoubleV → Bool
  | .finite q => decide (10 ^ 9 * (q.den : Int) < (q.num.natAbs : Int))
  | .nan => false
  | .inf _ => true

/-- C conversion `(int)d`: truncation toward zero. -/
def toIntTrunc : DoubleV → Int
  | .finite q => q.num.tdiv q.den
  | _ => 0

end DoubleV

/-! ## Decimal digit rendering -/

/-- Auxiliary digit accumulator with fuel; fuel `n + 1` always suffices. -/
def natDigitsAux : Nat → Nat → List Char → List Char
  | 0, _, acc => acc
  | f + 1, n, acc =>
    if n < 10 then Char.ofNat (48 + n) :: acc
    else natDigitsAux f (n / 10) (Char.ofNat (48 + n % 10) :: acc)

/-- Decimal digits of a natural number, most significant first. -/
def natDigits (n : Nat) : List Char := natDigitsAux (n + 1) n []

/-- Exactly `k` decimal digits with leading zeros (for `%06u`-style fields). -/
def padDigits (k n : Nat) : List Char :=
  List.replicate (k - (natDigits n).length) '0' ++ natDigits n

/-- Rendering of `sprintf("%d", i)`. -/
def sprint_int (i : Int) : List Char :=
  (if i < 0 then ['-'] else []) ++ natDigits i.natAbs

/-- Round `n / d` to the nearest integer, ties to even (the IEEE default
rounding used by the C library when formatting). -/
def roundHalfEven (n : Int) (d : Nat) : Int :=
  let f := n.ediv d
  let r := n.emod d
  if 2 * r < (d : Int) then f
  else if (d : Int) < 2 * r then f + 1
  else if f.emod 2 = 0 then f else f + 1

/-- Rendering of `sprintf("%.0f", d)` for a finite value: nearest integer,
no fractional digits, sign taken from the value (so `-0` is possible). -/
def sprint_f0 (q : QVal) : List Char :=
  (if q.num < 0 then ['-'] else []) ++ natDigits (roundHalfEven q.num q.den).natAbs

/-- Rendering of `sprintf("%f", d)` for a finite value: fixed point with
exactly six fractional digits. -/
def sprint_f6 (q : QVal) : List Char :=
  let m := (roundHalfEven (q.num * 10 ^ 6) q.den).natAbs
  (if q.num < 0 then ['-'] else []) ++
    natDigits (m / 10 ^ 6) ++ '.' :: padDigits 6 (m % 10 ^ 6)

/-- Largest `k` with `b * 10^k ≤ a` (for `1 ≤ b ≤ a`); fuel-driven. -/
def expDownAux : Nat → Nat → Nat → Nat
  | 0, _, _ => 0
  | f + 1, a, b => if b * 10 ≤ a then 1 + expDownAux f a (b * 10) else 0

/-- Least `m ≥ 1` with `a * 10^m ≥ b` (for `1 ≤ a < b`); fuel-driven. -/
def expUpAux : Nat → Nat → Nat → Nat
  | 0, _, _ => 1
  | f + 1, a, b => if b ≤ a * 10 then 1 else 1 + expUpAux f (a * 10) b

/-- Decimal exponent of a nonzero finite value: the largest `e` with
`10^e ≤ |q|` (so the mantissa `|q| / 10^e` lies in `[1, 10)`). -/
def decExp (q : QVal) : Int :=
  if q.den ≤ q.num.natAbs then (expDownAux q.num.natAbs q.num.natAbs q.den : Int)
  else -(expUpAux q.den q.num.natAbs q.den : Int)

/-- The `%e` mantissa scaled to seven digits before rounding: `|d| / 10^e`
brought to the integer range `[10^6, 10^7]` and rounded. -/
def sprintE_scaled (q : QVal) : Int :=
  if 0 ≤ 6 - decExp q then roundHalfEven (q.num.natAbs * 10 ^ (6 - decExp q).toNat) q.den
  else roundHalfEven q.num.natAbs (q.den * 10 ^ (decExp q - 6).toNat)

/-- The printed exponent: bumped by one when rounding spilled to 10^7. -/
def sprintE_e2 (q : QVal) : Int :=
  if 10 ^ 7 ≤ sprintE_scaled q then decExp q + 1 else decExp q

/-- The printed seven mantissa digits as an integer. -/
def sprintE_s2 (q : QVal) : Int :=
  if 10 ^ 7 ≤ sprintE_scaled q then sprintE_scaled q / 10 else sprintE_scaled q

/-- Rendering of `sprintf("%e", d)` for a finite nonzero value:
`d.dddddd` mantissa, `e`, explicit exponent sign, at least two exponent
digits. -/
def sprint_e (q : QVal) : List Char :=
  (if q.num < 0 then ['-'] else []) ++
    (natDigits (sprintE_s2 q).natAbs).take 1 ++
    '.' :: ((natDigits (sprintE_s2 q).natAbs).drop 1 ++
      padDigits (7 - (natDigits (sprintE_s2 q).natAbs).length) 0).take 6 ++
    'e' :: (if sprintE_e2 q < 0 then '-' else '+') ::
      padDigits (max 2 (natDigits (sprintE_e2 q).natAbs).length) (sprintE_e2 q).natAbs

/-! ## print_number (src/cJSON.c lines 200-274)

The branch structure below mirrors the C function literally; the allocation
bookkeeping (`ensure` / `malloc`) always succeeds in this model so only the
rendered text remains. -/

/-- Faithful model of `print_number`: the exact C branch order. -/
def print_number (d : DoubleV) : List Char :=
  if d.isZero then ['0']
  else if d.fracLeEps && d.leIntMax && d.geIntMin then sprint_int d.toIntTrunc
  else
    -- the "value is a floating point number" arm
    if d.mulZeroNeZero then ['n', 'u', 'l', 'l']
    else if d.fracLeEps && d.absLt1e60 then
      match d with
      | .finite q => sprint_f0 q
      | _ => []   -- unreachable: mulZeroNeZero is true for NaN and infinities
    else if d.absLt1eNeg6 || d.absGt1e9 then
      match d with
      | .finite q => sprint_e q
      | _ => []
    else
      match d with
      | .finite q => sprint_f6 q
      | _ => []

/-! ## Claim C3: the claimed number-rendering policy -/

/-- Helper predicate for the claimed policy: `fabs(d) >= 1.0e9`
("at/above 1e9" in the wording of the claim). -/
def DoubleV.absGe1e9 : DoubleV → Bool
  | .finite q => decide (10 ^ 9 * (q.den : Int) ≤ (q.num.natAbs : Int))
  | .nan => false
  | .inf _ => true

/-- The number-rendering policy exactly as the specification claim words it:
NaN or infinite renders as the literal null (this clause is not part of the
otherwise-chain); otherwise zero renders as "0"; otherwise an
epsilon-integral value in 32-bit-signed range renders as decimal integer
text; otherwise an epsilon-integral value of magnitude below 1e60 renders as
fixed point with no fractional digits; otherwise magnitude below 1e-6 or at
or above 1e9 renders in scientific notation; every remaining value renders
as fixed point with six fractional digits. -/
def print_number_claimed (d : DoubleV) : List Char :=
  if d.mulZeroNeZero then ['n', 'u', 'l', 'l']
  else if d.isZero then ['0']
  else if d.fracLeEps && d.leIntMax && d.geIntMin then sprint_int d.toIntTrunc
  else if d.fracLeEps && d.absLt1e60 then
    match d with
    | .finite q => sprint_f0 q
    | _ => []
  else if d.absLt1eNeg6 || d.absGe1e9 then
    match d with
    | .finite q => sprint_e q
    | _ => []
  else
    match d with
    | .finite q => sprint_f6 q
    | _ => []

/-- If the absolute value of `n` is a multiple of `d`, then `n mod d = 0`. -/
theorem emod_eq_zero_of_natAbs_eq (n : Int) (d k : Nat) (h : n.natAbs = k * d) :
    n.emod d = 0 := by
  rcases Int.natAbs_eq n with h1 | h1
  · rw [h1, h]
    push_cast
    exact Int.mul_emod_left _ _
  · rw [h1, h]
    push_cast
    rw [← neg_mul]
    exact Int.mul_emod_left _ _

/-- Claim C3: for every double value stored in a number node, `print_number`
renders it exactly according to the ordered policy stated in the
specification (zero, then epsilon-integral in int range as integer text,
then epsilon-integral below 1e60 as fixed point without fraction, then
below 1e-6 or at/above 1e9 as scientific, NaN/infinite as the literal null,
and everything else as six-digit fixed point). -/
theorem C3_number_policy (d : DoubleV) : print_number d = print_number_claimed d := by
  cases d with
  | nan => rfl
  | inf neg => rfl
  | finite q =>
    unfold print_number print_number_claimed
    simp only [DoubleV.mulZeroNeZero, Bool.false_eq_true, if_false]
    by_cases hz : (DoubleV.finite q).isZero
    · simp [hz]
    · simp only [hz, Bool.false_eq_true, if_false]
      by_cases h2 : ((DoubleV.finite q).fracLeEps && (DoubleV.finite q).leIntMax &&
          (DoubleV.finite q).geIntMin) = true
      · simp [h2]
      · simp only [h2, Bool.false_eq_true, if_false]
        by_cases h4 : ((DoubleV.finite q).fracLeEps && (DoubleV.finite q).absLt1e60) = true
        · simp [h4]
        · simp only [h4, Bool.false_eq_true, if_false]
          -- the only divergence in wording: strict `> 1e9` versus `>= 1e9`;
          -- the boundary case `fabs(d) = 1e9` is epsilon-integral and inside
          -- the 32-bit range, hence already taken by the integer branch.
          have hiff : ((DoubleV.finite q).absLt1eNeg6 || (DoubleV.finite q).absGt1e9) =
              ((DoubleV.finite q).absLt1eNeg6 || (DoubleV.finite q).absGe1e9) := by
            by_cases hsm : (DoubleV.finite q).absLt1eNeg6
            · simp [hsm]
            · simp only [hsm, Bool.false_or]
              by_cases hgt : (DoubleV.finite q).absGt1e9
              · have : (DoubleV.finite q).absGe1e9 = true := by
                  simp only [DoubleV.absGt1e9, decide_eq_true_eq] at hgt
                  simp only [DoubleV.absGe1e9, decide_eq_true_eq]
                  omega
                rw [hgt, this]
              · by_cases hge : (DoubleV.finite q).absGe1e9
                · -- then |num| = 10^9 * den, contradicting the failure of the
                  -- integer branch
                  exfalso
                  simp only [DoubleV.absGt1e9, decide_eq_true_eq] at hgt
                  simp only [DoubleV.absGe1e9, decide_eq_true_eq] at hge
                  have habs : q.num.natAbs = 10 ^ 9 * q.den := by omega
                  have hfrac : (DoubleV.finite q).fracLeEps = true := by
                    simp only [DoubleV.fracLeEps, decide_eq_true_eq]
                    rw [emod_eq_zero_of_natAbs_eq q.num q.den (10 ^ 9) habs]
                    simp
                  have hle : (DoubleV.finite q).leIntMax = true := by
                    simp only [DoubleV.leIntMax, decide_eq_true_eq]
                    omega
                  have hgemin : (DoubleV.finite q).geIntMin = true := by
                    simp only [DoubleV.geIntMin, decide_eq_true_eq]
                    omega
                  rw [hfrac, hle, hgemin] at h2
                  simp at h2
                · simp only [Bool.not_eq_true] at hgt hge
                  rw [hgt, hge]
          rw [hiff]

/-! ## Claim C4: number boundary cases -/

/-- Claim C4, counterexample to the part "serializing a node holding 1e20
yields scientific notation": `1e20` is exactly representable as a double and
is within epsilon of its floor with magnitude below 1e60, so `print_number`
takes the `%.0f` fixed-point branch and renders twenty-one digits with no
exponent marker at all. -/
theorem C4_counterexample :
    print_number (.finite ⟨10 ^ 20, 1⟩) = "100000000000000000000".toList ∧
    'e' ∉ print_number (.finite ⟨10 ^ 20, 1⟩) := by
  constructor
  · rfl
  · decide

/-- Claim C4 as amended: serializing the integer-valued double `3.0` yields
`3`; serializing `0.1` (modelled by the exact value of the double nearest
0.1, namely `3602879701896397 / 2^55`) yields `0.100000`; serializing `1e20`
yields the fixed-point rendering `100000000000000000000` with no fractional
digits (not scientific notation); serializing NaN yields the literal
`null`. -/
theorem C4_amended :
    print_number (.finite ⟨3, 1⟩) = "3".toList ∧
    print_number (.finite ⟨3602879701896397, 2 ^ 55⟩) = "0.100000".toList ∧
    print_number (.finite ⟨10 ^ 20, 1⟩) = "100000000000000000000".toList ∧
    print_number .nan = "null".toList := by
  refine ⟨rfl, ?_, rfl, rfl⟩
  rfl

/-! ## parse_string (src/cJSON.c lines 276-549) -/

/-- One hexadecimal digit as in `parse_hex4`: the three accepted ranges,
anything else is invalid. -/
def hexDigitVal (c : Char) : Option Nat :=
  if '0' ≤ c ∧ c ≤ '9' then some (c.toNat - '0'.toNat)
  else if 'A' ≤ c ∧ c ≤ 'F' then some (10 + c.toNat - 'A'.toNat)
  else if 'a' ≤ c ∧ c ≤ 'f' then some (10 + c.toNat - 'a'.toNat)
  else none

/-- Accumulator for `parse_hex4`: shift in up to `k` digits; any invalid
digit (including the NUL at the end of input) makes the whole call
return 0, exactly as the C code does. -/
def parse_hex4Aux : Nat → Nat → List Char → Nat
  | acc, 0, _ => acc
  | _, _ + 1, [] => 0
  | acc, k + 1, c :: rest =>
    match hexDigitVal c with
    | none => 0
    | some h => parse_hex4Aux (acc * 16 + h) k rest

/-- Faithful model of `parse_hex4`. -/
def parse_hex4 (s : List Char) : Nat := parse_hex4Aux 0 4 s

/-- Continuation byte as built by the C switch: `(uc | 0x80) & 0xBF`. -/
def contByte (u : Nat) : Nat := (u ||| 0x80) &&& 0xBF

/-- UTF-8 encoding as in the `case 'u'` arm of `parse_string`: length chosen
by the `< 0x80 / < 0x800 / < 0x10000` thresholds, first byte from
`firstByteMark`, continuation bytes via successive 6-bit shifts. -/
def utf8Encode (uc : Nat) : List Char :=
  if uc < 0x80 then [Char.ofNat uc]
  else if uc < 0x800 then
    [Char.ofNat ((uc >>> 6) ||| 0xC0), Char.ofNat (contByte uc)]
  else if uc < 0x10000 then
    [Char.ofNat ((uc >>> 12) ||| 0xE0), Char.ofNat (contByte (uc >>> 6)),
     Char.ofNat (contByte uc)]
  else
    [Char.ofNat ((uc >>> 18) ||| 0xF0), Char.ofNat (contByte (uc >>> 12)),
     Char.ofNat (contByte (uc >>> 6)), Char.ofNat (contByte uc)]


mutual

/-- First pass of `parse_string` (the `while` loop over `end_ptr`): locate
the closing unescaped quote, skipping escape pairs.  Returns the length of
the literal region, where reaching the end of the input (the NUL) also ends
the region; returns `none` when the input ends on a trailing unescaped
backslash (the `return NULL` guarding the buffer overflow). -/
def scanEnd (s : List Char) : Option Nat :=
  match s with
  | [] => some 0
  | c :: rest =>
    if c = '\"' then some 0
    else if c = '\\' then scanEndEsc rest
    else (scanEnd rest).map (· + 1)
termination_by structural s

/-- Escape handling of the first pass, the `if (*end_ptr++ == backslash)`
arm: a backslash at the very end of the input fails, otherwise the escaped
character is skipped as well. -/
def scanEndEsc (s : List Char) : Option Nat :=
  match s with
  | [] => none
  | _ :: rest2 => (scanEnd rest2).map (· + 2)
termination_by structural s

end

mutual

/-- Second pass of `parse_string`: decode the literal region.  The first
argument is the number of bytes left in the region (`end_ptr - ptr`), the
second the input from the current position, the third the output built so
far.  All checks against `end_ptr` from the C code appear as comparisons on
the remaining-byte count.  The result is `none` exactly on the failure
paths of the decode loop (which all store `str` into `*ep`). -/
def decode_string (rem : Nat) (s acc : List Char) : Option (List Char) :=
  match rem, s with
  | 0, _ => some acc
  | _ + 1, [] => none   -- unreachable: the region never exceeds the input
  | rem + 1, c :: rest =>
    if c = '\\' then decode_escape (rem + 1) rest acc
    else decode_string rem rest (acc ++ [c])
termination_by structural s

/-- The `switch (*ptr)` over the escaped character. -/
def decode_escape (rl : Nat) (s acc : List Char) : Option (List Char) :=
  match s with
  | [] => none          -- unreachable: the scan pairs every backslash
  | e :: rest2 =>
    if e = 'b' then decode_string (rl - 2) rest2 (acc ++ ['\x08'])
    else if e = 'f' then decode_string (rl - 2) rest2 (acc ++ ['\x0c'])
    else if e = 'n' then decode_string (rl - 2) rest2 (acc ++ ['\x0a'])
    else if e = 'r' then decode_string (rl - 2) rest2 (acc ++ ['\x0d'])
    else if e = 't' then decode_string (rl - 2) rest2 (acc ++ ['\x09'])
    else if e = '\"' ∨ e = '\\' ∨ e = '/' then decode_string (rl - 2) rest2 (acc ++ [e])
    else if e = 'u' then decode_u rl rest2 acc
    else none           -- default arm: unrecognized escape, `*ep = str`
termination_by structural s

/-- The `case u` arm of the switch: `rl` counts the region bytes from the
backslash, so the C check `ptr >= end_ptr` after `ptr += 4` is `rl ≤ 5`.
The surrogate-pair branch is inlined: the C check `(ptr + 6) > end_ptr` is
`rl < 11`, and the second quartet is read six characters past the first
digit of the high quartet. -/
def decode_u (rl : Nat) (s acc : List Char) : Option (List Char) :=
  if rl ≤ 5 then none
  else if (0xDC00 ≤ parse_hex4 s ∧ parse_hex4 s ≤ 0xDFFF) ∨ parse_hex4 s = 0 then none
  else if 0xD800 ≤ parse_hex4 s ∧ parse_hex4 s ≤ 0xDBFF then
    if rl < 11 then none
    else
      match s with
      | _ :: _ :: _ :: _ :: c6 :: c7 :: t7 =>
        if c6 = '\\' ∧ c7 = 'u' then
          if parse_hex4 t7 < 0xDC00 ∨ 0xDFFF < parse_hex4 t7 then none
          else
            match t7 with
            | _ :: _ :: _ :: _ :: t11 =>
              decode_string (rl - 12) t11
                (acc ++ utf8Encode
                  (0x10000 + (((parse_hex4 s &&& 0x3FF) <<< 10) ||| (parse_hex4 t7 &&& 0x3FF))))
            | _ => none -- unreachable: a valid low surrogate has four digits
        else none
      | _ => none       -- unreachable: the region extends at least 11 bytes past the backslash
  else
    match s with
    | _ :: _ :: _ :: _ :: t5 => decode_string (rl - 6) t5 (acc ++ utf8Encode (parse_hex4 s))
    | _ => none         -- unreachable: the region extends at least 6 bytes past the backslash
termination_by structural s

end

/-- Closing step of `parse_string`: `if (*ptr == '"') ptr++;` — note that an
unterminated literal is accepted here, the quote is only skipped when
present. -/
def parse_string_close (payload : List Char) : List Char → List Char × List Char
  | [] => (payload, [])
  | q :: rest2 => if q = '\"' then (payload, rest2) else (payload, q :: rest2)

/-- Decode stage of `parse_string`: every decode failure stores the start of
the string literal into `*ep`. -/
def parse_string_decode (s rest : List Char) (endIdx : Nat) :
    Except (Option (List Char)) (List Char × List Char) :=
  match decode_string endIdx rest [] with
  | none => .error (some s)
  | some payload => .ok (parse_string_close payload (rest.drop endIdx))

/-- Faithful model of `parse_string` (src/cJSON.c lines 374-549), split into
stages: on success it returns the decoded payload and the rest of the
input; on failure it returns the value stored into `*ep` (`none` when the C
code returns NULL without touching `*ep`, which in this
always-succeeding-allocation model happens exactly on the
trailing-backslash path). -/
def parse_string_scan (s rest : List Char) :
    Except (Option (List Char)) (List Char × List Char) :=
  match scanEnd rest with
  | none => .error none
  | some endIdx => parse_string_decode s rest endIdx

/-- Entry guard of `parse_string`: `if (*str != quote) { *ep = str; fail }`. -/
def parse_string (s : List Char) : Except (Option (List Char)) (List Char × List Char) :=
  match s with
  | c :: rest => if c = '\"' then parse_string_scan s rest else .error (some s)
  | [] => .error (some [])

/-! ## Claim C2: surrogate handling -/

/-- Lowercase hexadecimal digit character for a value below 16. -/
def hexChar (d : Nat) : Char :=
  Char.ofNat (if d < 10 then 48 + d else 87 + d)

/-- The four lowercase hex digits of a 16-bit value. -/
def toHex4 (n : Nat) : List Char :=
  [hexChar (n / 4096 % 16), hexChar (n / 256 % 16), hexChar (n / 16 % 16), hexChar (n % 16)]

theorem hexDigitVal_hexChar : ∀ d, d < 16 → hexDigitVal (hexChar d) = some d := by decide

theorem hexChar_ne_quote_backslash : ∀ d, d < 16 → hexChar d ≠ '\"' ∧ hexChar d ≠ '\\' := by
  decide

/-- Reading four rendered hex digits recovers the value, whatever follows. -/
theorem parse_hex4_toHex4 (n : Nat) (hn : n < 65536) (rest : List Char) :
    parse_hex4 (toHex4 n ++ rest) = n := by
  have h1 : n / 4096 % 16 < 16 := Nat.mod_lt _ (by norm_num)
  have h2 : n / 256 % 16 < 16 := Nat.mod_lt _ (by norm_num)
  have h3 : n / 16 % 16 < 16 := Nat.mod_lt _ (by norm_num)
  have h4 : n % 16 < 16 := Nat.mod_lt _ (by norm_num)
  simp only [toHex4, parse_hex4, parse_hex4Aux, List.cons_append, List.nil_append,
    hexDigitVal_hexChar _ h1, hexDigitVal_hexChar _ h2, hexDigitVal_hexChar _ h3,
    hexDigitVal_hexChar _ h4]
  omega

theorem scanEnd_cons_other (c : Char) (s : List Char) (h1 : c ≠ '\"') (h2 : c ≠ '\\') :
    scanEnd (c :: s) = (scanEnd s).map (· + 1) := by
  rw [scanEnd, if_neg h1, if_neg h2]

theorem scanEnd_backslash (x : Char) (s : List Char) :
    scanEnd ('\\' :: x :: s) = (scanEnd s).map (· + 2) := by
  have h : ('\\' : Char) ≠ '\"' := by decide
  rw [scanEnd, if_neg h, if_pos rfl, scanEndEsc]

/-- The scan over a `\uXXXX"` literal finds the quote at offset 6. -/
theorem scanEnd_u4 (n : Nat) :
    scanEnd ('\\' :: 'u' :: (toHex4 n ++ ['\"'])) = some 6 := by
  have h1 := hexChar_ne_quote_backslash (n / 4096 % 16) (Nat.mod_lt _ (by norm_num))
  have h2 := hexChar_ne_quote_backslash (n / 256 % 16) (Nat.mod_lt _ (by norm_num))
  have h3 := hexChar_ne_quote_backslash (n / 16 % 16) (Nat.mod_lt _ (by norm_num))
  have h4 := hexChar_ne_quote_backslash (n % 16) (Nat.mod_lt _ (by norm_num))
  simp only [toHex4, List.cons_append, List.nil_append]
  rw [scanEnd_backslash, scanEnd_cons_other _ _ h1.1 h1.2, scanEnd_cons_other _ _ h2.1 h2.2,
    scanEnd_cons_other _ _ h3.1 h3.2, scanEnd_cons_other _ _ h4.1 h4.2]
  rfl

set_option maxHeartbeats 1000000 in
/-- Decoding a region that starts with a `\uXXXX` escape whose quartet is a
lone low surrogate or zero fails, whatever the digit characters are. -/
theorem decode_u_rejected (s acc : List Char)
    (hbad : (0xDC00 ≤ parse_hex4 s ∧ parse_hex4 s ≤ 0xDFFF) ∨ parse_hex4 s = 0) :
    decode_string 6 ('\\' :: 'u' :: s) acc = none := by
  have h6 : (6 : Nat) = 5 + 1 := rfl
  rw [h6, decode_string, if_pos rfl, decode_escape]
  have hb : ('u' : Char) ≠ 'b' := by decide
  have hf : ('u' : Char) ≠ 'f' := by decide
  have hn : ('u' : Char) ≠ 'n' := by decide
  have hr : ('u' : Char) ≠ 'r' := by decide
  have ht : ('u' : Char) ≠ 't' := by decide
  have hqbs : ¬ (('u' : Char) = '\"' ∨ ('u' : Char) = '\\' ∨ ('u' : Char) = '/') := by decide
  rw [if_neg hb, if_neg hf, if_neg hn, if_neg hr, if_neg ht, if_neg hqbs, if_pos rfl,
    decode_u.eq_def, if_neg (by norm_num : ¬ (5 + 1 ≤ 5)), if_pos hbad]

/-- Claim C2: parsing the literal `"\ud83d\ude00"` succeeds with exactly the
four UTF-8 bytes `F0 9F 98 80`; parsing the lone high surrogate `"\ud83d"`
fails; and every `\uXXXX` escape whose quartet is a lone low surrogate
(0xDC00-0xDFFF) or zero fails (the error pointer is set to the start of the
string literal in each failing case). -/
theorem C2_surrogates :
    parse_string "\"\\ud83d\\ude00\"".toList =
      .ok (['\xf0', '\x9f', '\x98', '\x80'], []) ∧
    parse_string "\"\\ud83d\"".toList = .error (some "\"\\ud83d\"".toList) ∧
    (∀ n : Nat, (0xDC00 ≤ n ∧ n ≤ 0xDFFF) ∨ n = 0 →
      parse_string ('\"' :: '\\' :: 'u' :: (toHex4 n ++ ['\"'])) =
        .error (some ('\"' :: '\\' :: 'u' :: (toHex4 n ++ ['\"'])))) := by
  refine ⟨by rfl, by rfl, ?_⟩
  intro n hbad
  have hn16 : n < 65536 := by omega
  have hbad' : (0xDC00 ≤ parse_hex4 (toHex4 n ++ ['\"']) ∧
      parse_hex4 (toHex4 n ++ ['\"']) ≤ 0xDFFF) ∨ parse_hex4 (toHex4 n ++ ['\"']) = 0 := by
    rw [parse_hex4_toHex4 n hn16]
    exact hbad
  have hdec := decode_u_rejected (toHex4 n ++ ['\"']) [] hbad'
  rw [parse_string, if_pos rfl, parse_string_scan.eq_def, scanEnd_u4 n]
  simp only [parse_string_decode]
  rw [show ('\\' :: 'u' :: (toHex4 n ++ ['\"']) : List Char) =
    '\\' :: 'u' :: (toHex4 n ++ ['\"']) from rfl] at hdec
  rw [hdec]

/-- Witness for the quantified part of claim C2: the lone low surrogate
quartet dc00 is rejected. -/
theorem C2_surrogates_witness :
    parse_string ('\"' :: '\\' :: 'u' :: (toHex4 0xDC00 ++ ['\"'])) =
      .error (some ('\"' :: '\\' :: 'u' :: (toHex4 0xDC00 ++ ['\"']))) :=
  C2_surrogates.2.2 0xDC00 (Or.inl (by norm_num))

/-! ## Claim C5: unterminated string literals -/

mutual

/-- The hypothesis of the claim, stated on the text after the opening quote:
the input ends (before any closing unescaped quote) on a trailing unescaped
backslash. -/
def endsInOpenEscape (s : List Char) : Bool :=
  match s with
  | [] => false
  | c :: rest =>
    if c = '\"' then false
    else if c = '\\' then endsInOpenEscapeEsc rest
    else endsInOpenEscape rest
termination_by structural s

/-- Escaped-character step of `endsInOpenEscape`. -/
def endsInOpenEscapeEsc (s : List Char) : Bool :=
  match s with
  | [] => true
  | _ :: rest2 => endsInOpenEscape rest2
termination_by structural s

end

mutual

/-- The first scan pass fails exactly on a trailing unescaped backslash. -/
theorem scanEnd_none_of_hang : ∀ (s : List Char), endsInOpenEscape s = true → scanEnd s = none
  | [], h => by exact Bool.noConfusion h
  | c :: rest, h => by
    rw [endsInOpenEscape] at h
    by_cases h1 : c = '\"'
    · rw [if_pos h1] at h
      exact Bool.noConfusion h
    · rw [if_neg h1] at h
      by_cases h2 : c = '\\'
      · rw [if_pos h2] at h
        rw [scanEnd, if_neg h1, if_pos h2]
        exact scanEndEsc_none_of_hang rest h
      · rw [if_neg h2] at h
        rw [scanEnd, if_neg h1, if_neg h2, scanEnd_none_of_hang rest h]
        rfl

/-- Companion of `scanEnd_none_of_hang` for the escaped-character step. -/
theorem scanEndEsc_none_of_hang :
    ∀ (s : List Char), endsInOpenEscapeEsc s = true → scanEndEsc s = none
  | [], _ => rfl
  | x :: rest2, h => by
    rw [endsInOpenEscapeEsc] at h
    rw [scanEndEsc, scanEnd_none_of_hang rest2 h]
    rfl

end

/-- Claim C5, counterexample: the unterminated literal `"abc` (input ends
before any closing quote, with no trailing backslash) parses SUCCESSFULLY —
the decode loop stops at the end of the input and the missing closing quote
is tolerated — contradicting the claim that every unterminated string
fails. -/
theorem C5_counterexample :
    parse_string "\"abc".toList = .ok ("abc".toList, []) := by rfl

/-- Claim C5 as amended: only the trailing-unescaped-backslash form of
truncation is rejected (without storing an error position, and without
reading past the input, which the list model makes structural); an input
that merely ends before the closing quote is not rejected for that reason —
for example `"abc` parses successfully, consuming the whole input. -/
theorem C5_amended :
    (∀ s : List Char, endsInOpenEscape s = true →
      parse_string ('\"' :: s) = .error none) ∧
    parse_string "\"abc".toList = .ok ("abc".toList, []) := by
  constructor
  · intro s h
    rw [parse_string, if_pos rfl, parse_string_scan.eq_def,
      scanEnd_none_of_hang s h]
  · rfl

/-- Witness for the amended claim C5: `"ab\` (a trailing backslash) is
rejected without an error position. -/
theorem C5_amended_witness :
    parse_string "\"ab\\".toList = .error none := by
  have h : endsInOpenEscape "ab\\".toList = true := by decide
  have := C5_amended.1 "ab\\".toList h
  simpa using this

/-! ## The value-node data model (struct cJSON)

The header of the repository is not present under src/, so the numeric
values of the type tags are modelled as an enumeration carrying the tag
names used by cJSON.c; a freshly allocated node is zero-filled by
`cJSON_New_Item`, which corresponds to the `cJSON_False` tag, a zero number
value and null pointers.  The `next` and `child` pointers of the C struct
are modelled in place, so chain surgery (append / detach) manipulates the
same links the C code does. -/

inductive CType where
  | cJSON_False
  | cJSON_True
  | cJSON_NULL
  | cJSON_Number
  | cJSON_String
  | cJSON_Array
  | cJSON_Object
deriving DecidableEq, Repr

mutual

/-- The cJSON node: tag, the `value` union (string / number / boolean),
`name`, the two flag bits, and the `child` / `next` pointers. -/
inductive cJSON where
  | mk (type : CType) (value_string : Option (List Char)) (value_number : DoubleV)
       (value_bool : Bool) (name : Option (List Char)) (string_is_const : Bool)
       (is_reference : Bool) (child : NodeRef) (next : NodeRef)

/-- A possibly-NULL pointer to a node. -/
inductive NodeRef where
  | null
  | ptr (node : cJSON)

end

def cJSON.type : cJSON → CType
  | .mk t _ _ _ _ _ _ _ _ => t

def cJSON.value_string : cJSON → Option (List Char)
  | .mk _ vs _ _ _ _ _ _ _ => vs

def cJSON.value_number : cJSON → DoubleV
  | .mk _ _ vn _ _ _ _ _ _ => vn

def cJSON.value_bool : cJSON → Bool
  | .mk _ _ _ vb _ _ _ _ _ => vb

def cJSON.name : cJSON → Option (List Char)
  | .mk _ _ _ _ nm _ _ _ _ => nm

def cJSON.string_is_const : cJSON → Bool
  | .mk _ _ _ _ _ sc _ _ _ => sc

def cJSON.is_reference : cJSON → Bool
  | .mk _ _ _ _ _ _ ir _ _ => ir

def cJSON.child : cJSON → NodeRef
  | .mk _ _ _ _ _ _ _ ch _ => ch

def cJSON.next : cJSON → NodeRef
  | .mk _ _ _ _ _ _ _ _ nx => nx

def cJSON.withNext (c : cJSON) (nx : NodeRef) : cJSON :=
  match c with
  | .mk t vs vn vb nm sc ir ch _ => .mk t vs vn vb nm sc ir ch nx

def cJSON.withChild (c : cJSON) (ch : NodeRef) : cJSON :=
  match c with
  | .mk t vs vn vb nm sc ir _ nx => .mk t vs vn vb nm sc ir ch nx

def cJSON.withName (c : cJSON) (nm : Option (List Char)) : cJSON :=
  match c with
  | .mk t vs vn vb _ sc ir ch nx => .mk t vs vn vb nm sc ir ch nx

def cJSON.withStringIsConst (c : cJSON) (sc : Bool) : cJSON :=
  match c with
  | .mk t vs vn vb nm _ ir ch nx => .mk t vs vn vb nm sc ir ch nx

/-- `cJSON_New_Item`: a zero-filled node. -/
def cJSON_New_Item : cJSON :=
  .mk .cJSON_False none (.finite ⟨0, 1⟩) false none false false .null .null

/-- The payload view of a sibling chain: each node with its `next` link
severed, in chain order. -/
def chainItems (r : NodeRef) : List cJSON :=
  match r with
  | .null => []
  | .ptr (.mk t vs vn vb nm sc ir ch nx) =>
    .mk t vs vn vb nm sc ir ch .null :: chainItems nx
termination_by structural r

/-! ## Tree mutation primitives (src/cJSON.c lines 1564-1684) -/

/-- The tail walk of `cJSON_AddItemToArray` followed by `suffix_object`:
append `item` after the last node of the chain headed by this node. -/
def chainAppend (c item : cJSON) : cJSON :=
  match c with
  | .mk t vs vn vb nm sc ir ch .null => .mk t vs vn vb nm sc ir ch (.ptr item)
  | .mk t vs vn vb nm sc ir ch (.ptr nx) =>
    .mk t vs vn vb nm sc ir ch (.ptr (chainAppend nx item))
termination_by structural c

/-- Faithful model of `cJSON_AddItemToArray` (the `item == NULL` no-op is
not modelled: `item` is always a node here). -/
def cJSON_AddItemToArray (array : cJSON) (item : cJSON) : cJSON :=
  match array with
  | .mk t vs vn vb nm sc ir .null anext => .mk t vs vn vb nm sc ir (.ptr item) anext
  | .mk t vs vn vb nm sc ir (.ptr c) anext =>
    .mk t vs vn vb nm sc ir (.ptr (chainAppend c item)) anext

/-- The walk of `cJSON_DetachItemFromArray` on a chain: detach the node at
the 0-based index, severing its `next` and re-pointing the link of its
predecessor (or reporting the new chain head).  Returns the detached node
and the remaining chain, or `none` when the index is out of range. -/
def detachFromChain (c : cJSON) (which : Nat) : Option (cJSON × NodeRef) :=
  match c, which with
  | c, 0 => some (c.withNext .null, c.next)
  | .mk _ _ _ _ _ _ _ _ .null, _ + 1 => none
  | .mk t vs vn vb nm sc ir ch (.ptr nx), which + 1 =>
    (detachFromChain nx which).map fun (d, rest) => (d, .ptr (.mk t vs vn vb nm sc ir ch rest))
termination_by structural c

/-- Faithful model of `cJSON_DetachItemFromArray`: returns the detached
node (if any) and the updated array. -/
def cJSON_DetachItemFromArray (array : cJSON) (which : Nat) : Option cJSON × cJSON :=
  match array.child with
  | .null => (none, array)
  | .ptr c =>
    match detachFromChain c which with
    | none => (none, array)
    | some (d, newChild) => (some d, array.withChild newChild)

/-! ## Claim C9: append order and detach surgery -/

theorem cJSON.child_withChild (c : cJSON) (ch : NodeRef) : (c.withChild ch).child = ch := by
  cases c; rfl

theorem chainItems_chainAppend :
    ∀ (c item : cJSON), item.next = .null →
      chainItems (.ptr (chainAppend c item)) = chainItems (.ptr c) ++ [item]
  | .mk t vs vn vb nm sc ir ch .null, item, h => by
    cases item with
    | mk it ivs ivn ivb inm isc iir ich inx =>
      cases inx with
      | null => simp [chainAppend, chainItems]
      | ptr p => simp [cJSON.next] at h
  | .mk t vs vn vb nm sc ir ch (.ptr nx), item, h => by
    simp [chainAppend, chainItems, chainItems_chainAppend nx item h]

theorem chainItems_add (arr item : cJSON) (h : item.next = .null) :
    chainItems (cJSON_AddItemToArray arr item).child =
      chainItems arr.child ++ [item] := by
  cases arr with
  | mk t vs vn vb nm sc ir ch nx =>
    cases ch with
    | null =>
      cases item with
      | mk it ivs ivn ivb inm isc iir ich inx =>
        cases inx with
        | null => simp [cJSON_AddItemToArray, cJSON.child, chainItems]
        | ptr p => simp [cJSON.next] at h
    | ptr c =>
      simp [cJSON_AddItemToArray, cJSON.child, chainItems_chainAppend c item h]

/-- The chain walk of detach, in range: it yields exactly the node at the
index (with its `next` severed) and the remaining chain in original
order. -/
theorem detachFromChain_inRange :
    ∀ (c : cJSON) (which : Nat), which < (chainItems (.ptr c)).length →
      ∃ d rest, detachFromChain c which = some (d, rest) ∧
        (chainItems (.ptr c))[which]? = some d ∧ d.next = .null ∧
        chainItems rest = (chainItems (.ptr c)).eraseIdx which
  | .mk t vs vn vb nm sc ir ch nx, 0, _ => by
    refine ⟨(cJSON.mk t vs vn vb nm sc ir ch nx).withNext .null, nx, ?_, ?_, ?_, ?_⟩
    · rw [detachFromChain]; rfl
    · simp [chainItems, cJSON.withNext]
    · simp [cJSON.withNext, cJSON.next]
    · simp [chainItems, List.eraseIdx, cJSON.next]
  | .mk t vs vn vb nm sc ir ch .null, which + 1, h => by
    simp [chainItems] at h
  | .mk t vs vn vb nm sc ir ch (.ptr nx), which + 1, h => by
    have h' : which < (chainItems (.ptr nx)).length := by
      simpa [chainItems] using h
    obtain ⟨d, rest, h1, h2, h3, h4⟩ := detachFromChain_inRange nx which h'
    refine ⟨d, .ptr (.mk t vs vn vb nm sc ir ch rest), ?_, ?_, h3, ?_⟩
    · simp [detachFromChain, h1]
    · simpa [chainItems] using h2
    · simp [chainItems, h4, List.eraseIdx]

/-- The chain walk of detach, out of range: nothing is found. -/
theorem detachFromChain_outOfRange :
    ∀ (c : cJSON) (which : Nat), (chainItems (.ptr c)).length ≤ which →
      detachFromChain c which = none
  | c, 0, h => by
    cases c
    simp [chainItems] at h
  | .mk t vs vn vb nm sc ir ch .null, which + 1, _ => rfl
  | .mk t vs vn vb nm sc ir ch (.ptr nx), which + 1, h => by
    have h' : (chainItems (.ptr nx)).length ≤ which := by
      simpa [chainItems] using h
    simp [detachFromChain, detachFromChain_outOfRange nx which h']

/-- Claim C9: three appends to an empty array produce a 3-element chain in
insertion order; detach at an in-range 0-based index returns exactly the
node at that index with its own `next` link cleared and leaves the
remaining children linked in their original relative order; detach at an
out-of-range index returns "not found" and leaves the array unchanged. -/
theorem C9_append_detach :
    (∀ (arr i1 i2 i3 : cJSON), arr.child = .null →
      i1.next = .null → i2.next = .null → i3.next = .null →
      chainItems (cJSON_AddItemToArray (cJSON_AddItemToArray
        (cJSON_AddItemToArray arr i1) i2) i3).child = [i1, i2, i3]) ∧
    (∀ (arr : cJSON) (which : Nat), which < (chainItems arr.child).length →
      ∃ d, (cJSON_DetachItemFromArray arr which).1 = some d ∧
        (chainItems arr.child)[which]? = some d ∧ d.next = .null ∧
        chainItems (cJSON_DetachItemFromArray arr which).2.child =
          (chainItems arr.child).eraseIdx which) ∧
    (∀ (arr : cJSON) (which : Nat), (chainItems arr.child).length ≤ which →
      cJSON_DetachItemFromArray arr which = (none, arr)) := by
  refine ⟨?_, ?_, ?_⟩
  · intro arr i1 i2 i3 h0 h1 h2 h3
    rw [chainItems_add _ i3 h3, chainItems_add _ i2 h2, chainItems_add _ i1 h1, h0]
    rfl
  · intro arr which h
    cases harr : arr.child with
    | null => rw [harr] at h; simp [chainItems] at h
    | ptr c =>
      rw [harr] at h
      obtain ⟨d, rest, h1, h2, h3, h4⟩ := detachFromChain_inRange c which h
      have hres : cJSON_DetachItemFromArray arr which = (some d, arr.withChild rest) := by
        simp only [cJSON_DetachItemFromArray, harr, h1]
      refine ⟨d, ?_, ?_, h3, ?_⟩
      · rw [hres]
      · exact h2
      · rw [hres]
        simp only [cJSON.child_withChild]
        exact h4
  · intro arr which h
    cases harr : arr.child with
    | null => simp [cJSON_DetachItemFromArray, harr]
    | ptr c =>
      rw [harr] at h
      simp [cJSON_DetachItemFromArray, harr, detachFromChain_outOfRange c which h]

/-- Concrete number node holding `k`, with no key and no links. -/
def exampleNum (k : Int) : cJSON :=
  .mk .cJSON_Number none (.finite ⟨k, 1⟩) false none false false .null .null

/-- A 3-element array built by three appends to an empty array. -/
def exampleArray3 : cJSON :=
  cJSON_AddItemToArray (cJSON_AddItemToArray
    (cJSON_AddItemToArray (.mk .cJSON_Array none (.finite ⟨0, 1⟩) false none false false .null .null)
      (exampleNum 1)) (exampleNum 2)) (exampleNum 3)

/-- Witness for claim C9: the three appends yield the chain `[1, 2, 3]`, and
detaching index 1 returns the middle node and leaves `[1, 3]`. -/
theorem C9_append_detach_witness :
    chainItems exampleArray3.child = [exampleNum 1, exampleNum 2, exampleNum 3] ∧
    (∃ d, (cJSON_DetachItemFromArray exampleArray3 1).1 = some d ∧
      (chainItems exampleArray3.child)[1]? = some d ∧ d.next = .null ∧
      chainItems (cJSON_DetachItemFromArray exampleArray3 1).2.child =
        (chainItems exampleArray3.child).eraseIdx 1) ∧
    cJSON_DetachItemFromArray exampleArray3 3 = (none, exampleArray3) := by
  refine ⟨?_, ?_, ?_⟩
  · exact C9_append_detach.1
      (.mk .cJSON_Array none (.finite ⟨0, 1⟩) false none false false .null .null)
      (exampleNum 1) (exampleNum 2) (exampleNum 3) rfl rfl rfl rfl
  · exact C9_append_detach.2.1 exampleArray3 1 (by decide)
  · exact C9_append_detach.2.2 exampleArray3 3 (by decide)

/-! ## Claim C10: the release log of teardown and key installation -/

/-- One call to the release hook, identified by what is being released:
the node record itself, a key buffer, or a string payload buffer. -/
inductive Freed where
  | nodeRec
  | nameBuf (text : List Char)
  | stringBuf (text : List Char)
deriving DecidableEq, Repr

/-- Faithful model of `internal_cJSON_Delete` (src/cJSON.c lines 90-112) as
the sequence of buffers passed to the release hook: for each node of the
chain, recurse into children unless the node is a reference, release the
string payload unless the node is a reference, release the key unless it is
marked `string_is_const`, release the node record, then continue with the
next sibling. -/
def internal_cJSON_Delete (c : cJSON) : List Freed :=
  match c with
  | .mk t vs _ _ nm sc ir ch nx =>
    (match ir, ch with
     | false, .ptr cc => internal_cJSON_Delete cc
     | _, _ => []) ++
    (match ir, t, vs with
     | false, .cJSON_String, some str => [.stringBuf str]
     | _, _, _ => []) ++
    (match sc, nm with
     | false, some nametext => [.nameBuf nametext]
     | _, _ => []) ++
    [.nodeRec] ++
    (match nx with
     | .ptr nn => internal_cJSON_Delete nn
     | .null => [])
termination_by structural c

/-- Faithful model of `cJSON_AddItemToObject` (src/cJSON.c lines 1609-1625):
the previous key of `item` is passed to the release hook UNCONDITIONALLY
(`if (item->name) free(item->name)`), the new key is copied in, and the
item is appended.  Returns the updated object and the release log. -/
def cJSON_AddItemToObject (object : cJSON) (name : List Char) (item : cJSON) :
    cJSON × List Freed :=
  (cJSON_AddItemToArray object (item.withName (some name)),
   match item.name with
   | some old => [.nameBuf old]
   | none => [])

/-- Faithful model of `cJSON_AddItemToObjectCS` (src/cJSON.c lines
1627-1642): the previous key is released only when it is not
`string_is_const`; the borrowed key text is installed and the const bit
set. -/
def cJSON_AddItemToObjectCS (object : cJSON) (name : List Char) (item : cJSON) :
    cJSON × List Freed :=
  ((cJSON_AddItemToArray object ((item.withName (some name)).withStringIsConst true)),
   if item.string_is_const = false then
     match item.name with
     | some old => [.nameBuf old]
     | none => []
   else [])

/-- A node whose key "k" was installed as host-supplied via the const-key
append: the `string_is_const` bit is set. -/
def constKeyItem : cJSON :=
  .mk .cJSON_Number none (.finite ⟨7, 1⟩) false (some "k".toList) true false .null .null

/-- An empty object node. -/
def exampleObject : cJSON :=
  .mk .cJSON_Object none (.finite ⟨0, 1⟩) false none false false .null .null

/-- Claim C10, evaluated at the failing input: teardown of a node carrying a
const-marked key releases only the node record (the borrowed key text is
skipped, as the claim says), and the const-key append itself never releases
a const-marked key — but `cJSON_AddItemToObject`, installing a new key on
that same node, passes the borrowed key text "k" to the release hook,
contradicting the claim that no library operation ever frees it. -/
theorem C10_const_key_freed_by_AddItemToObject :
    internal_cJSON_Delete constKeyItem = [.nodeRec] ∧
    (cJSON_AddItemToObjectCS exampleObject "m".toList constKeyItem).2 = [] ∧
    (cJSON_AddItemToObject exampleObject "m".toList constKeyItem).2 =
      [.nameBuf "k".toList] := by
  refine ⟨rfl, rfl, rfl⟩

/-! ## Claim C8: the growable print buffer (src/cJSON.c lines 137-185) -/

/-- The `printbuffer` record: storage, capacity (`length`) and write
offset.  The storage is modelled as a list whose length is the capacity. -/
structure printbuffer where
  buffer : List Char
  length : Nat
  offset : Nat
deriving DecidableEq, Repr

/-- Faithful model of `ensure`: all `size_t` arithmetic is taken modulo
2^64.  On success returns the (possibly reallocated) buffer state; the
returned writable region is the storage from `offset` up to `length`.  A
fresh allocation is modelled as the old content (`memcpy` of `p->length`
bytes) followed by arbitrary junk, represented by NUL fill; the model
assumes a live buffer (the C `!p || !p->buffer` guard) and a succeeding
allocator. -/
def ensure (p : printbuffer) (needed0 : Nat) : Option printbuffer :=
  let needed := (needed0 + p.offset) % 18446744073709551616
  if needed ≤ p.length then some p
  else
    let newsize := (max p.length needed * 2) % 18446744073709551616
    if newsize ≤ needed then none
    else some ⟨p.buffer ++ List.replicate (newsize - p.buffer.length) '\x00', newsize, p.offset⟩

/-- Claim C8, counterexample: a request so large that `needed += p->offset`
wraps around 2^64 slips past both capacity checks — `ensure` succeeds
without reallocating, yet the region between offset and capacity is far
smaller than the requested size, contradicting "whenever ensure succeeds it
returns a writable region of at least n bytes". -/
theorem C8_counterexample :
    ensure ⟨List.replicate 8 'x', 8, 4⟩ (18446744073709551616 - 2) =
      some ⟨List.replicate 8 'x', 8, 4⟩ ∧
    ¬ ((printbuffer.mk (List.replicate 8 'x') 8 4).offset + (18446744073709551616 - 2) ≤
        (printbuffer.mk (List.replicate 8 'x') 8 4).length) := by
  exact ⟨rfl, by decide⟩

/-- Claim C8 as amended: provided the addition `offset + n` does not wrap
around the `size_t` range, every successful `ensure` call returns a region
of at least `n` bytes at the unchanged offset with every previously stored
byte preserved; a request exceeding the remaining capacity reallocates to
`max(capacity, offset + n) * 2` (releasing the old storage); and a doubling
computation that wraps to at or below the requested size makes the call
fail rather than return an under-sized region.  (Only the doubling wrap is
detected; the wrap of `offset + n` itself is not, which is what the
counterexample exploits.) -/
theorem C8_amended :
    (∀ (p : printbuffer) (n : Nat) (p' : printbuffer),
      p.buffer.length = p.length → p.offset + n < 18446744073709551616 →
      ensure p n = some p' →
      p'.offset + n ≤ p'.length ∧ p'.offset = p.offset ∧
      p'.buffer.take p.length = p.buffer) ∧
    (∀ (p : printbuffer) (n : Nat) (p' : printbuffer),
      p.offset + n < 18446744073709551616 → p.length < p.offset + n →
      ensure p n = some p' →
      p'.length = (max p.length (p.offset + n) * 2) % 18446744073709551616) ∧
    (∀ (p : printbuffer) (n : Nat),
      p.length < (n + p.offset) % 18446744073709551616 →
      (max p.length ((n + p.offset) % 18446744073709551616) * 2) % 18446744073709551616 ≤
        (n + p.offset) % 18446744073709551616 →
      ensure p n = none) := by
  refine ⟨?_, ?_, ?_⟩
  · intro p n p' hlen hnw hok
    have hmod : (n + p.offset) % 18446744073709551616 = n + p.offset :=
      Nat.mod_eq_of_lt (by omega)
    simp only [ensure, hmod] at hok
    by_cases hfit : n + p.offset ≤ p.length
    · rw [if_pos hfit] at hok
      obtain rfl : p = p' := by injection hok
      refine ⟨by omega, rfl, ?_⟩
      rw [← hlen, List.take_length]
    · rw [if_neg hfit] at hok
      by_cases hwrap : (max p.length (n + p.offset) * 2) % 18446744073709551616 ≤ n + p.offset
      · rw [if_pos hwrap] at hok
        exact absurd hok (by simp)
      · rw [if_neg hwrap] at hok
        obtain rfl : (⟨p.buffer ++ List.replicate
            ((max p.length (n + p.offset) * 2) % 18446744073709551616 - p.buffer.length) '\x00',
            (max p.length (n + p.offset) * 2) % 18446744073709551616, p.offset⟩ : printbuffer)
            = p' := by injection hok
        refine ⟨by simp; omega, rfl, ?_⟩
        simp only
        rw [← hlen, List.take_left]
  · intro p n p' hnw hgrow hok
    have hmod : (n + p.offset) % 18446744073709551616 = n + p.offset :=
      Nat.mod_eq_of_lt (by omega)
    simp only [ensure, hmod] at hok
    rw [if_neg (by omega)] at hok
    by_cases hwrap : (max p.length (n + p.offset) * 2) % 18446744073709551616 ≤ n + p.offset
    · rw [if_pos hwrap] at hok
      exact absurd hok (by simp)
    · rw [if_neg hwrap] at hok
      obtain rfl : (⟨p.buffer ++ List.replicate
          ((max p.length (n + p.offset) * 2) % 18446744073709551616 - p.buffer.length) '\x00',
          (max p.length (n + p.offset) * 2) % 18446744073709551616, p.offset⟩ : printbuffer)
          = p' := by injection hok
      simp only
      rw [show p.offset + n = n + p.offset from by omega]
  · intro p n hbig hwrap
    simp only [ensure]
    rw [if_neg (by omega), if_pos hwrap]

/-- Witness for the amended claim C8: growing a buffer of capacity 1 by a
8-byte request reallocates to `max(1, 0 + 8) * 2 = 16` and preserves the
single stored byte; and the wrap check fires on a poisoned state. -/
theorem C8_amended_witness :
    ((printbuffer.mk ['x'] 1 0).buffer.length = (printbuffer.mk ['x'] 1 0).length ∧
      (printbuffer.mk ['x'] 1 0).offset + 8 < 18446744073709551616 ∧
      ensure ⟨['x'], 1, 0⟩ 8 = some ⟨'x' :: List.replicate 15 '\x00', 16, 0⟩ ∧
      (printbuffer.mk ('x' :: List.replicate 15 '\x00') 16 0).offset + 8 ≤
        (printbuffer.mk ('x' :: List.replicate 15 '\x00') 16 0).length ∧
      (printbuffer.mk ('x' :: List.replicate 15 '\x00') 16 0).buffer.take 1 = ['x'] ∧
      (printbuffer.mk ('x' :: List.replicate 15 '\x00') 16 0).length =
        (max 1 (0 + 8) * 2) % 18446744073709551616) ∧
    ensure ⟨['x'], 1, 0⟩ 9223372036854775809 = none := by
  constructor
  · refine ⟨rfl, by decide, rfl, ?_, ?_, ?_⟩
    · exact ((C8_amended.1 ⟨['x'], 1, 0⟩ 8 ⟨'x' :: List.replicate 15 '\x00', 16, 0⟩
        rfl (by decide) rfl).1)
    · exact ((C8_amended.1 ⟨['x'], 1, 0⟩ 8 ⟨'x' :: List.replicate 15 '\x00', 16, 0⟩
        rfl (by decide) rfl).2.2)
    · exact (C8_amended.2.1 ⟨['x'], 1, 0⟩ 8 ⟨'x' :: List.replicate 15 '\x00', 16, 0⟩
        (by decide) (by decide) rfl)
  · exact C8_amended.2.2 ⟨['x'], 1, 0⟩ 9223372036854775809 (by decide) (by decide)

/-! ## The recursive-descent parser (src/cJSON.c lines 702-842, 923-987, 1155-1247) -/

/-- Parse failure: either the artificial out-of-fuel marker (never reached
from the top-level entry point, which supplies more fuel than the input
length) or a genuine C failure carrying the value stored into `*ep`
(`none` when the C code returns NULL without touching `*ep`). -/
inductive ParseErr where
  | outOfFuel
  | fail (ep : Option (List Char))
deriving DecidableEq

theorem ebind_ok {ε α β : Type} (x : α) (f : α → Except ε β) :
    (Except.ok x >>= f) = f x := rfl

theorem ebind_err {ε α β : Type} (e : ε) (f : α → Except ε β) :
    ((Except.error e : Except ε α) >>= f) = Except.error e := rfl

/-- Faithful model of `skip`: drop leading bytes `<= 32` (the NUL that would
stop the C loop is the end of the list here). -/
def skip (s : List Char) : List Char := s.dropWhile (fun c => c.toNat ≤ 32)

/-- Longest digit prefix and the rest. -/
def spanDigits (s : List Char) : List Char × List Char :=
  match s with
  | [] => ([], [])
  | c :: rest =>
    if '0' ≤ c ∧ c ≤ '9' then
      let (ds, r) := spanDigits rest
      (c :: ds, r)
    else ([], c :: rest)

/-- Value of a digit string. -/
def digitsVal (ds : List Char) : Nat :=
  ds.foldl (fun acc c => acc * 10 + (c.toNat - 48)) 0

/-- Optional sign: consumed minus, consumed plus, or nothing. -/
def strtodSign (s : List Char) : Bool × List Char :=
  match s with
  | [] => (false, [])
  | c :: r => if c = '-' then (true, r) else if c = '+' then (false, r) else (false, c :: r)

/-- Optional fractional part: a dot consumes the following digit run. -/
def strtodFrac (s : List Char) : List Char × List Char :=
  match s with
  | [] => ([], [])
  | c :: r => if c = '.' then spanDigits r else ([], c :: r)

/-- Optional exponent part applied to an exact mantissa `mantNum / 10^fracLen`:
the marker is consumed only when at least one digit follows it. -/
def strtodExp (fracLen : Nat) (mantNum : Int) (s : List Char) : QVal × List Char :=
  match s with
  | [] => (⟨mantNum, 10 ^ fracLen⟩, [])
  | e :: r =>
    if e = 'e' ∨ e = 'E' then
      if (spanDigits (strtodSign r).2).1 = [] then (⟨mantNum, 10 ^ fracLen⟩, e :: r)
      else if (strtodSign r).1 then
        (⟨mantNum, 10 ^ (fracLen + digitsVal (spanDigits (strtodSign r).2).1)⟩,
          (spanDigits (strtodSign r).2).2)
      else
        (⟨mantNum * 10 ^ digitsVal (spanDigits (strtodSign r).2).1, 10 ^ fracLen⟩,
          (spanDigits (strtodSign r).2).2)
    else (⟨mantNum, 10 ^ fracLen⟩, e :: r)

/-- Modelled from the spec: the C library function `strtod` used by
`parse_number` is not part of src/.  The specification describes the number
form as an optional leading minus then a decimal/exponent form consumable
by a standard float parser.  This model parses, with maximal munch,
`[sign] digits [. digits] [e|E [sign] digits]`, requires at least one
mantissa digit, consumes the exponent marker only when at least one digit
follows it, returns the exact value as a fraction together with the
unconsumed rest, and returns `none` when no conversion can be performed
(the `endpointer == num` case).  Hexadecimal, infinity and NaN spellings
accepted by some C libraries are not modelled; rounding to double
precision is not modelled (values stay exact). -/
def strtod (s : List Char) : Option (QVal × List Char) :=
  if (spanDigits (strtodSign s).2).1 = [] ∧
      (strtodFrac (spanDigits (strtodSign s).2).2).1 = [] then none
  else some (strtodExp (strtodFrac (spanDigits (strtodSign s).2).2).1.length
    ((if (strtodSign s).1 then -1 else 1) *
      (digitsVal ((spanDigits (strtodSign s).2).1 ++
        (strtodFrac (spanDigits (strtodSign s).2).2).1) : Int))
    (strtodFrac (spanDigits (strtodSign s).2).2).2)

/-- Fresh number node as populated by `parse_number`. -/
def numberNode (q : QVal) : cJSON :=
  .mk .cJSON_Number none (.finite q) false none false false .null .null

/-- Fresh string node as populated by `parse_string`. -/
def stringNode (payload : List Char) : cJSON :=
  .mk .cJSON_String (some payload) (.finite ⟨0, 1⟩) false none false false .null .null

/-- Fresh literal nodes as populated by `parse_value`. -/
def nullNode : cJSON :=
  .mk .cJSON_NULL none (.finite ⟨0, 1⟩) false none false false .null .null

def trueNode : cJSON :=
  .mk .cJSON_True none (.finite ⟨0, 1⟩) true none false false .null .null

def falseNode : cJSON :=
  .mk .cJSON_False none (.finite ⟨0, 1⟩) false none false false .null .null

/-- Array/object shells as populated by `parse_array` / `parse_object`. -/
def arrayNode (ch : NodeRef) : cJSON :=
  .mk .cJSON_Array none (.finite ⟨0, 1⟩) false none false false ch .null

def objectNode (ch : NodeRef) : cJSON :=
  .mk .cJSON_Object none (.finite ⟨0, 1⟩) false none false false ch .null

/-- C head test `*value == c` (false at the end of input, i.e. at NUL). -/
def headIs (c : Char) (s : List Char) : Bool :=
  match s with
  | [] => false
  | x :: _ => x = c

/-- Faithful model of `parse_number`: a failed conversion returns NULL
WITHOUT storing a position into `*ep`. -/
def parse_number (s : List Char) : Except ParseErr (cJSON × List Char) :=
  match strtod s with
  | none => .error (.fail none)
  | some (q, rest) => .ok (numberNode q, rest)

/-- Adapter from the `parse_string` error convention. -/
def parse_key (s : List Char) : Except ParseErr (List Char × List Char) :=
  match parse_string s with
  | .error e => .error (.fail e)
  | .ok x => .ok x

mutual

/-- Faithful model of `parse_value`: the literal prefixes are tested first,
then the leading character dispatches to string / number / array / object,
and anything else stores `*ep = value` and fails. -/
def parse_value : Nat → List Char → Except ParseErr (cJSON × List Char)
  | 0, _ => .error .outOfFuel
  | fuel + 1, s =>
    if s.take 4 = "null".toList then .ok (nullNode, s.drop 4)
    else if s.take 5 = "false".toList then .ok (falseNode, s.drop 5)
    else if s.take 4 = "true".toList then .ok (trueNode, s.drop 4)
    else
      match s with
      | [] => .error (.fail (some []))
      | c :: _ =>
        if c = '\"' then
          match parse_string s with
          | .error e => .error (.fail e)
          | .ok (payload, rest) => .ok (stringNode payload, rest)
        else if c = '-' ∨ ('0' ≤ c ∧ c ≤ '9') then parse_number s
        else if c = '[' then parse_array fuel s
        else if c = '\x7b' then parse_object fuel s
        else .error (.fail (some s))

/-- Faithful model of `parse_array` (the fuel argument burns one level per
call so that the mutual recursion is structural on it). -/
def parse_array : Nat → List Char → Except ParseErr (cJSON × List Char)
  | 0, _ => .error .outOfFuel
  | fuel + 1, s =>
    match s with
    | [] => .error (.fail (some []))
    | c :: rest0 =>
      if c = '[' then
        if headIs ']' (skip rest0) then .ok (arrayNode .null, (skip rest0).tail)
        else do
          let (child1, r1) ← parse_value fuel (skip (skip rest0))
          let (chain, r2) ← parse_array_rest fuel (skip r1)
          if headIs ']' r2 then pure (arrayNode (.ptr (child1.withNext chain)), r2.tail)
          else throw (.fail (some r2))
      else .error (.fail (some (c :: rest0)))

/-- The `while (*value == ',')` loop of `parse_array`, returning the chain
of the elements after the first. -/
def parse_array_rest : Nat → List Char → Except ParseErr (NodeRef × List Char)
  | 0, _ => .error .outOfFuel
  | fuel + 1, s =>
    if headIs ',' s then do
      let (item, r1) ← parse_value fuel (skip s.tail)
      let (chain, r2) ← parse_array_rest fuel (skip r1)
      pure (.ptr (item.withNext chain), r2)
    else .ok (.null, s)

/-- Faithful model of `parse_object`: the key is parsed by `parse_string`
and moved into `name`, a `:` must follow, then the member value. -/
def parse_object : Nat → List Char → Except ParseErr (cJSON × List Char)
  | 0, _ => .error .outOfFuel
  | fuel + 1, s =>
    match s with
    | [] => .error (.fail (some []))
    | c :: rest0 =>
      if c = '\x7b' then
        if headIs '\x7d' (skip rest0) then .ok (objectNode .null, (skip rest0).tail)
        else do
          let (key, r1) ← parse_key (skip (skip rest0))
          if headIs ':' (skip r1) then do
            let (val1, r3) ← parse_value fuel (skip (skip r1).tail)
            let (chain, r4) ← parse_object_rest fuel (skip r3)
            if headIs '\x7d' r4 then
              pure (objectNode (.ptr ((val1.withName (some key)).withNext chain)), r4.tail)
            else throw (.fail (some r4))
          else throw (.fail (some (skip r1)))
      else .error (.fail (some (c :: rest0)))

/-- The `while (*value == ',')` loop of `parse_object`. -/
def parse_object_rest : Nat → List Char → Except ParseErr (NodeRef × List Char)
  | 0, _ => .error .outOfFuel
  | fuel + 1, s =>
    if headIs ',' s then do
      let (key, r1) ← parse_key (skip s.tail)
      if headIs ':' (skip r1) then do
        let (val, r3) ← parse_value fuel (skip (skip r1).tail)
        let (chain, r4) ← parse_object_rest fuel (skip r3)
        pure (.ptr ((val.withName (some key)).withNext chain), r4)
      else throw (.fail (some (skip r1)))
    else .ok (.null, s)

end

/-- Faithful model of `cJSON_ParseWithOpts` restricted to the global error
slot (the `return_parse_end == NULL` case): returns the parsed tree (or
`none`) together with the final value of the global error pointer, which is
reset to NULL on entry and written only on the failure paths that store a
position.  The fuel `3 * s.length + 3` is large enough for the recursive
descent (each call burns one unit and consumes input), which is shown
elsewhere to make the out-of-fuel marker unreachable. -/
def cJSON_ParseWithOpts (s : List Char) (require_null_terminated : Bool) :
    Option cJSON × Option (List Char) :=
  match parse_value (3 * s.length + 3) (skip s) with
  | .error (.fail e) => (none, e)
  | .error .outOfFuel => (none, none)
  | .ok (t, endp) =>
    if require_null_terminated then
      if skip endp = [] then (some t, none)
      else (none, some (skip endp))
    else (some t, none)

/-- Faithful model of `cJSON_Parse`. -/
def cJSON_Parse (s : List Char) : Option cJSON × Option (List Char) :=
  cJSON_ParseWithOpts s false

/-! ## Consumption lemmas: parse results point into the parsed text -/

theorem skip_suffix (s : List Char) : skip s <:+ s := List.dropWhile_suffix _

theorem skip_length_le (s : List Char) : (skip s).length ≤ s.length :=
  (skip_suffix s).length_le

theorem spanDigits_shape (s : List Char) :
    (spanDigits s).1 ++ (spanDigits s).2 = s := by
  induction s with
  | nil => rfl
  | cons c rest ih =>
    rw [spanDigits]
    by_cases h : ('0' ≤ c ∧ c ≤ '9')
    · rw [if_pos h]
      cases hsp : spanDigits rest with
      | mk ds r =>
        rw [hsp] at ih
        simpa using ih
    · rw [if_neg h]
      rfl

theorem spanDigits_snd_suffix (s : List Char) : (spanDigits s).2 <:+ s :=
  ⟨(spanDigits s).1, spanDigits_shape s⟩

theorem spanDigits_snd_lt (s : List Char) (h : (spanDigits s).1 ≠ []) :
    (spanDigits s).2.length < s.length := by
  have := congrArg List.length (spanDigits_shape s)
  simp only [List.length_append] at this
  have : 0 < (spanDigits s).1.length := List.length_pos.mpr h
  omega

theorem spanDigits_fst_nil (s : List Char) (h : (spanDigits s).1 = []) :
    (spanDigits s).2 = s := by
  have := spanDigits_shape s
  rw [h] at this
  simpa using this

theorem strtodSign_snd_suffix (s : List Char) : (strtodSign s).2 <:+ s := by
  cases s with
  | nil => exact List.suffix_refl _
  | cons c r =>
    rw [strtodSign]
    by_cases h1 : c = '-'
    · rw [if_pos h1]; exact List.suffix_cons _ _
    · rw [if_neg h1]
      by_cases h2 : c = '+'
      · rw [if_pos h2]; exact List.suffix_cons _ _
      · rw [if_neg h2]

theorem strtodFrac_snd_suffix (s : List Char) : (strtodFrac s).2 <:+ s := by
  cases s with
  | nil => exact List.suffix_refl _
  | cons c r =>
    rw [strtodFrac]
    by_cases h : c = '.'
    · rw [if_pos h]
      exact (spanDigits_snd_suffix r).trans (List.suffix_cons _ _)
    · rw [if_neg h]

theorem strtodFrac_snd_lt (s : List Char) (h : (strtodFrac s).1 ≠ []) :
    (strtodFrac s).2.length < s.length := by
  cases s with
  | nil => simp [strtodFrac] at h
  | cons c r =>
    rw [strtodFrac] at h ⊢
    by_cases hc : c = '.'
    · rw [if_pos hc] at h ⊢
      have := (spanDigits_snd_suffix r).length_le
      simp only [List.length_cons]
      omega
    · rw [if_neg hc] at h
      simp at h

theorem strtodExp_snd_suffix (fl : Nat) (mn : Int) (s : List Char) :
    (strtodExp fl mn s).2 <:+ s := by
  cases s with
  | nil => exact List.suffix_refl _
  | cons e r =>
    rw [strtodExp]
    by_cases hm : e = 'e' ∨ e = 'E'
    · rw [if_pos hm]
      by_cases hnil : (spanDigits (strtodSign r).2).1 = []
      · rw [if_pos hnil]
      · rw [if_neg hnil]
        have hr2 : (spanDigits (strtodSign r).2).2 <:+ e :: r :=
          ((spanDigits_snd_suffix (strtodSign r).2).trans
            (strtodSign_snd_suffix r)).trans (List.suffix_cons _ _)
        by_cases hneg : (strtodSign r).1
        · rw [if_pos hneg]
          exact hr2
        · rw [if_neg hneg]
          exact hr2
    · rw [if_neg hm]

theorem strtod_consumed (s : List Char) (q : QVal) (r : List Char)
    (h : strtod s = some (q, r)) : r <:+ s ∧ r.length < s.length := by
  unfold strtod at h
  by_cases hnil : (spanDigits (strtodSign s).2).1 = [] ∧
      (strtodFrac (spanDigits (strtodSign s).2).2).1 = []
  · rw [if_pos hnil] at h
    exact absurd h (by simp)
  · rw [if_neg hnil] at h
    simp only [Option.some.injEq] at h
    have hr : r = (strtodExp (strtodFrac (spanDigits (strtodSign s).2).2).1.length
        ((if (strtodSign s).1 then -1 else 1) *
          (digitsVal ((spanDigits (strtodSign s).2).1 ++
            (strtodFrac (spanDigits (strtodSign s).2).2).1) : Int))
        (strtodFrac (spanDigits (strtodSign s).2).2).2).2 := by
      rw [h]
    have hsfx3 : r <:+ (strtodFrac (spanDigits (strtodSign s).2).2).2 := by
      rw [hr]
      exact strtodExp_snd_suffix _ _ _
    have hsfx2 : (strtodFrac (spanDigits (strtodSign s).2).2).2 <:+
        (spanDigits (strtodSign s).2).2 := strtodFrac_snd_suffix _
    have hsfx1 : (spanDigits (strtodSign s).2).2 <:+ (strtodSign s).2 :=
      spanDigits_snd_suffix _
    have hsfx0 : (strtodSign s).2 <:+ s := strtodSign_snd_suffix s
    refine ⟨((hsfx3.trans hsfx2).trans hsfx1).trans hsfx0, ?_⟩
    have hl3 := hsfx3.length_le
    have hl2 := hsfx2.length_le
    have hl1 := hsfx1.length_le
    have hl0 := hsfx0.length_le
    by_cases hin : (spanDigits (strtodSign s).2).1 = []
    · have hfr : (strtodFrac (spanDigits (strtodSign s).2).2).1 ≠ [] := by
        intro hc
        exact hnil ⟨hin, hc⟩
      have := strtodFrac_snd_lt _ hfr
      omega
    · have := spanDigits_snd_lt _ hin
      omega

theorem parse_string_close_snd_suffix (p after : List Char) :
    (parse_string_close p after).2 <:+ after := by
  cases after with
  | nil => exact List.suffix_refl _
  | cons q rest2 =>
    rw [parse_string_close]
    by_cases h : q = '\"'
    · rw [if_pos h]
      exact List.suffix_cons _ _
    · rw [if_neg h]

/-- A successful `parse_string` leaves a strictly shorter suffix. -/
theorem parse_string_consumed (s p rest : List Char)
    (h : parse_string s = .ok (p, rest)) : rest <:+ s ∧ rest.length < s.length := by
  cases s with
  | nil => exact absurd h (by simp [parse_string])
  | cons c rest0 =>
    rw [parse_string] at h
    by_cases hc : c = '\"'
    · rw [if_pos hc] at h
      rw [parse_string_scan] at h
      cases hscan : scanEnd rest0 with
      | none => rw [hscan] at h; exact absurd h (by simp)
      | some endIdx =>
        rw [hscan] at h
        simp only [parse_string_decode.eq_def] at h
        cases hdec : decode_string endIdx rest0 [] with
        | none => rw [hdec] at h; exact absurd h (by simp)
        | some payload =>
          rw [hdec] at h
          simp only [Except.ok.injEq] at h
          have hrest : rest = (parse_string_close payload (rest0.drop endIdx)).2 := by
            rw [h]
          have h1 : rest <:+ rest0.drop endIdx := by
            rw [hrest]
            exact parse_string_close_snd_suffix _ _
          have h2 : rest0.drop endIdx <:+ rest0 := List.drop_suffix _ _
          refine ⟨(h1.trans h2).trans (List.suffix_cons _ _), ?_⟩
          have := (h1.trans h2).length_le
          simp only [List.length_cons]
          omega
    · rw [if_neg hc] at h
      exact absurd h (by simp)

/-- Every `parse_string` failure that stores a position stores the start of
the string literal itself. -/
theorem parse_string_err (s e : List Char)
    (h : parse_string s = .error (some e)) : e = s := by
  cases s with
  | nil =>
    rw [parse_string] at h
    simp only [Except.error.injEq, Option.some.injEq] at h
    exact h.symm
  | cons c rest0 =>
    rw [parse_string] at h
    by_cases hc : c = '\"'
    · rw [if_pos hc] at h
      rw [parse_string_scan] at h
      cases hscan : scanEnd rest0 with
      | none => rw [hscan] at h; exact absurd h (by simp)
      | some endIdx =>
        rw [hscan] at h
        simp only [parse_string_decode.eq_def] at h
        cases hdec : decode_string endIdx rest0 [] with
        | none =>
          rw [hdec] at h
          simp only [Except.error.injEq, Option.some.injEq] at h
          exact h.symm
        | some payload => rw [hdec] at h; exact absurd h (by simp)
    · rw [if_neg hc] at h
      simp only [Except.error.injEq, Option.some.injEq] at h
      exact h.symm

theorem parse_key_consumed (s p rest : List Char)
    (h : parse_key s = .ok (p, rest)) : rest <:+ s ∧ rest.length < s.length := by
  rw [parse_key] at h
  cases hps : parse_string s with
  | error e => rw [hps] at h; exact absurd h (by simp)
  | ok x =>
    rw [hps] at h
    simp only [Except.ok.injEq] at h
    subst h
    exact parse_string_consumed s p rest hps

theorem parse_key_err (s e : List Char)
    (h : parse_key s = .error (.fail (some e))) : e = s := by
  rw [parse_key] at h
  cases hps : parse_string s with
  | error e0 =>
    rw [hps] at h
    simp only [Except.error.injEq, ParseErr.fail.injEq] at h
    cases h
    exact parse_string_err s e hps
  | ok x => rw [hps] at h; exact absurd h (by simp)

theorem epure {ε α : Type} (x : α) : (pure x : Except ε α) = Except.ok x := rfl

theorem ethrow {ε α : Type} (e : ε) : (throw e : Except ε α) = Except.error e := rfl

theorem headIs_tail (c : Char) (s : List Char) (h : headIs c s = true) :
    s.tail <:+ s ∧ s.tail.length < s.length := by
  cases s with
  | nil => simp [headIs] at h
  | cons x r => exact ⟨List.suffix_cons _ _, by simp⟩

theorem parse_number_consumed (s : List Char) (t : cJSON) (r : List Char)
    (h : parse_number s = .ok (t, r)) : r <:+ s ∧ r.length < s.length := by
  unfold parse_number at h
  cases hst : strtod s with
  | none => rw [hst] at h; exact absurd h (by simp)
  | some x =>
    obtain ⟨q, rr⟩ := x
    rw [hst] at h
    simp only [Except.ok.injEq, Prod.mk.injEq] at h
    obtain ⟨-, h2⟩ := h
    subst h2
    exact strtod_consumed s q rr hst

theorem parse_number_no_ep (s e : List Char)
    (h : parse_number s = .error (.fail (some e))) : False := by
  unfold parse_number at h
  cases hst : strtod s with
  | none => rw [hst] at h; simp at h
  | some x => obtain ⟨q, rr⟩ := x; rw [hst] at h; simp at h

theorem parse_value_nil (fuel : Nat) :
    parse_value (fuel + 1) ([] : List Char) = .error (.fail (some [])) := rfl

theorem parse_array_nil (fuel : Nat) :
    parse_array (fuel + 1) ([] : List Char) = .error (.fail (some [])) := rfl

theorem parse_object_nil (fuel : Nat) :
    parse_object (fuel + 1) ([] : List Char) = .error (.fail (some [])) := rfl

mutual

/-- A successful `parse_value` leaves a strictly shorter suffix of its input. -/
theorem parse_value_ok_sfx : ∀ (fuel : Nat) (s : List Char) (t : cJSON) (r : List Char),
    parse_value fuel s = .ok (t, r) → r <:+ s ∧ r.length < s.length
  | 0, s, t, r, h => absurd h (by simp [parse_value])
  | fuel + 1, s, t, r, h => by
    cases s with
    | nil =>
      rw [parse_value_nil] at h
      exact absurd h (by simp)
    | cons c rest0 =>
      simp only [parse_value] at h
      by_cases h4 : (c :: rest0).take 4 = "null".toList
      · rw [if_pos h4] at h
        simp only [Except.ok.injEq, Prod.mk.injEq] at h
        obtain ⟨-, h2⟩ := h
        subst h2
        exact ⟨List.drop_suffix _ _, by simp only [List.length_drop, List.length_cons]; omega⟩
      · rw [if_neg h4] at h
        by_cases h5 : (c :: rest0).take 5 = "false".toList
        · rw [if_pos h5] at h
          simp only [Except.ok.injEq, Prod.mk.injEq] at h
          obtain ⟨-, h2⟩ := h
          subst h2
          exact ⟨List.drop_suffix _ _, by simp only [List.length_drop, List.length_cons]; omega⟩
        · rw [if_neg h5] at h
          by_cases h6 : (c :: rest0).take 4 = "true".toList
          · rw [if_pos h6] at h
            simp only [Except.ok.injEq, Prod.mk.injEq] at h
            obtain ⟨-, h2⟩ := h
            subst h2
            exact ⟨List.drop_suffix _ _, by simp only [List.length_drop, List.length_cons]; omega⟩
          · rw [if_neg h6] at h
            by_cases hq : c = '\"'
            · rw [if_pos hq] at h
              cases hps : parse_string (c :: rest0) with
              | error e0 =>
                simp only [hps] at h
                exact absurd h (by simp)
              | ok x =>
                obtain ⟨payload, rest1⟩ := x
                simp only [hps, Except.ok.injEq, Prod.mk.injEq] at h
                obtain ⟨-, h2⟩ := h
                subst h2
                exact parse_string_consumed (c :: rest0) payload rest1 hps
            · rw [if_neg hq] at h
              by_cases hn : c = '-' ∨ ('0' ≤ c ∧ c ≤ '9')
              · rw [if_pos hn] at h
                exact parse_number_consumed (c :: rest0) t r h
              · rw [if_neg hn] at h
                by_cases ha : c = '['
                · rw [if_pos ha] at h
                  exact parse_array_ok_sfx fuel (c :: rest0) t r h
                · rw [if_neg ha] at h
                  by_cases ho : c = '\x7b'
                  · rw [if_pos ho] at h
                    exact parse_object_ok_sfx fuel (c :: rest0) t r h
                  · rw [if_neg ho] at h
                    exact absurd h (by simp)

/-- A `parse_value` failure that stores a position stores a suffix of its input. -/
theorem parse_value_err_sfx : ∀ (fuel : Nat) (s e : List Char),
    parse_value fuel s = .error (.fail (some e)) → e <:+ s
  | 0, s, e, h => absurd h (by simp [parse_value])
  | fuel + 1, s, e, h => by
    cases s with
    | nil =>
      rw [parse_value_nil] at h
      simp only [Except.error.injEq, ParseErr.fail.injEq, Option.some.injEq] at h
      subst h
      exact List.nil_suffix
    | cons c rest0 =>
      simp only [parse_value] at h
      by_cases h4 : (c :: rest0).take 4 = "null".toList
      · rw [if_pos h4] at h
        exact absurd h (by simp)
      · rw [if_neg h4] at h
        by_cases h5 : (c :: rest0).take 5 = "false".toList
        · rw [if_pos h5] at h
          exact absurd h (by simp)
        · rw [if_neg h5] at h
          by_cases h6 : (c :: rest0).take 4 = "true".toList
          · rw [if_pos h6] at h
            exact absurd h (by simp)
          · rw [if_neg h6] at h
            by_cases hq : c = '\"'
            · rw [if_pos hq] at h
              cases hps : parse_string (c :: rest0) with
              | error e0 =>
                simp only [hps, Except.error.injEq, ParseErr.fail.injEq] at h
                subst h
                have := parse_string_err (c :: rest0) e hps
                subst this
                exact List.suffix_refl _
              | ok x =>
                obtain ⟨payload, rest1⟩ := x
                simp only [hps] at h
                exact absurd h (by simp)
            · rw [if_neg hq] at h
              by_cases hn : c = '-' ∨ ('0' ≤ c ∧ c ≤ '9')
              · rw [if_pos hn] at h
                exact (parse_number_no_ep (c :: rest0) e h).elim
              · rw [if_neg hn] at h
                by_cases ha : c = '['
                · rw [if_pos ha] at h
                  exact parse_value_err_sfx_array fuel (c :: rest0) e h
                · rw [if_neg ha] at h
                  by_cases ho : c = '\x7b'
                  · rw [if_pos ho] at h
                    exact parse_value_err_sfx_object fuel (c :: rest0) e h
                  · rw [if_neg ho] at h
                    simp only [Except.error.injEq, ParseErr.fail.injEq, Option.some.injEq] at h
                    subst h
                    exact List.suffix_refl _

/-- A successful `parse_array` leaves a strictly shorter suffix of its input. -/
theorem parse_array_ok_sfx : ∀ (fuel : Nat) (s : List Char) (t : cJSON) (r : List Char),
    parse_array fuel s = .ok (t, r) → r <:+ s ∧ r.length < s.length
  | 0, s, t, r, h => absurd h (by simp [parse_array])
  | fuel + 1, s, t, r, h => by
    cases s with
    | nil =>
      rw [parse_array_nil] at h
      exact absurd h (by simp)
    | cons c rest0 =>
      simp only [parse_array] at h
      by_cases hc : c = '['
      · rw [if_pos hc] at h
        by_cases hcl : headIs ']' (skip rest0) = true
        · rw [if_pos hcl] at h
          simp only [Except.ok.injEq, Prod.mk.injEq] at h
          obtain ⟨-, h2⟩ := h
          subst h2
          have ht := headIs_tail ']' (skip rest0) hcl
          have hsk := skip_suffix rest0
          have hskl := skip_length_le rest0
          refine ⟨(ht.1.trans hsk).trans (List.suffix_cons _ _), ?_⟩
          have := ht.2
          simp only [List.length_cons]
          omega
        · rw [if_neg hcl] at h
          cases hpv : parse_value fuel (skip (skip rest0)) with
          | error e1 =>
            rw [hpv, ebind_err] at h
            exact absurd h (by simp)
          | ok x =>
            obtain ⟨child1, r1⟩ := x
            rw [hpv] at h
            simp only [ebind_ok] at h
            cases har : parse_array_rest fuel (skip r1) with
            | error e2 =>
              rw [har, ebind_err] at h
              exact absurd h (by simp)
            | ok y =>
              obtain ⟨chain, r2⟩ := y
              rw [har] at h
              simp only [ebind_ok] at h
              by_cases hcl2 : headIs ']' r2 = true
              · rw [if_pos hcl2, epure] at h
                simp only [Except.ok.injEq, Prod.mk.injEq] at h
                obtain ⟨-, h2⟩ := h
                subst h2
                have ht := headIs_tail ']' r2 hcl2
                have hval := parse_value_ok_sfx fuel (skip (skip rest0)) child1 r1 hpv
                have hrest := parse_array_rest_ok_sfx fuel (skip r1) chain r2 har
                have hs1 := skip_suffix rest0
                have hs2 := skip_suffix (skip rest0)
                have hs3 := skip_suffix r1
                refine ⟨((((ht.1.trans hrest.1).trans hs3).trans hval.1).trans
                  (hs2.trans hs1)).trans (List.suffix_cons _ _), ?_⟩
                have l1 := ht.2
                have l2 := hrest.2
                have l3 := skip_length_le r1
                have l4 := hval.2
                have l5 := skip_length_le (skip rest0)
                have l6 := skip_length_le rest0
                simp only [List.length_cons]
                omega
              · rw [if_neg hcl2, ethrow] at h
                exact absurd h (by simp)
      · rw [if_neg hc] at h
        exact absurd h (by simp)

/-- A `parse_array` failure that stores a position stores a suffix of its input. -/
theorem parse_value_err_sfx_array : ∀ (fuel : Nat) (s e : List Char),
    parse_array fuel s = .error (.fail (some e)) → e <:+ s
  | 0, s, e, h => absurd h (by simp [parse_array])
  | fuel + 1, s, e, h => by
    cases s with
    | nil =>
      rw [parse_array_nil] at h
      simp only [Except.error.injEq, ParseErr.fail.injEq, Option.some.injEq] at h
      subst h
      exact List.nil_suffix
    | cons c rest0 =>
      simp only [parse_array] at h
      by_cases hc : c = '['
      · rw [if_pos hc] at h
        by_cases hcl : headIs ']' (skip rest0) = true
        · rw [if_pos hcl] at h
          exact absurd h (by simp)
        · rw [if_neg hcl] at h
          cases hpv : parse_value fuel (skip (skip rest0)) with
          | error e1 =>
            rw [hpv, ebind_err] at h
            simp only [Except.error.injEq] at h
            subst h
            have := parse_value_err_sfx fuel (skip (skip rest0)) e hpv
            exact (this.trans ((skip_suffix (skip rest0)).trans (skip_suffix rest0))).trans
              (List.suffix_cons _ _)
          | ok x =>
            obtain ⟨child1, r1⟩ := x
            rw [hpv] at h
            simp only [ebind_ok] at h
            cases har : parse_array_rest fuel (skip r1) with
            | error e2 =>
              rw [har, ebind_err] at h
              simp only [Except.error.injEq] at h
              subst h
              have hval := parse_value_ok_sfx fuel (skip (skip rest0)) child1 r1 hpv
              have := parse_array_rest_err_sfx fuel (skip r1) e har
              exact ((((this.trans (skip_suffix r1)).trans hval.1).trans
                (skip_suffix (skip rest0))).trans (skip_suffix rest0)).trans
                (List.suffix_cons _ _)
            | ok y =>
              obtain ⟨chain, r2⟩ := y
              rw [har] at h
              simp only [ebind_ok] at h
              by_cases hcl2 : headIs ']' r2 = true
              · rw [if_pos hcl2, epure] at h
                exact absurd h (by simp)
              · rw [if_neg hcl2, ethrow] at h
                simp only [Except.error.injEq, ParseErr.fail.injEq, Option.some.injEq] at h
                subst h
                have hval := parse_value_ok_sfx fuel (skip (skip rest0)) child1 r1 hpv
                have hrest := parse_array_rest_ok_sfx fuel (skip r1) chain r2 har
                exact ((((hrest.1.trans (skip_suffix r1)).trans hval.1).trans
                  (skip_suffix (skip rest0))).trans (skip_suffix rest0)).trans
                  (List.suffix_cons _ _)
      · rw [if_neg hc] at h
        simp only [Except.error.injEq, ParseErr.fail.injEq, Option.some.injEq] at h
        subst h
        exact List.suffix_refl _

/-- A successful element loop leaves a suffix no longer than its input. -/
theorem parse_array_rest_ok_sfx : ∀ (fuel : Nat) (s : List Char) (ch : NodeRef) (r : List Char),
    parse_array_rest fuel s = .ok (ch, r) → r <:+ s ∧ r.length ≤ s.length
  | 0, s, ch, r, h => absurd h (by simp [parse_array_rest])
  | fuel + 1, s, ch, r, h => by
    simp only [parse_array_rest] at h
    by_cases hcm : headIs ',' s = true
    · rw [if_pos hcm] at h
      cases hpv : parse_value fuel (skip s.tail) with
      | error e1 =>
        rw [hpv, ebind_err] at h
        exact absurd h (by simp)
      | ok x =>
        obtain ⟨item, r1⟩ := x
        rw [hpv] at h
        simp only [ebind_ok] at h
        cases har : parse_array_rest fuel (skip r1) with
        | error e2 =>
          rw [har, ebind_err] at h
          exact absurd h (by simp)
        | ok y =>
          obtain ⟨chain, r2⟩ := y
          rw [har] at h
          simp only [ebind_ok, epure, Except.ok.injEq, Prod.mk.injEq] at h
          obtain ⟨-, h2⟩ := h
          subst h2
          have ht := headIs_tail ',' s hcm
          have hval := parse_value_ok_sfx fuel (skip s.tail) item r1 hpv
          have hrest := parse_array_rest_ok_sfx fuel (skip r1) chain r2 har
          refine ⟨(((hrest.1.trans (skip_suffix r1)).trans hval.1).trans
            (skip_suffix s.tail)).trans ht.1, ?_⟩
          have l1 := ht.2
          have l2 := hval.2
          have l3 := hrest.2
          have l4 := skip_length_le s.tail
          have l5 := skip_length_le r1
          omega
    · rw [if_neg hcm] at h
      simp only [Except.ok.injEq, Prod.mk.injEq] at h
      obtain ⟨-, h2⟩ := h
      subst h2
      exact ⟨List.suffix_refl _, le_refl _⟩

/-- An element-loop failure that stores a position stores a suffix of its input. -/
theorem parse_array_rest_err_sfx : ∀ (fuel : Nat) (s e : List Char),
    parse_array_rest fuel s = .error (.fail (some e)) → e <:+ s
  | 0, s, e, h => absurd h (by simp [parse_array_rest])
  | fuel + 1, s, e, h => by
    simp only [parse_array_rest] at h
    by_cases hcm : headIs ',' s = true
    · rw [if_pos hcm] at h
      cases hpv : parse_value fuel (skip s.tail) with
      | error e1 =>
        rw [hpv, ebind_err] at h
        simp only [Except.error.injEq] at h
        subst h
        have := parse_value_err_sfx fuel (skip s.tail) e hpv
        exact (this.trans (skip_suffix s.tail)).trans (headIs_tail ',' s hcm).1
      | ok x =>
        obtain ⟨item, r1⟩ := x
        rw [hpv] at h
        simp only [ebind_ok] at h
        cases har : parse_array_rest fuel (skip r1) with
        | error e2 =>
          rw [har, ebind_err] at h
          simp only [Except.error.injEq] at h
          subst h
          have hval := parse_value_ok_sfx fuel (skip s.tail) item r1 hpv
          have := parse_array_rest_err_sfx fuel (skip r1) e har
          exact (((this.trans (skip_suffix r1)).trans hval.1).trans
            (skip_suffix s.tail)).trans (headIs_tail ',' s hcm).1
        | ok y =>
          obtain ⟨chain, r2⟩ := y
          rw [har] at h
          simp only [ebind_ok, epure] at h
          exact absurd h (by simp)
    · rw [if_neg hcm] at h
      exact absurd h (by simp)

/-- A successful `parse_object` leaves a strictly shorter suffix of its input. -/
theorem parse_object_ok_sfx : ∀ (fuel : Nat) (s : List Char) (t : cJSON) (r : List Char),
    parse_object fuel s = .ok (t, r) → r <:+ s ∧ r.length < s.length
  | 0, s, t, r, h => absurd h (by simp [parse_object])
  | fuel + 1, s, t, r, h => by
    cases s with
    | nil =>
      rw [parse_object_nil] at h
      exact absurd h (by simp)
    | cons c rest0 =>
      simp only [parse_object] at h
      by_cases hc : c = '\x7b'
      · rw [if_pos hc] at h
        by_cases hcl : headIs '\x7d' (skip rest0) = true
        · rw [if_pos hcl] at h
          simp only [Except.ok.injEq, Prod.mk.injEq] at h
          obtain ⟨-, h2⟩ := h
          subst h2
          have ht := headIs_tail '\x7d' (skip rest0) hcl
          have hsk := skip_suffix rest0
          have hskl := skip_length_le rest0
          refine ⟨(ht.1.trans hsk).trans (List.suffix_cons _ _), ?_⟩
          have := ht.2
          simp only [List.length_cons]
          omega
        · rw [if_neg hcl] at h
          cases hpk : parse_key (skip (skip rest0)) with
          | error e1 =>
            rw [hpk, ebind_err] at h
            exact absurd h (by simp)
          | ok x =>
            obtain ⟨key, r1⟩ := x
            rw [hpk] at h
            simp only [ebind_ok] at h
            by_cases hcol : headIs ':' (skip r1) = true
            · rw [if_pos hcol] at h
              cases hpv : parse_value fuel (skip (skip r1).tail) with
              | error e2 =>
                rw [hpv, ebind_err] at h
                exact absurd h (by simp)
              | ok y =>
                obtain ⟨val1, r3⟩ := y
                rw [hpv] at h
                simp only [ebind_ok] at h
                cases hor : parse_object_rest fuel (skip r3) with
                | error e3 =>
                  rw [hor, ebind_err] at h
                  exact absurd h (by simp)
                | ok z =>
                  obtain ⟨chain, r4⟩ := z
                  rw [hor] at h
                  simp only [ebind_ok] at h
                  by_cases hcl2 : headIs '\x7d' r4 = true
                  · rw [if_pos hcl2, epure] at h
                    simp only [Except.ok.injEq, Prod.mk.injEq] at h
                    obtain ⟨-, h2⟩ := h
                    subst h2
                    have ht := headIs_tail '\x7d' r4 hcl2
                    have htc := headIs_tail ':' (skip r1) hcol
                    have hkey := parse_key_consumed (skip (skip rest0)) key r1 hpk
                    have hval := parse_value_ok_sfx fuel (skip (skip r1).tail) val1 r3 hpv
                    have hrest := parse_object_rest_ok_sfx fuel (skip r3) chain r4 hor
                    refine ⟨((((((((ht.1.trans hrest.1).trans (skip_suffix r3)).trans
                      hval.1).trans (skip_suffix (skip r1).tail)).trans htc.1).trans
                      (skip_suffix r1)).trans hkey.1).trans
                      ((skip_suffix (skip rest0)).trans (skip_suffix rest0))).trans
                      (List.suffix_cons _ _), ?_⟩
                    have l1 := ht.2
                    have l2 := hrest.2
                    have l3 := skip_length_le r3
                    have l4 := hval.2
                    have l5 := skip_length_le (skip r1).tail
                    have l6 := htc.2
                    have l7 := skip_length_le r1
                    have l8 := hkey.2
                    have l9 := skip_length_le (skip rest0)
                    have l10 := skip_length_le rest0
                    simp only [List.length_cons]
                    omega
                  · rw [if_neg hcl2, ethrow] at h
                    exact absurd h (by simp)
            · rw [if_neg hcol, ethrow] at h
              exact absurd h (by simp)
      · rw [if_neg hc] at h
        exact absurd h (by simp)

/-- A `parse_object` failure that stores a position stores a suffix of its input. -/
theorem parse_value_err_sfx_object : ∀ (fuel : Nat) (s e : List Char),
    parse_object fuel s = .error (.fail (some e)) → e <:+ s
  | 0, s, e, h => absurd h (by simp [parse_object])
  | fuel + 1, s, e, h => by
    cases s with
    | nil =>
      rw [parse_object_nil] at h
      simp only [Except.error.injEq, ParseErr.fail.injEq, Option.some.injEq] at h
      subst h
      exact List.nil_suffix
    | cons c rest0 =>
      simp only [parse_object] at h
      by_cases hc : c = '\x7b'
      · rw [if_pos hc] at h
        by_cases hcl : headIs '\x7d' (skip rest0) = true
        · rw [if_pos hcl] at h
          exact absurd h (by simp)
        · rw [if_neg hcl] at h
          cases hpk : parse_key (skip (skip rest0)) with
          | error e1 =>
            rw [hpk, ebind_err] at h
            simp only [Except.error.injEq] at h
            subst h
            have := parse_key_err (skip (skip rest0)) e hpk
            subst this
            exact ((skip_suffix (skip rest0)).trans (skip_suffix rest0)).trans
              (List.suffix_cons _ _)
          | ok x =>
            obtain ⟨key, r1⟩ := x
            rw [hpk] at h
            simp only [ebind_ok] at h
            have hkey := parse_key_consumed (skip (skip rest0)) key r1 hpk
            have hr1s : r1 <:+ c :: rest0 :=
              (hkey.1.trans ((skip_suffix (skip rest0)).trans (skip_suffix rest0))).trans
                (List.suffix_cons _ _)
            by_cases hcol : headIs ':' (skip r1) = true
            · rw [if_pos hcol] at h
              have htc := headIs_tail ':' (skip r1) hcol
              cases hpv : parse_value fuel (skip (skip r1).tail) with
              | error e2 =>
                rw [hpv, ebind_err] at h
                simp only [Except.error.injEq] at h
                subst h
                have := parse_value_err_sfx fuel (skip (skip r1).tail) e hpv
                exact (((this.trans (skip_suffix (skip r1).tail)).trans htc.1).trans
                  (skip_suffix r1)).trans hr1s
              | ok y =>
                obtain ⟨val1, r3⟩ := y
                rw [hpv] at h
                simp only [ebind_ok] at h
                have hval := parse_value_ok_sfx fuel (skip (skip r1).tail) val1 r3 hpv
                have hr3s : r3 <:+ c :: rest0 :=
                  (((hval.1.trans (skip_suffix (skip r1).tail)).trans htc.1).trans
                    (skip_suffix r1)).trans hr1s
                cases hor : parse_object_rest fuel (skip r3) with
                | error e3 =>
                  rw [hor, ebind_err] at h
                  simp only [Except.error.injEq] at h
                  subst h
                  have := parse_object_rest_err_sfx fuel (skip r3) e hor
                  exact (this.trans (skip_suffix r3)).trans hr3s
                | ok z =>
                  obtain ⟨chain, r4⟩ := z
                  rw [hor] at h
                  simp only [ebind_ok] at h
                  by_cases hcl2 : headIs '\x7d' r4 = true
                  · rw [if_pos hcl2, epure] at h
                    exact absurd h (by simp)
                  · rw [if_neg hcl2, ethrow] at h
                    simp only [Except.error.injEq, ParseErr.fail.injEq,
                      Option.some.injEq] at h
                    subst h
                    have hrest := parse_object_rest_ok_sfx fuel (skip r3) chain r4 hor
                    exact (hrest.1.trans (skip_suffix r3)).trans hr3s
            · rw [if_neg hcol, ethrow] at h
              simp only [Except.error.injEq, ParseErr.fail.injEq, Option.some.injEq] at h
              subst h
              exact (skip_suffix r1).trans hr1s
      · rw [if_neg hc] at h
        simp only [Except.error.injEq, ParseErr.fail.injEq, Option.some.injEq] at h
        subst h
        exact List.suffix_refl _

/-- A successful member loop leaves a suffix no longer than its input. -/
theorem parse_object_rest_ok_sfx : ∀ (fuel : Nat) (s : List Char) (ch : NodeRef) (r : List Char),
    parse_object_rest fuel s = .ok (ch, r) → r <:+ s ∧ r.length ≤ s.length
  | 0, s, ch, r, h => absurd h (by simp [parse_object_rest])
  | fuel + 1, s, ch, r, h => by
    simp only [parse_object_rest] at h
    by_cases hcm : headIs ',' s = true
    · rw [if_pos hcm] at h
      cases hpk : parse_key (skip s.tail) with
      | error e1 =>
        rw [hpk, ebind_err] at h
        exact absurd h (by simp)
      | ok x =>
        obtain ⟨key, r1⟩ := x
        rw [hpk] at h
        simp only [ebind_ok] at h
        by_cases hcol : headIs ':' (skip r1) = true
        · rw [if_pos hcol] at h
          cases hpv : parse_value fuel (skip (skip r1).tail) with
          | error e2 =>
            rw [hpv, ebind_err] at h
            exact absurd h (by simp)
          | ok y =>
            obtain ⟨val1, r3⟩ := y
            rw [hpv] at h
            simp only [ebind_ok] at h
            cases hor : parse_object_rest fuel (skip r3) with
            | error e3 =>
              rw [hor, ebind_err] at h
              exact absurd h (by simp)
            | ok z =>
              obtain ⟨chain, r4⟩ := z
              rw [hor] at h
              simp only [ebind_ok, epure, Except.ok.injEq, Prod.mk.injEq] at h
              obtain ⟨-, h2⟩ := h
              subst h2
              have ht := headIs_tail ',' s hcm
              have htc := headIs_tail ':' (skip r1) hcol
              have hkey := parse_key_consumed (skip s.tail) key r1 hpk
              have hval := parse_value_ok_sfx fuel (skip (skip r1).tail) val1 r3 hpv
              have hrest := parse_object_rest_ok_sfx fuel (skip r3) chain r4 hor
              refine ⟨(((((((hrest.1.trans (skip_suffix r3)).trans hval.1).trans
                (skip_suffix (skip r1).tail)).trans htc.1).trans
                (skip_suffix r1)).trans hkey.1).trans (skip_suffix s.tail)).trans
                ht.1, ?_⟩
              have l1 := ht.2
              have l2 := hrest.2
              have l3 := skip_length_le r3
              have l4 := hval.2
              have l5 := skip_length_le (skip r1).tail
              have l6 := htc.2
              have l7 := skip_length_le r1
              have l8 := hkey.2
              have l9 := skip_length_le s.tail
              omega
        · rw [if_neg hcol, ethrow] at h
          exact absurd h (by simp)
    · rw [if_neg hcm] at h
      simp only [Except.ok.injEq, Prod.mk.injEq] at h
      obtain ⟨-, h2⟩ := h
      subst h2
      exact ⟨List.suffix_refl _, le_refl _⟩

/-- A member-loop failure that stores a position stores a suffix of its input. -/
theorem parse_object_rest_err_sfx : ∀ (fuel : Nat) (s e : List Char),
    parse_object_rest fuel s = .error (.fail (some e)) → e <:+ s
  | 0, s, e, h => absurd h (by simp [parse_object_rest])
  | fuel + 1, s, e, h => by
    simp only [parse_object_rest] at h
    by_cases hcm : headIs ',' s = true
    · rw [if_pos hcm] at h
      have ht := headIs_tail ',' s hcm
      cases hpk : parse_key (skip s.tail) with
      | error e1 =>
        rw [hpk, ebind_err] at h
        simp only [Except.error.injEq] at h
        subst h
        have := parse_key_err (skip s.tail) e hpk
        subst this
        exact (skip_suffix s.tail).trans ht.1
      | ok x =>
        obtain ⟨key, r1⟩ := x
        rw [hpk] at h
        simp only [ebind_ok] at h
        have hkey := parse_key_consumed (skip s.tail) key r1 hpk
        have hr1s : r1 <:+ s := (hkey.1.trans (skip_suffix s.tail)).trans ht.1
        by_cases hcol : headIs ':' (skip r1) = true
        · rw [if_pos hcol] at h
          have htc := headIs_tail ':' (skip r1) hcol
          cases hpv : parse_value fuel (skip (skip r1).tail) with
          | error e2 =>
            rw [hpv, ebind_err] at h
            simp only [Except.error.injEq] at h
            subst h
            have := parse_value_err_sfx fuel (skip (skip r1).tail) e hpv
            exact (((this.trans (skip_suffix (skip r1).tail)).trans htc.1).trans
              (skip_suffix r1)).trans hr1s
          | ok y =>
            obtain ⟨val1, r3⟩ := y
            rw [hpv] at h
            simp only [ebind_ok] at h
            have hval := parse_value_ok_sfx fuel (skip (skip r1).tail) val1 r3 hpv
            have hr3s : r3 <:+ s :=
              (((hval.1.trans (skip_suffix (skip r1).tail)).trans htc.1).trans
                (skip_suffix r1)).trans hr1s
            cases hor : parse_object_rest fuel (skip r3) with
            | error e3 =>
              rw [hor, ebind_err] at h
              simp only [Except.error.injEq] at h
              subst h
              have := parse_object_rest_err_sfx fuel (skip r3) e hor
              exact (this.trans (skip_suffix r3)).trans hr3s
            | ok z =>
              obtain ⟨chain, r4⟩ := z
              rw [hor] at h
              simp only [ebind_ok, epure] at h
              exact absurd h (by simp)
        · rw [if_neg hcol, ethrow] at h
          simp only [Except.error.injEq, ParseErr.fail.injEq, Option.some.injEq] at h
          subst h
          exact (skip_suffix r1).trans hr1s
    · rw [if_neg hcm] at h
      exact absurd h (by simp)

end

/-- C6 counterexample: the malformed input `-a` makes the parse fail (no tree),
yet the error slot is left absent — `parse_number` returns NULL without
storing a position, so not every failure records one. -/
theorem C6_counterexample : cJSON_Parse ("-a".toList) = (none, none) := rfl

/-- C6 (amended): after a successful parse the error slot is absent, and
whenever the error slot is set it holds a position within the parsed text
(a suffix of the input); but a failure need not set it. -/
theorem C6_amended (s : List Char) (req : Bool) :
    ((cJSON_ParseWithOpts s req).1.isSome = true → (cJSON_ParseWithOpts s req).2 = none) ∧
    (∀ e, (cJSON_ParseWithOpts s req).2 = some e → e <:+ s) := by
  cases hpv : parse_value (3 * s.length + 3) (skip s) with
  | error err =>
    cases err with
    | outOfFuel =>
      have heq : cJSON_ParseWithOpts s req = (none, none) := by
        unfold cJSON_ParseWithOpts; rw [hpv]
      rw [heq]
      exact ⟨fun hc => by simp at hc, fun e he => by simp at he⟩
    | fail e0 =>
      have heq : cJSON_ParseWithOpts s req = (none, e0) := by
        unfold cJSON_ParseWithOpts; rw [hpv]
      rw [heq]
      refine ⟨fun hc => by simp at hc, fun e he => ?_⟩
      simp only [Option.some.injEq] at he
      subst he
      exact (parse_value_err_sfx (3 * s.length + 3) (skip s) e hpv).trans (skip_suffix s)
  | ok x =>
    obtain ⟨t, endp⟩ := x
    have hok := parse_value_ok_sfx (3 * s.length + 3) (skip s) t endp hpv
    cases req with
    | false =>
      have heq : cJSON_ParseWithOpts s false = (some t, none) := by
        unfold cJSON_ParseWithOpts; rw [hpv]
        rfl
      rw [heq]
      exact ⟨fun _ => rfl, fun e he => by simp at he⟩
    | true =>
      by_cases hend : skip endp = []
      · have heq : cJSON_ParseWithOpts s true = (some t, none) := by
          unfold cJSON_ParseWithOpts; rw [hpv]
          show (if skip endp = [] then (some t, none) else (none, some (skip endp))) =
            (some t, none)
          rw [if_pos hend]
        rw [heq]
        exact ⟨fun _ => rfl, fun e he => by simp at he⟩
      · have heq : cJSON_ParseWithOpts s true = (none, some (skip endp)) := by
          unfold cJSON_ParseWithOpts; rw [hpv]
          show (if skip endp = [] then (some t, none) else (none, some (skip endp))) =
            (none, some (skip endp))
          rw [if_neg hend]
        rw [heq]
        refine ⟨fun hc => by simp at hc, fun e he => ?_⟩
        simp only [Option.some.injEq] at he
        subst he
        exact ((skip_suffix endp).trans hok.1).trans (skip_suffix s)

/-- C6 witness: `1` parses successfully with the error slot absent; `[a`
fails with the error slot holding `a`, a suffix of the input. -/
theorem C6_amended_witness :
    ((cJSON_ParseWithOpts ("1".toList) false).1.isSome = true ∧
      (cJSON_ParseWithOpts ("1".toList) false).2 = none) ∧
    ((cJSON_ParseWithOpts ("[a".toList) false).2 = some ['a'] ∧
      ['a'] <:+ "[a".toList) :=
  ⟨⟨rfl, (C6_amended ("1".toList) false).1 rfl⟩,
   ⟨rfl, (C6_amended ("[a".toList) false).2 ['a'] rfl⟩⟩

/-! ## Claim C7: object layout in pretty and compact serialization
(src/cJSON.c lines 552-694 print_string_ptr, 845-921 print_value,
990-1153 print_array, 1250-1522 print_object; the `p == NULL`,
malloc-always-succeeds branches). -/

/-- The `flag` test of `print_string_ptr`: the `*ptr > 0` comparison is on
a signed char, so bytes at or above 0x80 do not set the flag. -/
def needsEscaping (c : Char) : Bool :=
  decide ((0 < c.toNat ∧ c.toNat < 32) ∨ c = '\"' ∨ c = '\\')

/-- One escaped character: the named C escapes, `\u%04x` otherwise. -/
def escapeChar (c : Char) : List Char :=
  '\\' :: (if c = '\\' then ['\\']
    else if c = '\"' then ['\"']
    else if c.toNat = 8 then ['b']
    else if c.toNat = 12 then ['f']
    else if c.toNat = 10 then ['n']
    else if c.toNat = 13 then ['r']
    else if c.toNat = 9 then ['t']
    else 'u' :: toHex4 c.toNat)

/-- The escaping copy loop of `print_string_ptr` (the `(unsigned char)*ptr
> 31` comparison is unsigned, so bytes at or above 0x80 are copied). -/
def escapeChars (s : List Char) : List Char :=
  match s with
  | [] => []
  | c :: r =>
    (if 31 < c.toNat ∧ c ≠ '\"' ∧ c ≠ '\\' then [c] else escapeChar c) ++ escapeChars r

/-- Faithful model of `print_string_ptr` (NULL prints as an empty quoted
string; no escaping needed means a plain copy between quotes). -/
def print_string_ptr (str : Option (List Char)) : List Char :=
  match str with
  | none => ['\"', '\"']
  | some s =>
    if s.any needsEscaping then '\"' :: escapeChars s ++ ['\"']
    else '\"' :: s ++ ['\"']

def NodeRef.isNull : NodeRef → Bool
  | .null => true
  | .ptr _ => false

mutual

/-- Faithful model of `print_value` (the non-buffered branch). -/
def print_value (item : cJSON) (depth : Nat) (fmt : Bool) : List Char :=
  match item with
  | .mk ty vs vn _ _ _ _ ch _ =>
    match ty with
    | .cJSON_NULL => "null".toList
    | .cJSON_False => "false".toList
    | .cJSON_True => "true".toList
    | .cJSON_Number => print_number vn
    | .cJSON_String => print_string_ptr vs
    | .cJSON_Array =>
      if ch.isNull then "[]".toList
      else '[' :: (print_array_items ch depth fmt ++ [']'])
    | .cJSON_Object =>
      if ch.isNull then
        '\x7b' :: ((if fmt then '\n' :: List.replicate depth '\t' else []) ++ ['\x7d'])
      else
        '\x7b' :: ((if fmt then ['\n'] else []) ++
          print_object_items ch (depth + 1) fmt ++
          (if fmt then List.replicate depth '\t' else []) ++ ['\x7d'])
termination_by structural item

/-- The per-element loop of `print_array` (elements print one level deeper;
the separator is `,` — `, ` when formatted). -/
def print_array_items (r : NodeRef) (depth : Nat) (fmt : Bool) : List Char :=
  match r with
  | .null => []
  | .ptr c => print_value c (depth + 1) fmt ++ print_array_next c depth fmt
termination_by structural r

/-- After one array element: the comma when an element follows, then the
remaining elements. -/
def print_array_next (c : cJSON) (depth : Nat) (fmt : Bool) : List Char :=
  match c with
  | .mk _ _ _ _ _ _ _ _ nx =>
    (if nx.isNull then [] else if fmt then [',', ' '] else [',']) ++
      print_array_items nx depth fmt
termination_by structural c

/-- The per-member loop of `print_object` (called with the incremented
depth): optional depth tabs, the printed key, `:`, a tab when formatted,
then the printed value and the rest. -/
def print_object_items (r : NodeRef) (depth : Nat) (fmt : Bool) : List Char :=
  match r with
  | .null => []
  | .ptr c =>
    (if fmt then List.replicate depth '\t' else []) ++
      print_string_ptr c.name ++ ':' :: (if fmt then ['\t'] else []) ++
      print_value c depth fmt ++ print_object_next c depth fmt
termination_by structural r

/-- After one object member: the comma when a member follows, the newline
when formatted, then the remaining members. -/
def print_object_next (c : cJSON) (depth : Nat) (fmt : Bool) : List Char :=
  match c with
  | .mk _ _ _ _ _ _ _ _ nx =>
    (if nx.isNull then [] else [',']) ++
      (if fmt then ['\n'] else []) ++
      print_object_items nx depth fmt
termination_by structural c

end

/-- Join a list of pieces with a separator (no trailing separator). -/
def joinSep (sep : List Char) : List (List Char) → List Char
  | [] => []
  | [x] => x
  | x :: y :: t => x ++ sep ++ joinSep sep (y :: t)

theorem print_value_withNext (t : CType) (vs : Option (List Char)) (vn : DoubleV)
    (vb : Bool) (nm : Option (List Char)) (sc ir : Bool) (ch nx : NodeRef)
    (d : Nat) (f : Bool) :
    print_value (.mk t vs vn vb nm sc ir ch nx) d f =
      print_value (.mk t vs vn vb nm sc ir ch .null) d f := by
  cases t <;> rfl

theorem chainItems_ne_nil (ch : NodeRef) (h : ch.isNull = false) :
    chainItems ch ≠ [] := by
  cases ch with
  | null => simp [NodeRef.isNull] at h
  | ptr c =>
    obtain ⟨t, vs, vn, vb, nm, sc, ir, ch0, nx⟩ := c
    simp [chainItems]

/-- The member loop in pretty mode: the members rendered at the given
depth, separated by a comma-newline pair, with one trailing newline. -/
theorem print_object_items_pretty : ∀ (r : NodeRef) (d : Nat),
    print_object_items r d true =
      joinSep [',', '\n'] ((chainItems r).map (fun it =>
        List.replicate d '\t' ++ print_string_ptr it.name ++
          ':' :: '\t' :: print_value it d true)) ++
        (if r.isNull then [] else ['\n'])
  | .null, d => by simp [print_object_items, chainItems, joinSep, NodeRef.isNull]
  | .ptr (.mk t vs vn vb nm sc ir ch nx), d => by
    have ih := print_object_items_pretty nx d
    simp only [print_object_items, print_object_next, chainItems, List.map,
      cJSON.name, cJSON.next, NodeRef.isNull, if_pos rfl]
    rw [print_value_withNext]
    cases nx with
    | null =>
      simp [chainItems, joinSep, NodeRef.isNull, print_object_items]
    | ptr c2 =>
      obtain ⟨t2, vs2, vn2, vb2, nm2, sc2, ir2, ch2, nx2⟩ := c2
      simp only [chainItems, List.map, joinSep, NodeRef.isNull, if_neg] at ih ⊢
      rw [ih]
      simp [List.append_assoc, cJSON.name]

/-- The member loop in compact mode: the members, comma-separated. -/
theorem print_object_items_compact : ∀ (r : NodeRef) (d : Nat),
    print_object_items r d false =
      joinSep [','] ((chainItems r).map (fun it =>
        print_string_ptr it.name ++ ':' :: print_value it d false))
  | .null, d => by simp [print_object_items, chainItems, joinSep]
  | .ptr (.mk t vs vn vb nm sc ir ch nx), d => by
    have ih := print_object_items_compact nx d
    simp only [print_object_items, print_object_next, chainItems, List.map,
      cJSON.name, cJSON.next, NodeRef.isNull]
    rw [print_value_withNext]
    cases nx with
    | null =>
      simp [chainItems, joinSep, NodeRef.isNull, print_object_items]
    | ptr c2 =>
      obtain ⟨t2, vs2, vn2, vb2, nm2, sc2, ir2, ch2, nx2⟩ := c2
      simp only [chainItems, List.map, joinSep, NodeRef.isNull] at ih ⊢
      rw [ih]
      simp [List.append_assoc, cJSON.name]

/-- Moving the newline that ends each member to the front of the member
that follows it (and of the closing brace). -/
theorem joinSep_newline_shift : ∀ (xs : List (List Char)), xs ≠ [] →
    '\n' :: (joinSep [',', '\n'] xs ++ ['\n']) =
      joinSep [','] (xs.map (fun x => '\n' :: x)) ++ ['\n']
  | [], h => absurd rfl h
  | [x], _ => by simp [joinSep]
  | x :: y :: tl, _ => by
    have ih := joinSep_newline_shift (y :: tl) (by simp)
    simp only [joinSep, List.map, List.append_assoc, List.cons_append,
      List.nil_append] at ih ⊢
    rw [← ih]

theorem joinSep_newline_shift_tail (xs : List (List Char)) (tail : List Char)
    (h : xs ≠ []) :
    '\n' :: (joinSep [',', '\n'] xs ++ '\n' :: tail) =
      joinSep [','] (xs.map (fun x => '\n' :: x)) ++ '\n' :: tail := by
  have h2 := congrArg (fun l => l ++ tail) (joinSep_newline_shift xs h)
  simpa [List.append_assoc] using h2

/-- C7 (amended): pretty object serialization emits one newline and
depth-plus-one tabs before each member and one newline and depth tabs
before the closing brace, and a single TAB (not a space) after each key's
colon; compact mode emits none of these and separates members by a bare
comma. -/
theorem C7_amended (vs : Option (List Char)) (vn : DoubleV) (vb : Bool)
    (nm : Option (List Char)) (sc ir : Bool) (ch nx : NodeRef) (d : Nat)
    (h : ch.isNull = false) :
    print_value (.mk .cJSON_Object vs vn vb nm sc ir ch nx) d true =
      '\x7b' :: (joinSep [','] ((chainItems ch).map (fun it =>
          '\n' :: (List.replicate (d + 1) '\t' ++ print_string_ptr it.name ++
            ':' :: '\t' :: print_value it (d + 1) true))) ++
        '\n' :: (List.replicate d '\t' ++ ['\x7d'])) ∧
    print_value (.mk .cJSON_Object vs vn vb nm sc ir ch nx) d false =
      '\x7b' :: (joinSep [','] ((chainItems ch).map (fun it =>
        print_string_ptr it.name ++ ':' :: print_value it (d + 1) false)) ++
        ['\x7d']) := by
  have hne : (chainItems ch).map (fun it =>
      List.replicate (d + 1) '\t' ++ (print_string_ptr it.name ++
        ':' :: '\t' :: print_value it (d + 1) true)) ≠ [] := by
    intro hc
    exact chainItems_ne_nil ch h (List.map_eq_nil_iff.mp hc)
  constructor
  · simp only [print_value, h, Bool.false_eq_true, if_false, if_true]
    rw [print_object_items_pretty ch (d + 1), h]
    simp only [Bool.false_eq_true, if_false, if_true, List.cons_append,
      List.nil_append, List.append_assoc]
    rw [joinSep_newline_shift_tail _ _ hne]
    simp only [List.map_map]
    rfl
  · simp only [print_value, h, Bool.false_eq_true, if_false, if_true]
    rw [print_object_items_compact ch (d + 1)]
    simp [List.append_assoc]

/-- C7 counterexample: pretty-printing the one-member object `\x7b"k":3\x7d`
puts a TAB after the key's colon, not the single space the claim
describes. -/
theorem C7_counterexample :
    print_value (.mk .cJSON_Object none (.finite ⟨0, 1⟩) false none false false
        (.ptr ((numberNode ⟨3, 1⟩).withName (some ['k']))) .null) 0 true =
      "\x7b\n\t\"k\":\t3\n\x7d".toList ∧
    print_value (.mk .cJSON_Object none (.finite ⟨0, 1⟩) false none false false
        (.ptr ((numberNode ⟨3, 1⟩).withName (some ['k']))) .null) 0 true ≠
      "\x7b\n\t\"k\": 3\n\x7d".toList := by
  exact ⟨rfl, by decide⟩

/-- C7 witness: the amended layout at a concrete two-member object, in both
modes. -/
theorem C7_amended_witness :
    print_value (.mk .cJSON_Object none (.finite ⟨0, 1⟩) false none false false
        (.ptr (((numberNode ⟨1, 1⟩).withName (some ['a'])).withNext
          (.ptr ((numberNode ⟨2, 1⟩).withName (some ['b']))))) .null) 0 true =
      "\x7b\n\t\"a\":\t1,\n\t\"b\":\t2\n\x7d".toList ∧
    print_value (.mk .cJSON_Object none (.finite ⟨0, 1⟩) false none false false
        (.ptr (((numberNode ⟨1, 1⟩).withName (some ['a'])).withNext
          (.ptr ((numberNode ⟨2, 1⟩).withName (some ['b']))))) .null) 0 false =
      "\x7b\"a\":1,\"b\":2\x7d".toList :=
  ⟨((C7_amended none (.finite ⟨0, 1⟩) false none false false
      (.ptr (((numberNode ⟨1, 1⟩).withName (some ['a'])).withNext
        (.ptr ((numberNode ⟨2, 1⟩).withName (some ['b']))))) .null 0 rfl).1).trans
    (by rfl),
   ((C7_amended none (.finite ⟨0, 1⟩) false none false false
      (.ptr (((numberNode ⟨1, 1⟩).withName (some ['a'])).withNext
        (.ptr ((numberNode ⟨2, 1⟩).withName (some ['b']))))) .null 0 rfl).2).trans
    (by rfl)⟩

/-! ## Claim C1: parse / compact-print / re-parse roundtrip -/

theorem scanEnd_safe_append : ∀ (a z : List Char),
    (∀ c ∈ a, ¬(c = '\"' ∨ c = '\\')) →
    scanEnd (a ++ z) = (scanEnd z).map (· + a.length)
  | [], z, _ => by
    simp
  | c :: a', z, h => by
    rw [List.cons_append, scanEnd]
    have hc := h c (by simp)
    rw [if_neg (fun hq => hc (Or.inl hq)), if_neg (fun hb => hc (Or.inr hb))]
    rw [scanEnd_safe_append a' z (fun d hd => h d (by simp [hd]))]
    cases scanEnd z <;> rfl

theorem toHex4_safe (n : Nat) : ∀ c ∈ toHex4 n, ¬(c = '\"' ∨ c = '\\') := by
  have hs : ∀ d : Nat, ¬(hexChar (d % 16) = '\"' ∨ hexChar (d % 16) = '\\') := by
    intro d hq
    have h16 : d % 16 < 16 := Nat.mod_lt _ (by norm_num)
    rcases hq with hq | hq
    · exact (hexChar_ne_quote_backslash _ h16).1 hq
    · exact (hexChar_ne_quote_backslash _ h16).2 hq
  intro c hc
  simp only [toHex4, List.mem_cons, List.not_mem_nil, or_false] at hc
  rcases hc with h | h | h | h <;> (subst h; exact hs _)

theorem escapeChar_eq_of_control (c : Char) (h0 : c.toNat ≠ 0) (h31 : c.toNat < 32)
    (hn : c.toNat ≠ 8 ∧ c.toNat ≠ 12 ∧ c.toNat ≠ 10 ∧ c.toNat ≠ 13 ∧ c.toNat ≠ 9) :
    escapeChar c = '\\' :: 'u' :: toHex4 c.toNat := by
  have hbs : c ≠ '\\' := by intro hc; subst hc; simp at h31
  have hq : c ≠ '\"' := by intro hc; subst hc; simp at h31
  rw [escapeChar, if_neg hbs, if_neg hq, if_neg hn.1, if_neg hn.2.1, if_neg hn.2.2.1,
    if_neg hn.2.2.2.1, if_neg hn.2.2.2.2]

/-- Every character the copy loop escapes is a quote, a backslash, or a
control byte. -/
theorem escaped_cases (c : Char) (h : ¬(31 < c.toNat ∧ c ≠ '\"' ∧ c ≠ '\\')) :
    c = '\"' ∨ c = '\\' ∨ c.toNat < 32 := by
  by_cases hq : c = '\"'
  · exact Or.inl hq
  · by_cases hb : c = '\\'
    · exact Or.inr (Or.inl hb)
    · rcases Nat.lt_or_ge 31 c.toNat with hgt | hle
      · exact absurd ⟨hgt, hq, hb⟩ h
      · exact Or.inr (Or.inr (by omega))

/-- The scan pass steps over one escape sequence in one `scanEndEsc` hop
(plus the raw hex digits of a `u` escape). -/
theorem scanEnd_escapeChar_step (c : Char) (tail : List Char)
    (hcs : c = '\"' ∨ c = '\\' ∨ c.toNat < 32) :
    scanEnd (escapeChar c ++ tail) = (scanEnd tail).map (· + (escapeChar c).length) := by
  have hstep : ∀ x : Char, scanEnd ('\\' :: x :: tail) = (scanEnd tail).map (· + 2) := by
    intro x
    rw [scanEnd, if_neg (by decide), if_pos rfl, scanEndEsc]
  by_cases h1 : c = '\\'
  · rw [escapeChar, if_pos h1]
    exact hstep _
  · rw [escapeChar, if_neg h1]
    by_cases h2 : c = '\"'
    · rw [if_pos h2]; exact hstep _
    · rw [if_neg h2]
      have h31 : c.toNat < 32 := by
        rcases hcs with h | h | h
        · exact absurd h h2
        · exact absurd h h1
        · exact h
      by_cases h8 : c.toNat = 8
      · rw [if_pos h8]; exact hstep _
      · rw [if_neg h8]
        by_cases h12 : c.toNat = 12
        · rw [if_pos h12]; exact hstep _
        · rw [if_neg h12]
          by_cases h10 : c.toNat = 10
          · rw [if_pos h10]; exact hstep _
          · rw [if_neg h10]
            by_cases h13 : c.toNat = 13
            · rw [if_pos h13]; exact hstep _
            · rw [if_neg h13]
              by_cases h9 : c.toNat = 9
              · rw [if_pos h9]; exact hstep _
              · rw [if_neg h9]
                simp only [List.cons_append, List.length_cons]
                rw [scanEnd, if_neg (by decide), if_pos rfl, scanEndEsc,
                  scanEnd_safe_append (toHex4 c.toNat) tail (toHex4_safe _)]
                have hlen : (toHex4 c.toNat).length = 4 := by simp [toHex4]
                rw [hlen]
                cases scanEnd tail <;> rfl

/-- The body scan finds the closing quote right after the escaped payload. -/
theorem scanEnd_escapeChars : ∀ (p z : List Char),
    scanEnd (escapeChars p ++ '\"' :: z) = some (escapeChars p).length
  | [], z => by simp [escapeChars, scanEnd]
  | c :: p', z => by
    have ih := scanEnd_escapeChars p' z
    rw [escapeChars]
    by_cases hraw : 31 < c.toNat ∧ c ≠ '\"' ∧ c ≠ '\\'
    · rw [if_pos hraw]
      simp only [List.singleton_append, List.cons_append, List.nil_append,
        List.length_cons]
      rw [scanEnd, if_neg hraw.2.1, if_neg hraw.2.2, ih]
      rfl
    · rw [if_neg hraw]
      rw [List.append_assoc, List.length_append,
        scanEnd_escapeChar_step c _ (escaped_cases c hraw), ih]
      simp [Nat.add_comm]

/-- The decode pass undoes one escape sequence. -/
theorem decode_escapeChar_step (c : Char) (L : Nat) (tail acc : List Char)
    (h0 : c.toNat ≠ 0) (hcs : c = '\"' ∨ c = '\\' ∨ c.toNat < 32) :
    decode_string (L + (escapeChar c).length) (escapeChar c ++ tail) acc =
      decode_string L tail (acc ++ [c]) := by
  by_cases h1 : c = '\\'
  · subst h1
    rw [show escapeChar '\\' = ['\\', '\\'] from rfl]
    simp only [List.length_cons, List.length_nil, List.cons_append, List.nil_append]
    first
    | (rw [decode_string, if_pos rfl, decode_escape]; rfl)
    | rw [decode_string, if_pos rfl, decode_escape]
    | rw [decode_string, if_pos rfl]
  · by_cases h2 : c = '\"'
    · subst h2
      rw [show escapeChar '\"' = ['\\', '\"'] from rfl]
      simp only [List.length_cons, List.length_nil, List.cons_append, List.nil_append]
      first
      | (rw [decode_string, if_pos rfl, decode_escape]; rfl)
      | rw [decode_string, if_pos rfl, decode_escape]
      | rw [decode_string, if_pos rfl]
    · have h31 : c.toNat < 32 := by
        rcases hcs with h | h | h
        · exact absurd h h2
        · exact absurd h h1
        · exact h
      by_cases h8 : c.toNat = 8
      · have hcc : c = '\x08' := by first | (rw [← Char.ofNat_toNat c, h8]; rfl) | rw [← Char.ofNat_toNat c, h8]
        subst hcc
        rw [show escapeChar '\x08' = ['\\', 'b'] from rfl]
        simp only [List.length_cons, List.length_nil, List.cons_append, List.nil_append]
        first
        | (rw [decode_string, if_pos rfl, decode_escape]; rfl)
        | rw [decode_string, if_pos rfl, decode_escape]
        | rw [decode_string, if_pos rfl]
      · by_cases h12 : c.toNat = 12
        · have hcc : c = '\x0c' := by first | (rw [← Char.ofNat_toNat c, h12]; rfl) | rw [← Char.ofNat_toNat c, h12]
          subst hcc
          rw [show escapeChar '\x0c' = ['\\', 'f'] from rfl]
          simp only [List.length_cons, List.length_nil, List.cons_append,
            List.nil_append]
          first
          | (rw [decode_string, if_pos rfl, decode_escape]; rfl)
          | rw [decode_string, if_pos rfl, decode_escape]
          | rw [decode_string, if_pos rfl]
        · by_cases h10 : c.toNat = 10
          · have hcc : c = '\x0a' := by first | (rw [← Char.ofNat_toNat c, h10]; rfl) | rw [← Char.ofNat_toNat c, h10]
            subst hcc
            rw [show escapeChar '\x0a' = ['\\', 'n'] from rfl]
            simp only [List.length_cons, List.length_nil, List.cons_append,
              List.nil_append]
            first
            | (rw [decode_string, if_pos rfl, decode_escape]; rfl)
            | rw [decode_string, if_pos rfl, decode_escape]
            | rw [decode_string, if_pos rfl]
          · by_cases h13 : c.toNat = 13
            · have hcc : c = '\x0d' := by first | (rw [← Char.ofNat_toNat c, h13]; rfl) | rw [← Char.ofNat_toNat c, h13]
              subst hcc
              rw [show escapeChar '\x0d' = ['\\', 'r'] from rfl]
              simp only [List.length_cons, List.length_nil, List.cons_append,
                List.nil_append]
              first
              | (rw [decode_string, if_pos rfl, decode_escape]; rfl)
              | rw [decode_string, if_pos rfl, decode_escape]
              | rw [decode_string, if_pos rfl]
            · by_cases h9 : c.toNat = 9
              · have hcc : c = '\x09' := by first | (rw [← Char.ofNat_toNat c, h9]; rfl) | rw [← Char.ofNat_toNat c, h9]
                subst hcc
                rw [show escapeChar '\x09' = ['\\', 't'] from rfl]
                simp only [List.length_cons, List.length_nil, List.cons_append,
                  List.nil_append]
                first
                | (rw [decode_string, if_pos rfl, decode_escape]; rfl)
                | rw [decode_string, if_pos rfl, decode_escape]
                | rw [decode_string, if_pos rfl]
              · rw [escapeChar_eq_of_control c h0 h31 ⟨h8, h12, h10, h13, h9⟩]
                have hlen : ('\\' :: 'u' :: toHex4 c.toNat).length = 6 := by
                  simp [toHex4]
                rw [hlen, List.cons_append, List.cons_append]
                rw [decode_string, if_pos rfl, decode_escape, if_neg (by decide),
                  if_neg (by decide), if_neg (by decide), if_neg (by decide),
                  if_neg (by decide), if_neg (by decide), if_pos rfl]
                rw [decode_u.eq_def]
                rw [parse_hex4_toHex4 c.toNat (by omega) tail]
                rw [if_neg (by omega), if_neg (by omega), if_neg (by omega)]
                simp only [toHex4, List.cons_append, List.nil_append]
                rw [show utf8Encode c.toNat = [Char.ofNat c.toNat] from by
                  rw [utf8Encode, if_pos (by omega)]]
                rw [Char.ofNat_toNat]
                have hL : L + 5 + 1 - 6 = L := by omega
                rw [hL]

/-- Decoding the escaped payload reproduces the payload. -/
theorem decode_escapeChars : ∀ (p acc z : List Char), (∀ c ∈ p, c.toNat ≠ 0) →
    decode_string (escapeChars p).length (escapeChars p ++ z) acc = some (acc ++ p)
  | [], acc, z, _ => by simp [escapeChars, decode_string]
  | c :: p', acc, z, h => by
    have hc0 : c.toNat ≠ 0 := h c (by simp)
    have ih := decode_escapeChars p' (acc ++ [c]) z (fun d hd => h d (by simp [hd]))
    rw [escapeChars]
    by_cases hraw : 31 < c.toNat ∧ c ≠ '\"' ∧ c ≠ '\\'
    · rw [if_pos hraw]
      simp only [List.singleton_append, List.cons_append, List.nil_append,
        List.length_cons]
      rw [decode_string, if_neg hraw.2.2, ih]
      simp
    · rw [if_neg hraw]
      rw [List.append_assoc, List.length_append, Nat.add_comm]
      rw [decode_escapeChar_step c _ _ acc hc0 (escaped_cases c hraw), ih]
      simp

/-- When nothing needs escaping, the copy loop is the identity. -/
theorem escapeChars_id : ∀ (p : List Char),
    (∀ c ∈ p, needsEscaping c = false ∧ c.toNat ≠ 0) → escapeChars p = p
  | [], _ => rfl
  | c :: p', h => by
    have hc := h c (by simp)
    have h1 : ¬(0 < c.toNat ∧ c.toNat < 32) ∧ c ≠ '\"' ∧ c ≠ '\\' := by
      have := hc.1
      simp only [needsEscaping, decide_eq_false_iff_not] at this
      exact ⟨fun hx => this (Or.inl hx), fun hq => this (Or.inr (Or.inl hq)),
        fun hb => this (Or.inr (Or.inr hb))⟩
    have hge : 31 < c.toNat := by
      rcases Nat.lt_or_ge 31 c.toNat with hgt | hle
      · exact hgt
      · exact absurd ⟨Nat.pos_of_ne_zero hc.2, by omega⟩ h1.1
    rw [escapeChars, if_pos ⟨hge, h1.2⟩, escapeChars_id p' (fun d hd => h d (by simp [hd]))]
    rfl

/-- Re-parsing a printed string literal recovers the payload exactly and
consumes exactly the literal. -/
theorem parse_string_print (p rest : List Char) (h : ∀ c ∈ p, c.toNat ≠ 0) :
    parse_string (print_string_ptr (some p) ++ rest) = .ok (p, rest) := by
  have core : parse_string ('\"' :: (escapeChars p ++ '\"' :: rest)) = .ok (p, rest) := by
    rw [parse_string, if_pos rfl, parse_string_scan]
    rw [scanEnd_escapeChars p rest]
    show parse_string_decode ('\"' :: (escapeChars p ++ '\"' :: rest))
      (escapeChars p ++ '\"' :: rest) (escapeChars p).length = Except.ok (p, rest)
    rw [parse_string_decode.eq_def]
    rw [decode_escapeChars p [] ('\"' :: rest) h]
    simp only [List.nil_append]
    show Except.ok (parse_string_close p
      ((escapeChars p ++ '\"' :: rest).drop (escapeChars p).length)) =
      Except.ok (p, rest)
    rw [List.drop_left]
    rw [parse_string_close, if_pos rfl]
  by_cases hany : p.any needsEscaping
  · rw [print_string_ptr, if_pos hany]
    simpa [List.append_assoc] using core
  · rw [print_string_ptr, if_neg hany]
    have hid : escapeChars p = p := by
      apply escapeChars_id
      intro c hcmem
      refine ⟨?_, h c hcmem⟩
      by_cases he : needsEscaping c = true
      · exact absurd (List.any_eq_true.mpr ⟨c, hcmem, he⟩) hany
      · simpa using he
    rw [hid] at core
    simpa [List.append_assoc] using core

/-! ### Number tokens: every printed number re-reads as one `strtod` token -/

/-- `z` does not start with a decimal digit. -/
def noDigitHead (z : List Char) : Prop :=
  match z with
  | [] => True
  | c :: _ => ¬('0' ≤ c ∧ c ≤ '9')

/-- `z` cannot extend a number token: no digit, dot or exponent marker. -/
def numRestOK (z : List Char) : Prop :=
  match z with
  | [] => True
  | c :: _ => ¬('0' ≤ c ∧ c ≤ '9') ∧ c ≠ '.' ∧ c ≠ 'e' ∧ c ≠ 'E'

/-- Fraction part of a printed token: nothing, or a dot then its digits. -/
def frPart (fr : List Char) : List Char :=
  if fr = [] then [] else '.' :: fr

/-- Exponent part of a printed token: nothing, or `e`, a sign, digits. -/
def exPart (ex : Option (Char × List Char)) : List Char :=
  match ex with
  | none => []
  | some (sc, eds) => 'e' :: sc :: eds

/-- A `strtod`-shaped token: optional minus, integer digits, optional
fraction, optional signed exponent. -/
def numTok (neg : Bool) (ds fr : List Char) (ex : Option (Char × List Char)) :
    List Char :=
  (if neg then ['-'] else []) ++ ds ++ frPart fr ++ exPart ex

/-- The exact value `strtod` assigns to such a token. -/
def tokVal (neg : Bool) (ds fr : List Char) (ex : Option (Char × List Char)) : QVal :=
  match ex with
  | none => ⟨(if neg then -1 else 1) * (digitsVal (ds ++ fr) : Int), 10 ^ fr.length⟩
  | some (sc, eds) =>
    if sc = '-' then
      ⟨(if neg then -1 else 1) * (digitsVal (ds ++ fr) : Int),
        10 ^ (fr.length + digitsVal eds)⟩
    else
      ⟨(if neg then -1 else 1) * (digitsVal (ds ++ fr) : Int) * 10 ^ digitsVal eds,
        10 ^ fr.length⟩

theorem digit_ne_signs (c : Char) (h : '0' ≤ c ∧ c ≤ '9') :
    c ≠ '-' ∧ c ≠ '+' ∧ c ≠ '.' ∧ c ≠ 'e' ∧ c ≠ 'E' := by
  refine ⟨?_, ?_, ?_, ?_, ?_⟩ <;> (intro hc; subst hc; exact absurd h (by decide))

theorem spanDigits_digits : ∀ (ds z : List Char),
    (∀ c ∈ ds, '0' ≤ c ∧ c ≤ '9') → noDigitHead z → spanDigits (ds ++ z) = (ds, z)
  | [], z, _, hz => by
    cases z with
    | nil => rfl
    | cons c w =>
      rw [List.nil_append, spanDigits, if_neg hz]
  | d :: ds', z, hds, hz => by
    rw [List.cons_append, spanDigits, if_pos (hds d (by simp)),
      spanDigits_digits ds' z (fun c hc => hds c (by simp [hc])) hz]

theorem noDigitHead_of_numRestOK (z : List Char) (h : numRestOK z) : noDigitHead z := by
  cases z with
  | nil => trivial
  | cons c w => exact h.1

/-- `strtod` consumes exactly a printed number token, leaving the rest, and
assigns it the token value. -/
theorem strtod_token (neg : Bool) (ds fr : List Char) (ex : Option (Char × List Char))
    (z : List Char) (hds1 : ds ≠ []) (hds : ∀ c ∈ ds, '0' ≤ c ∧ c ≤ '9')
    (hfr : ∀ c ∈ fr, '0' ≤ c ∧ c ≤ '9')
    (hex : ∀ sc eds, ex = some (sc, eds) →
      (sc = '+' ∨ sc = '-') ∧ eds ≠ [] ∧ ∀ c ∈ eds, '0' ≤ c ∧ c ≤ '9')
    (hz : numRestOK z) :
    strtod (numTok neg ds fr ex ++ z) = some (tokVal neg ds fr ex, z) := by
  have hexTail : noDigitHead (exPart ex ++ z) := by
    cases ex with
    | none => exact noDigitHead_of_numRestOK z hz
    | some p =>
      obtain ⟨sc, eds⟩ := p
      exact (by decide : ¬('0' ≤ 'e' ∧ 'e' ≤ '9'))
  have hfrTail : noDigitHead (frPart fr ++ (exPart ex ++ z)) := by
    by_cases hfe : fr = []
    · rw [frPart, if_pos hfe, List.nil_append]
      exact hexTail
    · rw [frPart, if_neg hfe]
      exact (by decide : ¬('0' ≤ '.' ∧ '.' ≤ '9'))
  have hsign : strtodSign (numTok neg ds fr ex ++ z) =
      (neg, ds ++ (frPart fr ++ (exPart ex ++ z))) := by
    cases neg with
    | true =>
      rw [numTok, if_pos rfl]
      simp only [List.cons_append, List.singleton_append, List.nil_append,
        List.append_assoc]
      rw [strtodSign, if_pos rfl]
    | false =>
      rw [numTok]
      simp only [Bool.false_eq_true, if_false, List.nil_append, List.append_assoc]
      cases ds with
      | nil => exact absurd rfl hds1
      | cons d ds' =>
        have hd := hds d (by simp)
        have hne := digit_ne_signs d hd
        rw [List.cons_append, strtodSign, if_neg hne.1, if_neg hne.2.1]
  have hspan : spanDigits (ds ++ (frPart fr ++ (exPart ex ++ z))) =
      (ds, frPart fr ++ (exPart ex ++ z)) :=
    spanDigits_digits ds _ hds hfrTail
  have hfrac : strtodFrac (frPart fr ++ (exPart ex ++ z)) = (fr, exPart ex ++ z) := by
    by_cases hfe : fr = []
    · subst hfe
      rw [frPart, if_pos rfl, List.nil_append]
      cases hm : exPart ex ++ z with
      | nil => rw [strtodFrac]
      | cons c w =>
        rw [strtodFrac]
        have hcd : c ≠ '.' := by
          cases ex with
          | none =>
            cases z with
            | nil => simp [exPart] at hm
            | cons c0 w0 =>
              simp only [exPart, List.nil_append, List.cons.injEq] at hm
              rw [← hm.1]
              exact hz.2.1
          | some p =>
            obtain ⟨sc, eds⟩ := p
            simp only [exPart, List.cons_append, List.cons.injEq] at hm
            rw [← hm.1]
            decide
        rw [if_neg hcd, ← hm]
    · rw [frPart, if_neg hfe, List.cons_append, strtodFrac, if_pos rfl]
      exact spanDigits_digits fr _ hfr hexTail
  have hguard : ¬((spanDigits (strtodSign (numTok neg ds fr ex ++ z)).2).1 = [] ∧
      (strtodFrac (spanDigits (strtodSign (numTok neg ds fr ex ++ z)).2).2).1 = []) := by
    rw [hsign]
    simp only [hspan]
    exact fun hc => hds1 hc.1
  rw [strtod, if_neg hguard, hsign]
  simp only [hspan, hfrac]
  congr 1
  cases ex with
  | none =>
    simp only [tokVal, exPart]
    cases z with
    | nil =>
      rw [List.nil_append, strtodExp]
    | cons c w =>
      rw [List.nil_append, strtodExp, if_neg (fun hc => by
        rcases hc with hc | hc
        · exact hz.2.2.1 hc
        · exact hz.2.2.2 hc)]
  | some p =>
    obtain ⟨sc, eds⟩ := p
    obtain ⟨hsc, hene, hed⟩ := hex sc eds rfl
    simp only [exPart, List.cons_append]
    rw [strtodExp, if_pos (Or.inl rfl)]
    have hsign2 : strtodSign (sc :: (eds ++ z)) = (decide (sc = '-'), eds ++ z) := by
      rcases hsc with hp | hm
      · subst hp
        rw [strtodSign, if_neg (by decide), if_pos rfl]
        simp
      · subst hm
        rw [strtodSign, if_pos rfl]
        simp
    rw [hsign2]
    simp only [spanDigits_digits eds z hed (noDigitHead_of_numRestOK z hz)]
    rw [if_neg hene]
    by_cases hneg2 : sc = '-'
    · subst hneg2
      simp [tokVal]
    · rw [if_neg (by simpa using hneg2)]
      simp only [tokVal]
      rw [if_neg hneg2]

theorem digitChar_bounds (m : Nat) (h : m < 10) :
    '0' ≤ Char.ofNat (48 + m) ∧ Char.ofNat (48 + m) ≤ '9' := by
  interval_cases m <;> exact (by decide)

theorem natDigitsAux_digits : ∀ (f n : Nat) (acc : List Char),
    (∀ c ∈ acc, '0' ≤ c ∧ c ≤ '9') → ∀ c ∈ natDigitsAux f n acc, '0' ≤ c ∧ c ≤ '9'
  | 0, n, acc, hacc => hacc
  | f + 1, n, acc, hacc => by
    rw [natDigitsAux]
    by_cases h10 : n < 10
    · rw [if_pos h10]
      intro c hc
      rcases List.mem_cons.mp hc with h | h
      · subst h; exact digitChar_bounds n h10
      · exact hacc c h
    · rw [if_neg h10]
      exact natDigitsAux_digits f _ _ (fun c hc => by
        rcases List.mem_cons.mp hc with h | h
        · subst h; exact digitChar_bounds _ (Nat.mod_lt _ (by norm_num))
        · exact hacc c h)

theorem natDigits_digits (n : Nat) : ∀ c ∈ natDigits n, '0' ≤ c ∧ c ≤ '9' :=
  natDigitsAux_digits _ _ _ (by simp)

theorem natDigitsAux_ne_nil : ∀ (f n : Nat) (acc : List Char),
    acc ≠ [] ∨ 0 < f → natDigitsAux f n acc ≠ []
  | 0, n, acc, h => by
    rw [natDigitsAux]
    rcases h with h | h
    · exact h
    · omega
  | f + 1, n, acc, _ => by
    rw [natDigitsAux]
    by_cases h10 : n < 10
    · rw [if_pos h10]
      exact List.cons_ne_nil _ _
    · rw [if_neg h10]
      exact natDigitsAux_ne_nil f _ _ (Or.inl (List.cons_ne_nil _ _))

theorem natDigits_ne_nil (n : Nat) : natDigits n ≠ [] :=
  natDigitsAux_ne_nil _ _ _ (Or.inr (by omega))

theorem padDigits_digits (k n : Nat) : ∀ c ∈ padDigits k n, '0' ≤ c ∧ c ≤ '9' := by
  intro c hc
  rw [padDigits] at hc
  rcases List.mem_append.mp hc with h | h
  · rw [List.eq_of_mem_replicate h]
    exact by decide
  · exact natDigits_digits n c h

theorem padDigits_ne_nil (k n : Nat) : padDigits k n ≠ [] := by
  rw [padDigits]
  intro h
  exact natDigits_ne_nil n (List.append_eq_nil.mp h).2

theorem take_ne_nil_of_ne_nil (l : List Char) (k : Nat) (h : l ≠ []) (hk : 0 < k) :
    l.take k ≠ [] := by
  cases l with
  | nil => exact absurd rfl h
  | cons c w =>
    cases k with
    | zero => omega
    | succ k' => exact List.cons_ne_nil _ _

theorem mem_of_mem_take (l : List Char) (k : Nat) (c : Char) (h : c ∈ l.take k) :
    c ∈ l := List.mem_of_mem_take h

theorem sprint_int_tok (i : Int) :
    sprint_int i = numTok (decide (i < 0)) (natDigits i.natAbs) [] none := by
  rw [sprint_int, numTok, frPart, if_pos rfl, exPart]
  by_cases h : i < 0
  · rw [if_pos h, if_pos (by simpa using h)]
    simp
  · rw [if_neg h, if_neg (by simpa using h)]
    simp

theorem sprint_f0_tok (q : QVal) :
    sprint_f0 q = numTok (decide (q.num < 0))
      (natDigits (roundHalfEven q.num q.den).natAbs) [] none := by
  rw [sprint_f0, numTok, frPart, if_pos rfl, exPart]
  by_cases h : q.num < 0
  · rw [if_pos h, if_pos (by simpa using h)]
    simp
  · rw [if_neg h, if_neg (by simpa using h)]
    simp

theorem sprint_f6_tok (q : QVal) :
    sprint_f6 q = numTok (decide (q.num < 0))
      (natDigits ((roundHalfEven (q.num * 10 ^ 6) q.den).natAbs / 10 ^ 6))
      (padDigits 6 ((roundHalfEven (q.num * 10 ^ 6) q.den).natAbs % 10 ^ 6)) none := by
  rw [sprint_f6, numTok, frPart, if_neg (padDigits_ne_nil _ _), exPart]
  by_cases h : q.num < 0
  · rw [if_pos h, if_pos (by simpa using h)]
    simp
  · rw [if_neg h, if_neg (by simpa using h)]
    simp

theorem sprint_e_tok (q : QVal) :
    sprint_e q = numTok (decide (q.num < 0))
      ((natDigits (sprintE_s2 q).natAbs).take 1)
      (((natDigits (sprintE_s2 q).natAbs).drop 1 ++
        padDigits (7 - (natDigits (sprintE_s2 q).natAbs).length) 0).take 6)
      (some ((if sprintE_e2 q < 0 then '-' else '+'),
        padDigits (max 2 (natDigits (sprintE_e2 q).natAbs).length)
          (sprintE_e2 q).natAbs)) := by
  rw [sprint_e, numTok, frPart, exPart,
    if_neg (take_ne_nil_of_ne_nil _ 6 (fun hc =>
      padDigits_ne_nil _ 0 (List.append_eq_nil.mp hc).2) (by norm_num))]
  simp only [decide_eq_true_eq]
  try simp [List.append_assoc]

/-- Every finite printed number is a single `strtod` token built from sign,
digits, fraction and exponent pieces. -/
theorem print_number_token (q : QVal) :
    ∃ neg ds fr ex, print_number (.finite q) = numTok neg ds fr ex ∧ ds ≠ [] ∧
      (∀ c ∈ ds, '0' ≤ c ∧ c ≤ '9') ∧ (∀ c ∈ fr, '0' ≤ c ∧ c ≤ '9') ∧
      (∀ sc eds, ex = some (sc, eds) →
        (sc = '+' ∨ sc = '-') ∧ eds ≠ [] ∧ ∀ c ∈ eds, '0' ≤ c ∧ c ≤ '9') := by
  rw [print_number]
  by_cases h0 : (DoubleV.finite q).isZero = true
  · rw [if_pos h0]
    exact ⟨false, ['0'], [], none, by rw [numTok, frPart, if_pos rfl, exPart]; rfl,
      by simp, by decide, by simp, fun sc eds h => by simp at h⟩
  · rw [if_neg h0]
    by_cases h1 : ((DoubleV.finite q).fracLeEps && (DoubleV.finite q).leIntMax &&
        (DoubleV.finite q).geIntMin) = true
    · rw [if_pos h1]
      refine ⟨decide ((DoubleV.finite q).toIntTrunc < 0),
        natDigits (DoubleV.finite q).toIntTrunc.natAbs, [], none,
        sprint_int_tok _, natDigits_ne_nil _, natDigits_digits _, by simp,
        fun sc eds h => by simp at h⟩
    · rw [if_neg h1]
      rw [show (DoubleV.finite q).mulZeroNeZero = false from rfl]
      rw [if_neg (by simp)]
      by_cases h2 : ((DoubleV.finite q).fracLeEps && (DoubleV.finite q).absLt1e60) = true
      · rw [if_pos h2]
        refine ⟨decide (q.num < 0), natDigits (roundHalfEven q.num q.den).natAbs,
          [], none, sprint_f0_tok q, natDigits_ne_nil _, natDigits_digits _, by simp,
          fun sc eds h => by simp at h⟩
      · rw [if_neg h2]
        by_cases h3 : ((DoubleV.finite q).absLt1eNeg6 || (DoubleV.finite q).absGt1e9) = true
        · rw [if_pos h3]
          refine ⟨decide (q.num < 0), (natDigits (sprintE_s2 q).natAbs).take 1,
            ((natDigits (sprintE_s2 q).natAbs).drop 1 ++
              padDigits (7 - (natDigits (sprintE_s2 q).natAbs).length) 0).take 6,
            some ((if sprintE_e2 q < 0 then '-' else '+'),
              padDigits (max 2 (natDigits (sprintE_e2 q).natAbs).length)
                (sprintE_e2 q).natAbs),
            sprint_e_tok q,
            take_ne_nil_of_ne_nil _ 1 (natDigits_ne_nil _) (by norm_num),
            fun c hc => natDigits_digits _ c (mem_of_mem_take _ _ _ hc),
            fun c hc => ?_, fun sc eds h => ?_⟩
          · have hmem := mem_of_mem_take _ _ _ hc
            rcases List.mem_append.mp hmem with hmem | hmem
            · exact natDigits_digits _ c (List.mem_of_mem_drop hmem)
            · exact padDigits_digits _ _ c hmem
          · simp only [Option.some.injEq, Prod.mk.injEq] at h
            refine ⟨?_, ?_, ?_⟩
            · rw [← h.1]
              by_cases he : sprintE_e2 q < 0
              · rw [if_pos he]; exact Or.inr rfl
              · rw [if_neg he]; exact Or.inl rfl
            · rw [← h.2]; exact padDigits_ne_nil _ _
            · rw [← h.2]; exact padDigits_digits _ _
        · rw [if_neg h3]
          refine ⟨decide (q.num < 0),
            natDigits ((roundHalfEven (q.num * 10 ^ 6) q.den).natAbs / 10 ^ 6),
            padDigits 6 ((roundHalfEven (q.num * 10 ^ 6) q.den).natAbs % 10 ^ 6), none,
            sprint_f6_tok q, natDigits_ne_nil _, natDigits_digits _,
            padDigits_digits _ _, fun sc eds h => by simp at h⟩

/-- The value a number re-reads as after printing: the rendering's own
precision loss, exactly. -/
def reprintQ (q : QVal) : QVal :=
  match strtod (print_number (.finite q)) with
  | some (v, _) => v
  | none => ⟨0, 1⟩

theorem strtod_print_number (q : QVal) (z : List Char) (hz : numRestOK z) :
    strtod (print_number (.finite q) ++ z) = some (reprintQ q, z) := by
  obtain ⟨neg, ds, fr, ex, htok, hds1, hds, hfr, hex⟩ := print_number_token q
  have h0 : strtod (print_number (.finite q)) = some (tokVal neg ds fr ex, []) := by
    rw [htok, ← List.append_nil (numTok neg ds fr ex)]
    rw [List.append_nil, ← List.append_nil (numTok neg ds fr ex)]
    exact strtod_token neg ds fr ex [] hds1 hds hfr hex trivial
  have hrq : reprintQ q = tokVal neg ds fr ex := by
    rw [reprintQ, h0]
  rw [htok, strtod_token neg ds fr ex z hds1 hds hfr hex hz, hrq]

theorem parse_number_print (q : QVal) (z : List Char) (hz : numRestOK z) :
    parse_number (print_number (.finite q) ++ z) = .ok (numberNode (reprintQ q), z) := by
  rw [parse_number, strtod_print_number q z hz]

/-- A printed number starts with a minus sign or a digit. -/
theorem print_number_head (q : QVal) :
    ∃ c w, print_number (.finite q) = c :: w ∧ (c = '-' ∨ ('0' ≤ c ∧ c ≤ '9')) := by
  obtain ⟨neg, ds, fr, ex, htok, hds1, hds, hfr, hex⟩ := print_number_token q
  rw [htok, numTok]
  cases neg with
  | true =>
    refine ⟨'-', ds ++ (frPart fr ++ exPart ex), ?_, Or.inl rfl⟩
    rw [if_pos rfl]
    simp [List.append_assoc]
  | false =>
    cases ds with
    | nil => exact absurd rfl hds1
    | cons d ds' =>
      refine ⟨d, ds' ++ frPart fr ++ exPart ex, ?_, Or.inr (hds d (by simp))⟩
      rw [if_neg (by simp)]
      simp [List.append_assoc]

/-! ### The reparsed tree: numbers replaced by their reprinted values -/

/-- Number values after one print/reparse cycle. -/
def mapDouble : DoubleV → DoubleV
  | .finite q => .finite (reprintQ q)
  | d => d

mutual

/-- Apply the print/reparse number loss to every number node of a tree. -/
def mapNum (c : cJSON) : cJSON :=
  match c with
  | .mk ty vs vn vb nm sc ir ch nx =>
    .mk ty vs (if ty = .cJSON_Number then mapDouble vn else vn) vb nm sc ir
      (mapNumRef ch) (mapNumRef nx)
termination_by structural c

def mapNumRef (r : NodeRef) : NodeRef :=
  match r with
  | .null => .null
  | .ptr c => .ptr (mapNum c)
termination_by structural r

end

/-! ### Well-formedness of parser output -/

mutual

/-- The field discipline `parse_value` guarantees, per node type (the `name`
and `next` fields are governed by the surrounding chain, not here). -/
def wfNode (c : cJSON) : Bool :=
  match c with
  | .mk ty vs vn vb _ sc ir ch _ =>
    !sc && !ir &&
    (match ty with
     | .cJSON_NULL => vs == none && vn == DoubleV.finite ⟨0, 1⟩ && vb == false &&
        ch.isNull
     | .cJSON_False => vs == none && vn == DoubleV.finite ⟨0, 1⟩ && vb == false &&
        ch.isNull
     | .cJSON_True => vs == none && vn == DoubleV.finite ⟨0, 1⟩ && vb == true &&
        ch.isNull
     | .cJSON_Number => vs == none && vb == false && ch.isNull &&
        (match vn with | .finite _ => true | _ => false)
     | .cJSON_String => vb == false && vn == DoubleV.finite ⟨0, 1⟩ && ch.isNull &&
        (match vs with
         | some p => p.all (fun c => c.toNat != 0)
         | none => false)
     | .cJSON_Array => vs == none && vn == DoubleV.finite ⟨0, 1⟩ && vb == false &&
        wfAChain ch
     | .cJSON_Object => vs == none && vn == DoubleV.finite ⟨0, 1⟩ && vb == false &&
        wfOChain ch)
termination_by structural c

/-- An array child chain: unnamed well-formed elements. -/
def wfAChain (r : NodeRef) : Bool :=
  match r with
  | .null => true
  | .ptr c => (c.name == none) && wfNode c && wfAChainNext c
termination_by structural r

def wfAChainNext (c : cJSON) : Bool :=
  match c with
  | .mk _ _ _ _ _ _ _ _ nx => wfAChain nx
termination_by structural c

/-- An object member chain: NUL-free keys on well-formed members. -/
def wfOChain (r : NodeRef) : Bool :=
  match r with
  | .null => true
  | .ptr c =>
    (match c.name with
     | some k => k.all (fun c => c.toNat != 0)
     | none => false) && wfNode c && wfOChainNext c
termination_by structural r

def wfOChainNext (c : cJSON) : Bool :=
  match c with
  | .mk _ _ _ _ _ _ _ _ nx => wfOChain nx
termination_by structural c

end

/-! ### Fuel bounds for re-parsing -/

mutual

/-- Fuel needed by `parse_value` on the printed form of this node. -/
def needV (c : cJSON) : Nat :=
  match c with
  | .mk ty _ _ _ _ _ _ ch _ =>
    match ty with
    | .cJSON_Array => 1 + needChain ch
    | .cJSON_Object => 1 + needChain ch
    | _ => 1
termination_by structural c

/-- Fuel needed by the element loops on the printed form of this chain. -/
def needChain (r : NodeRef) : Nat :=
  match r with
  | .null => 1
  | .ptr c => 1 + needV c + needChainNext c
termination_by structural r

def needChainNext (c : cJSON) : Nat :=
  match c with
  | .mk _ _ _ _ _ _ _ _ nx => needChain nx
termination_by structural c

end

/-- A parsed element with its chain links and name cleared, as a fresh
`parse_value` result returns it. -/
def stripItem (c : cJSON) : cJSON := (c.withName none).withNext .null

/-! ### Structural helpers for the roundtrip induction -/

theorem char_le_toNat (a b : Char) (h : a ≤ b) : a.toNat ≤ b.toNat := by
  exact_mod_cast Char.le_def.mp h

theorem digit_toNat (c : Char) (h : '0' ≤ c ∧ c ≤ '9') :
    48 ≤ c.toNat ∧ c.toNat ≤ 57 :=
  ⟨char_le_toNat '0' c h.1, char_le_toNat c '9' h.2⟩

theorem skip_eq_of_head (c0 : Char) (w : List Char) (h : 32 < c0.toNat) :
    skip (c0 :: w) = c0 :: w := by
  rw [skip, List.dropWhile_cons, if_neg (by simpa using by omega)]

theorem take_succ_cons_ne (c0 c1 : Char) (w t : List Char) (k : Nat) (h : c0 ≠ c1) :
    (c0 :: w).take (k + 1) ≠ c1 :: t := by
  rw [List.take_succ_cons]
  intro hc
  simp only [List.cons.injEq] at hc
  exact h hc.1

theorem mapNum_withNext (c : cJSON) (r : NodeRef) :
    mapNum (c.withNext r) = (mapNum c).withNext (mapNumRef r) := by
  obtain ⟨ty, vs, vn, vb, nm, sc, ir, ch, nx⟩ := c
  rfl

theorem mapNum_withName (c : cJSON) (nm' : Option (List Char)) :
    mapNum (c.withName nm') = (mapNum c).withName nm' := by
  obtain ⟨ty, vs, vn, vb, nm, sc, ir, ch, nx⟩ := c
  rfl

theorem stripItem_restore_none (c : cJSON) (h : c.name = none) :
    (stripItem c).withNext c.next = c := by
  obtain ⟨ty, vs, vn, vb, nm, sc, ir, ch, nx⟩ := c
  simp only [cJSON.name] at h
  subst h
  rfl

theorem stripItem_restore_some (c : cJSON) (k : List Char) (h : c.name = some k) :
    ((stripItem c).withName (some k)).withNext c.next = c := by
  obtain ⟨ty, vs, vn, vb, nm, sc, ir, ch, nx⟩ := c
  simp only [cJSON.name] at h
  subst h
  rfl



/-- A compact-printed well-formed value starts with a visible character
that is not a closer, a comma or a colon. -/
theorem print_value_head (c : cJSON) (d : Nat) (h : wfNode c = true) :
    ∃ c0 w, print_value c d false = c0 :: w ∧ 32 < c0.toNat ∧
      c0 ≠ ']' ∧ c0 ≠ '\x7d' ∧ c0 ≠ ',' ∧ c0 ≠ ':' := by
  obtain ⟨ty, vs, vn, vb, nm, sc, ir, ch, nx⟩ := c
  cases ty with
  | cJSON_False =>
    exact ⟨'f', "alse".toList, rfl, by decide, by decide, by decide, by decide, by decide⟩
  | cJSON_True =>
    exact ⟨'t', "rue".toList, rfl, by decide, by decide, by decide, by decide, by decide⟩
  | cJSON_NULL =>
    exact ⟨'n', "ull".toList, rfl, by decide, by decide, by decide, by decide, by decide⟩
  | cJSON_Number =>
    cases vn with
    | finite q =>
      obtain ⟨c0, w, heq, hprop⟩ := print_number_head q
      refine ⟨c0, w, ?_, ?_⟩
      · show print_number (.finite q) = c0 :: w
        exact heq
      · rcases hprop with hm | hd
        · subst hm
          exact ⟨by decide, by decide, by decide, by decide, by decide⟩
        · have hb := digit_toNat c0 hd
          refine ⟨by omega, ?_, ?_, ?_, ?_⟩ <;>
            (intro hc
             subst hc
             revert hb
             decide)
    | nan =>
      simp [wfNode] at h
    | inf b =>
      simp [wfNode] at h
  | cJSON_String =>
    cases vs with
    | none =>
      simp [wfNode] at h
    | some p =>
      show ∃ c0 w, print_string_ptr (some p) = c0 :: w ∧ _
      rw [print_string_ptr]
      by_cases hany : p.any needsEscaping
      · rw [if_pos hany]
        exact ⟨'\"', escapeChars p ++ ['\"'], rfl, by decide, by decide, by decide,
          by decide, by decide⟩
      · rw [if_neg hany]
        exact ⟨'\"', p ++ ['\"'], rfl, by decide, by decide, by decide,
          by decide, by decide⟩
  | cJSON_Array =>
    cases ch with
    | null =>
      exact ⟨'[', [']'], rfl, by decide, by decide, by decide, by decide, by decide⟩
    | ptr c1 =>
      exact ⟨'[', print_array_items (.ptr c1) d false ++ [']'], rfl, by decide,
        by decide, by decide, by decide, by decide⟩
  | cJSON_Object =>
    cases ch with
    | null =>
      exact ⟨'\x7b', ['\x7d'], rfl, by decide, by decide, by decide, by decide,
        by decide⟩
    | ptr c1 =>
      exact ⟨'\x7b', print_object_items (.ptr c1) (d + 1) false ++ ['\x7d'],
        by simp [print_value, NodeRef.isNull], by decide, by decide, by decide, by decide, by decide⟩

theorem print_string_head (p : List Char) :
    ∃ w, print_string_ptr (some p) = '\"' :: w := by
  rw [print_string_ptr]
  by_cases hany : p.any needsEscaping
  · exact ⟨escapeChars p ++ ['\"'], by rw [if_pos hany, List.cons_append]⟩
  · exact ⟨p ++ ['\"'], by rw [if_neg hany, List.cons_append]⟩

theorem numRestOK_close_a (z : List Char) : numRestOK (']' :: z) := by
  exact ⟨by decide, by decide, by decide, by decide⟩

theorem numRestOK_close_o (z : List Char) : numRestOK ('\x7d' :: z) := by
  exact ⟨by decide, by decide, by decide, by decide⟩

/-- After an array element, the printed text continues with `,` or `]`. -/
theorem anext_shape (c : cJSON) (d : Nat) (z : List Char) :
    ∃ x0 w, print_array_next c d false ++ ']' :: z = x0 :: w ∧
      (x0 = ',' ∨ x0 = ']') := by
  obtain ⟨ty, vs, vn, vb, nm, sc, ir, ch, nx⟩ := c
  cases nx with
  | null =>
    refine ⟨']', z, ?_, Or.inr rfl⟩
    show (([] : List Char) ++ print_array_items .null d false) ++ ']' :: z = _
    rfl
  | ptr c' =>
    refine ⟨',', (print_array_items (.ptr c') d false) ++ ']' :: z, ?_, Or.inl rfl⟩
    show (([','] : List Char) ++ print_array_items (.ptr c') d false) ++ ']' :: z = _
    simp

/-- After an object member, the printed text continues with `,` or the brace. -/
theorem onext_shape (c : cJSON) (d : Nat) (z : List Char) :
    ∃ x0 w, print_object_next c d false ++ '\x7d' :: z = x0 :: w ∧
      (x0 = ',' ∨ x0 = '\x7d') := by
  obtain ⟨ty, vs, vn, vb, nm, sc, ir, ch, nx⟩ := c
  cases nx with
  | null =>
    refine ⟨'\x7d', z, ?_, Or.inr rfl⟩
    show ((([] : List Char) ++ []) ++ print_object_items .null d false) ++ '\x7d' :: z = _
    rfl
  | ptr c' =>
    refine ⟨',', print_object_items (.ptr c') d false ++ '\x7d' :: z, ?_, Or.inl rfl⟩
    show (((([','] : List Char)) ++ []) ++ print_object_items (.ptr c') d false) ++
      '\x7d' :: z = _
    simp

theorem numRestOK_anext (c : cJSON) (d : Nat) (z : List Char) :
    numRestOK (print_array_next c d false ++ ']' :: z) := by
  obtain ⟨x0, w, heq, hx⟩ := anext_shape c d z
  rw [heq]
  rcases hx with h | h <;> (subst h; exact ⟨by decide, by decide, by decide, by decide⟩)

theorem numRestOK_onext (c : cJSON) (d : Nat) (z : List Char) :
    numRestOK (print_object_next c d false ++ '\x7d' :: z) := by
  obtain ⟨x0, w, heq, hx⟩ := onext_shape c d z
  rw [heq]
  rcases hx with h | h <;> (subst h; exact ⟨by decide, by decide, by decide, by decide⟩)

theorem take4_ne_null (c0 : Char) (w : List Char) (h : c0 ≠ 'n') :
    ¬List.take 4 (c0 :: w) = "null".toList :=
  take_succ_cons_ne c0 'n' w _ 3 h

theorem take5_ne_false (c0 : Char) (w : List Char) (h : c0 ≠ 'f') :
    ¬List.take 5 (c0 :: w) = "false".toList :=
  take_succ_cons_ne c0 'f' w _ 4 h

theorem take4_ne_true (c0 : Char) (w : List Char) (h : c0 ≠ 't') :
    ¬List.take 4 (c0 :: w) = "true".toList :=
  take_succ_cons_ne c0 't' w _ 3 h

mutual

/-- Re-parsing the compact print of a well-formed node yields the node with
its name and chain link cleared and every number value replaced by its
reprinted value, consuming exactly the printed text. -/
theorem parse_print_value : ∀ (c : cJSON) (fuel d : Nat) (z : List Char),
    wfNode c = true → numRestOK z → needV c ≤ fuel →
    parse_value fuel (print_value c d false ++ z) = .ok (mapNum (stripItem c), z)
  | .mk ty vs vn vb nm sc ir ch nx, fuel, d, z => by
    intro hwf hz hfuel
    cases ty with
    | cJSON_NULL =>
      cases ch with
      | ptr c1 => simp [wfNode, NodeRef.isNull] at hwf
      | null =>
        simp only [wfNode, NodeRef.isNull, Bool.and_eq_true, Bool.not_eq_true',
          beq_iff_eq, and_true] at hwf
        obtain ⟨⟨hsc, hir⟩, ⟨hvs, hvn⟩, hvb⟩ := hwf
        subst hsc; subst hir; subst hvs; subst hvn; subst hvb
        simp only [needV] at hfuel
        cases fuel with
        | zero => omega
        | succ f => rfl
    | cJSON_False =>
      cases ch with
      | ptr c1 => simp [wfNode, NodeRef.isNull] at hwf
      | null =>
        simp only [wfNode, NodeRef.isNull, Bool.and_eq_true, Bool.not_eq_true',
          beq_iff_eq, and_true] at hwf
        obtain ⟨⟨hsc, hir⟩, ⟨hvs, hvn⟩, hvb⟩ := hwf
        subst hsc; subst hir; subst hvs; subst hvn; subst hvb
        simp only [needV] at hfuel
        cases fuel with
        | zero => omega
        | succ f => rfl
    | cJSON_True =>
      cases ch with
      | ptr c1 => simp [wfNode, NodeRef.isNull] at hwf
      | null =>
        simp only [wfNode, NodeRef.isNull, Bool.and_eq_true, Bool.not_eq_true',
          beq_iff_eq, and_true] at hwf
        obtain ⟨⟨hsc, hir⟩, ⟨hvs, hvn⟩, hvb⟩ := hwf
        subst hsc; subst hir; subst hvs; subst hvn; subst hvb
        simp only [needV] at hfuel
        cases fuel with
        | zero => omega
        | succ f => rfl
    | cJSON_Number =>
      cases vn with
      | nan => simp [wfNode] at hwf
      | inf b => simp [wfNode] at hwf
      | finite q =>
        cases ch with
        | ptr c1 => simp [wfNode, NodeRef.isNull] at hwf
        | null =>
          simp only [wfNode, NodeRef.isNull, Bool.and_eq_true, Bool.not_eq_true',
            beq_iff_eq, and_true] at hwf
          obtain ⟨⟨hsc, hir⟩, hvs, hvb⟩ := hwf
          subst hsc; subst hir; subst hvs; subst hvb
          simp only [needV] at hfuel
          cases fuel with
          | zero => omega
          | succ f =>
            obtain ⟨c0, w, heq, hc0⟩ := print_number_head q
            have hne : c0 ≠ 'n' ∧ c0 ≠ 'f' ∧ c0 ≠ 't' ∧ c0 ≠ '\"' := by
              rcases hc0 with hm | hd
              · subst hm
                exact ⟨by decide, by decide, by decide, by decide⟩
              · have hb := digit_toNat c0 hd
                refine ⟨?_, ?_, ?_, ?_⟩ <;>
                  (intro hcx
                   subst hcx
                   revert hb
                   decide)
            have hpr : print_value (.mk .cJSON_Number none (.finite q) false nm
                false false .null nx) d false = print_number (.finite q) := rfl
            have hs : print_value (.mk .cJSON_Number none (.finite q) false nm
                false false .null nx) d false ++ z = c0 :: (w ++ z) := by
              rw [hpr, heq]
              simp
            rw [hs]
            simp only [parse_value]
            rw [if_neg (take4_ne_null c0 _ hne.1),
              if_neg (take5_ne_false c0 _ hne.2.1),
              if_neg (take4_ne_true c0 _ hne.2.2.1),
              if_neg hne.2.2.2, if_pos hc0, ← hs, hpr,
              parse_number_print q z hz]
            rfl
    | cJSON_String =>
      cases vs with
      | none => simp [wfNode] at hwf
      | some p =>
        cases ch with
        | ptr c1 => simp [wfNode, NodeRef.isNull] at hwf
        | null =>
          simp only [wfNode, NodeRef.isNull, Bool.and_eq_true, Bool.not_eq_true',
            beq_iff_eq, and_true, List.all_eq_true] at hwf
          obtain ⟨⟨hsc, hir⟩, ⟨hvb, hvn⟩, hp⟩ := hwf
          subst hsc; subst hir; subst hvb; subst hvn
          have hpnul : ∀ c2 ∈ p, c2.toNat ≠ 0 := by
            intro c2 hc2
            have := hp c2 hc2
            simpa using this
          simp only [needV] at hfuel
          cases fuel with
          | zero => omega
          | succ f =>
            obtain ⟨w, hw⟩ := print_string_head p
            have hpr : print_value (.mk .cJSON_String (some p) (.finite ⟨0, 1⟩)
                false nm false false .null nx) d false = print_string_ptr (some p) := rfl
            have hs : print_value (.mk .cJSON_String (some p) (.finite ⟨0, 1⟩)
                false nm false false .null nx) d false ++ z = '\"' :: (w ++ z) := by
              rw [hpr, hw]
              simp
            rw [hs]
            simp only [parse_value]
            rw [if_neg (take4_ne_null _ _ (by decide)),
              if_neg (take5_ne_false _ _ (by decide)),
              if_neg (take4_ne_true _ _ (by decide))]
            rw [if_pos trivial, ← hs, hpr]
            rw [parse_string_print p z hpnul]
            rfl
    | cJSON_Array =>
      cases ch with
      | null =>
        simp only [wfNode, NodeRef.isNull, wfAChain, Bool.and_eq_true,
          Bool.not_eq_true', beq_iff_eq, and_true] at hwf
        obtain ⟨⟨hsc, hir⟩, ⟨hvs, hvn⟩, hvb⟩ := hwf
        subst hsc; subst hir; subst hvs; subst hvn; subst hvb
        simp only [needV, needChain] at hfuel
        cases fuel with
        | zero => omega
        | succ f =>
          cases f with
          | zero => omega
          | succ g => rfl
      | ptr c1 =>
        simp only [wfNode, NodeRef.isNull, Bool.and_eq_true, Bool.not_eq_true',
          beq_iff_eq, and_true] at hwf
        obtain ⟨⟨hsc, hir⟩, ⟨⟨hvs, hvn⟩, hvb⟩, hch⟩ := hwf
        subst hsc; subst hir; subst hvs; subst hvn; subst hvb
        simp only [wfAChain, Bool.and_eq_true, beq_iff_eq] at hch
        obtain ⟨⟨hnm1, hwf1⟩, hnext1⟩ := hch
        simp only [needV, needChain] at hfuel
        cases fuel with
        | zero => omega
        | succ f =>
          cases f with
          | zero => omega
          | succ g =>
            obtain ⟨c0, w, heq, h32, hnotc⟩ := print_value_head c1 (d + 1) hwf1
            have hs : print_value (.mk .cJSON_Array none (.finite ⟨0, 1⟩) false nm
                false false (.ptr c1) nx) d false ++ z =
                '[' :: (print_value c1 (d + 1) false ++
                  (print_array_next c1 d false ++ ']' :: z)) := by
              simp [print_value, print_array_items, NodeRef.isNull, List.append_assoc]
            rw [hs]
            simp only [parse_value]
            rw [if_neg (take4_ne_null _ _ (by decide)),
              if_neg (take5_ne_false _ _ (by decide)),
              if_neg (take4_ne_true _ _ (by decide)),
              if_neg (by decide : ¬('[' : Char) = '\"'),
              if_neg (by decide : ¬(('[' : Char) = '-' ∨ ('0' ≤ '[' ∧ '[' ≤ '9')))]
            rw [if_pos trivial]
            simp only [parse_array]
            rw [if_pos trivial]
            rw [heq, List.cons_append, skip_eq_of_head c0 _ h32]
            rw [show headIs ']' (c0 :: (w ++ (print_array_next c1 d false ++ ']' :: z)))
              = false from by simp [headIs, hnotc.1]]
            rw [if_neg (by simp)]
            rw [skip_eq_of_head c0 _ h32, ← List.cons_append, ← heq]
            rw [parse_print_value c1 g (d + 1) (print_array_next c1 d false ++ ']' :: z)
              hwf1 (numRestOK_anext c1 d z) (by omega)]
            rw [ebind_ok]
            obtain ⟨x0, w2, heq2, hx0⟩ := anext_shape c1 d z
            have h32x : 32 < x0.toNat := by
              rcases hx0 with h | h <;> (subst h; decide)
            rw [heq2, skip_eq_of_head x0 _ h32x, ← heq2]
            rw [parse_print_anext c1 g d z hnext1 (by omega)]
            rw [ebind_ok]
            rw [show headIs ']' (']' :: z) = true from rfl]
            rw [if_pos rfl, epure]
            have hitem : (mapNum (stripItem c1)).withNext (mapNumRef c1.next) =
                mapNum c1 := by
              rw [← mapNum_withNext, stripItem_restore_none c1 hnm1]
            rw [hitem]
            rfl
    | cJSON_Object =>
      cases ch with
      | null =>
        simp only [wfNode, NodeRef.isNull, wfOChain, Bool.and_eq_true,
          Bool.not_eq_true', beq_iff_eq, and_true] at hwf
        obtain ⟨⟨hsc, hir⟩, ⟨hvs, hvn⟩, hvb⟩ := hwf
        subst hsc; subst hir; subst hvs; subst hvn; subst hvb
        simp only [needV, needChain] at hfuel
        cases fuel with
        | zero => omega
        | succ f =>
          cases f with
          | zero => omega
          | succ g => rfl
      | ptr c1 =>
        simp only [wfNode, NodeRef.isNull, Bool.and_eq_true, Bool.not_eq_true',
          beq_iff_eq, and_true] at hwf
        obtain ⟨⟨hsc, hir⟩, ⟨⟨hvs, hvn⟩, hvb⟩, hch⟩ := hwf
        subst hsc; subst hir; subst hvs; subst hvn; subst hvb
        have hkey : ∃ k, c1.name = some k ∧ (∀ c2 ∈ k, c2.toNat ≠ 0) ∧
            wfNode c1 = true ∧ wfOChainNext c1 = true := by
          simp only [wfOChain, Bool.and_eq_true] at hch
          obtain ⟨⟨hk, hwf1⟩, hnext1⟩ := hch
          cases hname : c1.name with
          | none => rw [hname] at hk; simp at hk
          | some k =>
            rw [hname] at hk
            simp only [List.all_eq_true] at hk
            exact ⟨k, rfl, fun c2 hc2 => by simpa using hk c2 hc2, hwf1, hnext1⟩
        obtain ⟨k, hname1, hknul, hwf1, hnext1⟩ := hkey
        simp only [needV, needChain] at hfuel
        cases fuel with
        | zero => omega
        | succ f =>
          cases f with
          | zero => omega
          | succ g =>
            obtain ⟨kw, hkw⟩ := print_string_head k
            obtain ⟨c0, w, heq, h32, hnotc⟩ := print_value_head c1 (d + 1) hwf1
            have hs : print_value (.mk .cJSON_Object none (.finite ⟨0, 1⟩) false nm
                false false (.ptr c1) nx) d false ++ z =
                '\x7b' :: (print_string_ptr (some k) ++ (':' ::
                  (print_value c1 (d + 1) false ++
                    (print_object_next c1 (d + 1) false ++ '\x7d' :: z)))) := by
              simp [print_value, print_object_items, NodeRef.isNull, hname1,
                List.append_assoc]
            rw [hs]
            simp only [parse_value]
            rw [if_neg (take4_ne_null _ _ (by decide)),
              if_neg (take5_ne_false _ _ (by decide)),
              if_neg (take4_ne_true _ _ (by decide)),
              if_neg (by decide : ¬('\x7b' : Char) = '\"'),
              if_neg (by decide : ¬(('\x7b' : Char) = '-' ∨
                ('0' ≤ '\x7b' ∧ '\x7b' ≤ '9'))),
              if_neg (by decide : ¬('\x7b' : Char) = '[')]
            rw [if_pos trivial]
            simp only [parse_object]
            rw [if_pos trivial]
            rw [hkw, List.cons_append, skip_eq_of_head '\"' _ (by decide)]
            rw [show headIs '\x7d' ('\"' :: (kw ++ (':' :: (print_value c1 (d + 1) false
              ++ (print_object_next c1 (d + 1) false ++ '\x7d' :: z))))) = false
              from by simp [headIs]]
            rw [if_neg (by simp)]
            rw [skip_eq_of_head '\"' _ (by decide), ← List.cons_append, ← hkw]
            rw [parse_key, parse_string_print k _ hknul]
            rw [ebind_ok]
            rw [skip_eq_of_head ':' _ (by decide)]
            rw [show headIs ':' (':' :: (print_value c1 (d + 1) false ++
              (print_object_next c1 (d + 1) false ++ '\x7d' :: z))) = true from rfl]
            rw [if_pos rfl]
            rw [show (':' :: (print_value c1 (d + 1) false ++
              (print_object_next c1 (d + 1) false ++ '\x7d' :: z))).tail =
              print_value c1 (d + 1) false ++
                (print_object_next c1 (d + 1) false ++ '\x7d' :: z) from rfl]
            rw [heq, List.cons_append, skip_eq_of_head c0 _ h32, ← List.cons_append,
              ← heq]
            rw [parse_print_value c1 g (d + 1)
              (print_object_next c1 (d + 1) false ++ '\x7d' :: z) hwf1
              (numRestOK_onext c1 (d + 1) z) (by omega)]
            rw [ebind_ok]
            obtain ⟨x0, w2, heq2, hx0⟩ := onext_shape c1 (d + 1) z
            have h32x : 32 < x0.toNat := by
              rcases hx0 with h | h <;> (subst h; decide)
            rw [heq2, skip_eq_of_head x0 _ h32x, ← heq2]
            rw [parse_print_onext c1 g (d + 1) z hnext1 (by omega)]
            rw [ebind_ok]
            rw [show headIs '\x7d' ('\x7d' :: z) = true from rfl]
            rw [if_pos rfl, epure]
            have hitem : ((mapNum (stripItem c1)).withName (some k)).withNext
                (mapNumRef c1.next) = mapNum c1 := by
              rw [← mapNum_withName, ← mapNum_withNext,
                stripItem_restore_some c1 k hname1]
            rw [hitem]
            rfl

/-- Re-parsing the printed tail of an array chain yields the mapped chain. -/
theorem parse_print_anext : ∀ (c : cJSON) (fuel d : Nat) (z : List Char),
    wfAChainNext c = true → needChainNext c ≤ fuel →
    parse_array_rest fuel (print_array_next c d false ++ ']' :: z) =
      .ok (mapNumRef c.next, ']' :: z)
  | .mk ty vs vn vb nm sc ir ch nx, fuel, d, z => by
    intro hwf hfuel
    simp only [wfAChainNext] at hwf
    simp only [needChainNext] at hfuel
    cases nx with
    | null =>
      simp only [needChain] at hfuel
      cases fuel with
      | zero => omega
      | succ f =>
        show parse_array_rest (f + 1) ((([] : List Char) ++
          print_array_items .null d false) ++ ']' :: z) = _
        rfl
    | ptr c' =>
      simp only [wfAChain, Bool.and_eq_true, beq_iff_eq] at hwf
      obtain ⟨⟨hnm', hwf'⟩, hnext'⟩ := hwf
      simp only [needChain] at hfuel
      cases fuel with
      | zero => omega
      | succ f =>
        have hs : print_array_next (.mk ty vs vn vb nm sc ir ch (.ptr c')) d false ++
            ']' :: z = ',' :: (print_value c' (d + 1) false ++
              (print_array_next c' d false ++ ']' :: z)) := by
          simp [print_array_next, print_array_items, NodeRef.isNull, List.append_assoc]
        rw [hs]
        simp only [parse_array_rest]
        rw [show headIs ',' (',' :: (print_value c' (d + 1) false ++
          (print_array_next c' d false ++ ']' :: z))) = true from rfl]
        rw [if_pos rfl]
        rw [show (',' :: (print_value c' (d + 1) false ++
          (print_array_next c' d false ++ ']' :: z))).tail =
          print_value c' (d + 1) false ++
            (print_array_next c' d false ++ ']' :: z) from rfl]
        obtain ⟨c0, w, heq, h32, hnotc⟩ := print_value_head c' (d + 1) hwf'
        rw [heq, List.cons_append, skip_eq_of_head c0 _ h32, ← List.cons_append, ← heq]
        rw [parse_print_value c' f (d + 1) (print_array_next c' d false ++ ']' :: z)
          hwf' (numRestOK_anext c' d z) (by omega)]
        rw [ebind_ok]
        obtain ⟨x0, w2, heq2, hx0⟩ := anext_shape c' d z
        have h32x : 32 < x0.toNat := by
          rcases hx0 with h | h <;> (subst h; decide)
        rw [heq2, skip_eq_of_head x0 _ h32x, ← heq2]
        rw [parse_print_anext c' f d z hnext' (by omega)]
        rw [ebind_ok, epure]
        have hitem : (mapNum (stripItem c')).withNext (mapNumRef c'.next) =
            mapNum c' := by
          rw [← mapNum_withNext, stripItem_restore_none c' hnm']
        rw [hitem]
        rfl

/-- Re-parsing the printed tail of an object member chain yields the mapped
chain. -/
theorem parse_print_onext : ∀ (c : cJSON) (fuel d : Nat) (z : List Char),
    wfOChainNext c = true → needChainNext c ≤ fuel →
    parse_object_rest fuel (print_object_next c d false ++ '\x7d' :: z) =
      .ok (mapNumRef c.next, '\x7d' :: z)
  | .mk ty vs vn vb nm sc ir ch nx, fuel, d, z => by
    intro hwf hfuel
    simp only [wfOChainNext] at hwf
    simp only [needChainNext] at hfuel
    cases nx with
    | null =>
      simp only [needChain] at hfuel
      cases fuel with
      | zero => omega
      | succ f =>
        show parse_object_rest (f + 1) (((([] : List Char) ++ []) ++
          print_object_items .null d false) ++ '\x7d' :: z) = _
        rfl
    | ptr c' =>
      have hkey : ∃ k, c'.name = some k ∧ (∀ c2 ∈ k, c2.toNat ≠ 0) ∧
          wfNode c' = true ∧ wfOChainNext c' = true := by
        simp only [wfOChain, Bool.and_eq_true] at hwf
        obtain ⟨⟨hk, hwf'⟩, hnext'⟩ := hwf
        cases hname : c'.name with
        | none => rw [hname] at hk; simp at hk
        | some k =>
          rw [hname] at hk
          simp only [List.all_eq_true] at hk
          exact ⟨k, rfl, fun c2 hc2 => by simpa using hk c2 hc2, hwf', hnext'⟩
      obtain ⟨k, hname', hknul, hwf', hnext'⟩ := hkey
      simp only [needChain] at hfuel
      cases fuel with
      | zero => omega
      | succ f =>
        obtain ⟨kw, hkw⟩ := print_string_head k
        obtain ⟨c0, w, heq, h32, hnotc⟩ := print_value_head c' d hwf'
        have hs : print_object_next (.mk ty vs vn vb nm sc ir ch (.ptr c')) d false ++
            '\x7d' :: z = ',' :: (print_string_ptr (some k) ++ (':' ::
              (print_value c' d false ++
                (print_object_next c' d false ++ '\x7d' :: z)))) := by
          simp [print_object_next, print_object_items, NodeRef.isNull, hname',
            List.append_assoc]
        rw [hs]
        simp only [parse_object_rest]
        rw [show headIs ',' (',' :: (print_string_ptr (some k) ++ (':' ::
          (print_value c' d false ++ (print_object_next c' d false ++ '\x7d' :: z)))))
          = true from rfl]
        rw [if_pos rfl]
        rw [show (',' :: (print_string_ptr (some k) ++ (':' ::
          (print_value c' d false ++
            (print_object_next c' d false ++ '\x7d' :: z))))).tail
          = print_string_ptr (some k) ++ (':' :: (print_value c' d false ++
            (print_object_next c' d false ++ '\x7d' :: z))) from rfl]
        rw [hkw, List.cons_append, skip_eq_of_head '\"' _ (by decide),
          ← List.cons_append, ← hkw]
        rw [parse_key, parse_string_print k _ hknul]
        rw [ebind_ok]
        rw [skip_eq_of_head ':' _ (by decide)]
        rw [show headIs ':' (':' :: (print_value c' d false ++
          (print_object_next c' d false ++ '\x7d' :: z))) = true from rfl]
        rw [if_pos rfl]
        rw [show (':' :: (print_value c' d false ++
          (print_object_next c' d false ++ '\x7d' :: z))).tail =
          print_value c' d false ++
            (print_object_next c' d false ++ '\x7d' :: z) from rfl]
        rw [heq, List.cons_append, skip_eq_of_head c0 _ h32, ← List.cons_append, ← heq]
        rw [parse_print_value c' f d (print_object_next c' d false ++ '\x7d' :: z)
          hwf' (numRestOK_onext c' d z) (by omega)]
        rw [ebind_ok]
        obtain ⟨x0, w2, heq2, hx0⟩ := onext_shape c' d z
        have h32x : 32 < x0.toNat := by
          rcases hx0 with h | h <;> (subst h; decide)
        rw [heq2, skip_eq_of_head x0 _ h32x, ← heq2]
        rw [parse_print_onext c' f d z hnext' (by omega)]
        rw [ebind_ok, epure]
        have hitem : ((mapNum (stripItem c')).withName (some k)).withNext
            (mapNumRef c'.next) = mapNum c' := by
          rw [← mapNum_withName, ← mapNum_withNext,
            stripItem_restore_some c' k hname']
        rw [hitem]
        rfl

end

/-! ### Parser output is well-formed (on NUL-free input) -/

theorem charToNat_ofNat (n : Nat) (h : n < 55296) : (Char.ofNat n).toNat = n := by
  unfold Char.ofNat
  rw [dif_pos (Or.inl h : Nat.isValidChar n)]
  rfl

theorem orByte_ok (a b : Nat) (ha : a < 32768) (hb2 : b < 32768)
    (hbbit : b.testBit 7 = true) : (Char.ofNat (a ||| b)).toNat ≠ 0 := by
  have hlt : a ||| b < 55296 := by
    have := Nat.or_lt_two_pow (n := 15) ha hb2
    omega
  rw [charToNat_ofNat _ hlt]
  have hbit : (a ||| b).testBit 7 = true := by
    rw [Nat.testBit_or, hbbit]
    simp
  have := Nat.testBit_implies_ge hbit
  omega

theorem contByte_ok (u : Nat) : (Char.ofNat (contByte u)).toNat ≠ 0 := by
  have hle : contByte u ≤ 191 := Nat.and_le_right
  have hbit : (contByte u).testBit 7 = true := by
    show ((u ||| 128) &&& 191).testBit 7 = true
    rw [Nat.testBit_and, Nat.testBit_or]
    rw [show Nat.testBit 128 7 = true from by decide,
      show Nat.testBit 191 7 = true from by decide]
    simp
  have := Nat.testBit_implies_ge hbit
  rw [charToNat_ofNat _ (by omega)]
  omega

theorem utf8Encode_nul (uc : Nat) (h0 : uc ≠ 0) (hv : uc < 2097152) :
    ∀ c ∈ utf8Encode uc, c.toNat ≠ 0 := by
  intro c hc
  rw [utf8Encode] at hc
  by_cases h1 : uc < 0x80
  · rw [if_pos h1] at hc
    simp only [List.mem_singleton] at hc
    subst hc
    rw [charToNat_ofNat _ (by omega)]
    exact h0
  · rw [if_neg h1] at hc
    by_cases h2 : uc < 0x800
    · rw [if_pos h2] at hc
      simp only [List.mem_cons, List.not_mem_nil, or_false] at hc
      rcases hc with hc | hc <;> subst hc
      · exact orByte_ok _ _ (by omega) (by norm_num) (by decide)
      · exact contByte_ok _
    · rw [if_neg h2] at hc
      by_cases h3 : uc < 0x10000
      · rw [if_pos h3] at hc
        simp only [List.mem_cons, List.not_mem_nil, or_false] at hc
        rcases hc with hc | hc | hc <;> subst hc
        · exact orByte_ok _ _ (by omega) (by norm_num) (by decide)
        · exact contByte_ok _
        · exact contByte_ok _
      · rw [if_neg h3] at hc
        simp only [List.mem_cons, List.not_mem_nil, or_false] at hc
        rcases hc with hc | hc | hc | hc <;> subst hc
        · exact orByte_ok _ _ (by omega) (by norm_num) (by decide)
        · exact contByte_ok _
        · exact contByte_ok _
        · exact contByte_ok _

theorem hexDigitVal_le (c : Char) (h : Nat) (hh : hexDigitVal c = some h) : h ≤ 15 := by
  rw [hexDigitVal] at hh
  by_cases h1 : '0' ≤ c ∧ c ≤ '9'
  · rw [if_pos h1] at hh
    simp only [Option.some.injEq] at hh
    rw [show ('0').toNat = 48 from rfl] at hh
    have := digit_toNat c h1
    omega
  · rw [if_neg h1] at hh
    by_cases h2 : 'A' ≤ c ∧ c ≤ 'F'
    · rw [if_pos h2] at hh
      simp only [Option.some.injEq] at hh
      have ha := char_le_toNat 'A' c h2.1
      have hb := char_le_toNat c 'F' h2.2
      rw [show ('A').toNat = 65 from rfl] at ha hh
      rw [show ('F').toNat = 70 from rfl] at hb
      omega
    · rw [if_neg h2] at hh
      by_cases h3 : 'a' ≤ c ∧ c ≤ 'f'
      · rw [if_pos h3] at hh
        simp only [Option.some.injEq] at hh
        have ha := char_le_toNat 'a' c h3.1
        have hb := char_le_toNat c 'f' h3.2
        rw [show ('a').toNat = 97 from rfl] at ha hh
        rw [show ('f').toNat = 102 from rfl] at hb
        omega
      · rw [if_neg h3] at hh
        simp at hh

theorem parse_hex4Aux_lt : ∀ (k acc : Nat) (s : List Char),
    parse_hex4Aux acc k s < (acc + 1) * 16 ^ k
  | 0, acc, s => by
    rw [parse_hex4Aux.eq_def]
    cases s <;> simp
  | k + 1, acc, [] => by
    rw [parse_hex4Aux]
    positivity
  | k + 1, acc, c :: rest => by
    rw [parse_hex4Aux]
    cases hh : hexDigitVal c with
    | none => positivity
    | some h =>
      show parse_hex4Aux (acc * 16 + h) k rest < (acc + 1) * 16 ^ (k + 1)
      have hle := hexDigitVal_le c h hh
      have ih := parse_hex4Aux_lt k (acc * 16 + h) rest
      have hstep : (acc * 16 + h + 1) * 16 ^ k ≤ (acc + 1) * 16 ^ (k + 1) := by
        rw [pow_succ]
        have : acc * 16 + h + 1 ≤ (acc + 1) * 16 := by omega
        calc (acc * 16 + h + 1) * 16 ^ k ≤ (acc + 1) * 16 * 16 ^ k :=
              Nat.mul_le_mul_right _ this
          _ = (acc + 1) * (16 ^ k * 16) := by ring
      omega
  termination_by k _ _ => k

theorem parse_hex4_lt (s : List Char) : parse_hex4 s < 65536 := by
  have := parse_hex4Aux_lt 4 0 s
  simpa [parse_hex4] using this

mutual

/-- The decode loop only emits NUL-free text when fed NUL-free input. -/
theorem decode_string_nul : ∀ (rem : Nat) (s acc out : List Char),
    (∀ c ∈ s, c.toNat ≠ 0) → (∀ c ∈ acc, c.toNat ≠ 0) →
    decode_string rem s acc = some out → ∀ c ∈ out, c.toNat ≠ 0
  | 0, s, acc, out, _, hacc, h => by
    rw [decode_string] at h
    simp only [Option.some.injEq] at h
    subst h
    exact hacc
  | rem + 1, [], acc, out, _, _, h => by
    rw [decode_string] at h
    exact absurd h (by simp)
  | rem + 1, c :: rest, acc, out, hs, hacc, h => by
    rw [decode_string] at h
    by_cases hc : c = '\\'
    · rw [if_pos hc] at h
      exact decode_escape_nul (rem + 1) rest acc out
        (fun d hd => hs d (by simp [hd])) hacc h
    · rw [if_neg hc] at h
      refine decode_string_nul rem rest (acc ++ [c]) out
        (fun d hd => hs d (by simp [hd])) (fun d hd => ?_) h
      rcases List.mem_append.mp hd with h1 | h1
      · exact hacc d h1
      · simp only [List.mem_singleton] at h1
        subst h1
        exact hs d (by simp)
  termination_by structural rem s acc out h1 h2 h3 => s

theorem decode_escape_nul : ∀ (rl : Nat) (s acc out : List Char),
    (∀ c ∈ s, c.toNat ≠ 0) → (∀ c ∈ acc, c.toNat ≠ 0) →
    decode_escape rl s acc = some out → ∀ c ∈ out, c.toNat ≠ 0
  | rl, [], acc, out, _, _, h => by
    rw [decode_escape] at h
    exact absurd h (by simp)
  | rl, e :: rest2, acc, out, hs, hacc, h => by
    rw [decode_escape] at h
    have hrest : ∀ c ∈ rest2, c.toNat ≠ 0 := fun d hd => hs d (by simp [hd])
    have hstep : ∀ (x : Char), x.toNat ≠ 0 → ∀ c ∈ acc ++ [x], c.toNat ≠ 0 := by
      intro x hx d hd
      rcases List.mem_append.mp hd with h1 | h1
      · exact hacc d h1
      · simp only [List.mem_singleton] at h1
        subst h1
        exact hx
    by_cases h1 : e = 'b'
    · rw [if_pos h1] at h
      exact decode_string_nul _ _ _ _ hrest (hstep _ (by decide)) h
    · rw [if_neg h1] at h
      by_cases h2 : e = 'f'
      · rw [if_pos h2] at h
        exact decode_string_nul _ _ _ _ hrest (hstep _ (by decide)) h
      · rw [if_neg h2] at h
        by_cases h3 : e = 'n'
        · rw [if_pos h3] at h
          exact decode_string_nul _ _ _ _ hrest (hstep _ (by decide)) h
        · rw [if_neg h3] at h
          by_cases h4 : e = 'r'
          · rw [if_pos h4] at h
            exact decode_string_nul _ _ _ _ hrest (hstep _ (by decide)) h
          · rw [if_neg h4] at h
            by_cases h5 : e = 't'
            · rw [if_pos h5] at h
              exact decode_string_nul _ _ _ _ hrest (hstep _ (by decide)) h
            · rw [if_neg h5] at h
              by_cases h6 : e = '\"' ∨ e = '\\' ∨ e = '/'
              · rw [if_pos h6] at h
                exact decode_string_nul _ _ _ _ hrest
                  (hstep _ (hs e (by simp))) h
              · rw [if_neg h6] at h
                by_cases h7 : e = 'u'
                · rw [if_pos h7] at h
                  exact decode_u_nul rl rest2 acc out hrest hacc h
                · rw [if_neg h7] at h
                  exact absurd h (by simp)
  termination_by structural rl s acc out h1 h2 h3 => s

theorem decode_u_nul : ∀ (rl : Nat) (s acc out : List Char),
    (∀ c ∈ s, c.toNat ≠ 0) → (∀ c ∈ acc, c.toNat ≠ 0) →
    decode_u rl s acc = some out → ∀ c ∈ out, c.toNat ≠ 0
  | rl, s, acc, out, hs, hacc, h => by
    rw [decode_u.eq_def] at h
    by_cases h1 : rl ≤ 5
    · rw [if_pos h1] at h
      exact absurd h (by simp)
    · rw [if_neg h1] at h
      by_cases h2 : (0xDC00 ≤ parse_hex4 s ∧ parse_hex4 s ≤ 0xDFFF) ∨ parse_hex4 s = 0
      · rw [if_pos h2] at h
        exact absurd h (by simp)
      · rw [if_neg h2] at h
        have happ : ∀ (w : List Char) (uc : Nat), uc ≠ 0 → uc < 2097152 →
            (∀ c ∈ w, c.toNat ≠ 0) → ∀ c ∈ acc ++ utf8Encode uc, c.toNat ≠ 0 := by
          intro w uc h0 hv _ d hd
          rcases List.mem_append.mp hd with hx | hx
          · exact hacc d hx
          · exact utf8Encode_nul uc h0 hv d hx
        by_cases h3 : 0xD800 ≤ parse_hex4 s ∧ parse_hex4 s ≤ 0xDBFF
        · rw [if_pos h3] at h
          by_cases h4 : rl < 11
          · rw [if_pos h4] at h
            exact absurd h (by simp)
          · rw [if_neg h4] at h
            cases s with
            | nil => exact absurd h (by simp)
            | cons c1 s1 =>
            cases s1 with
            | nil => exact absurd h (by simp)
            | cons c2 s2 =>
            cases s2 with
            | nil => exact absurd h (by simp)
            | cons c3 s3 =>
            cases s3 with
            | nil => exact absurd h (by simp)
            | cons c4 s4 =>
            cases s4 with
            | nil => exact absurd h (by simp)
            | cons c5 s5 =>
            cases s5 with
            | nil => exact absurd h (by simp)
            | cons c6 t7 =>
            replace h : (if c5 = '\\' ∧ c6 = 'u' then
                if parse_hex4 t7 < 0xDC00 ∨ 0xDFFF < parse_hex4 t7 then none
                else
                  (match t7 with
                  | _ :: _ :: _ :: _ :: t11 =>
                    decode_string (rl - 12) t11
                      (acc ++ utf8Encode
                        (0x10000 + (((parse_hex4 (c1 :: c2 :: c3 :: c4 :: c5 :: c6 :: t7)
                          &&& 0x3FF) <<< 10) ||| (parse_hex4 t7 &&& 0x3FF))))
                  | _ => none)
              else none) = some out := h
            by_cases h5 : c5 = '\\' ∧ c6 = 'u'
            · rw [if_pos h5] at h
              by_cases h6 : parse_hex4 t7 < 0xDC00 ∨ 0xDFFF < parse_hex4 t7
              · rw [if_pos h6] at h
                exact absurd h (by simp)
              · rw [if_neg h6] at h
                cases t7 with
                | nil => exact absurd h (by simp)
                | cons d1 u1 =>
                cases u1 with
                | nil => exact absurd h (by simp)
                | cons d2 u2 =>
                cases u2 with
                | nil => exact absurd h (by simp)
                | cons d3 u3 =>
                cases u3 with
                | nil => exact absurd h (by simp)
                | cons d4 t11 =>
                replace h : decode_string (rl - 12) t11
                    (acc ++ utf8Encode
                      (0x10000 + (((parse_hex4 (c1 :: c2 :: c3 :: c4 :: c5 :: c6 ::
                        d1 :: d2 :: d3 :: d4 :: t11) &&& 0x3FF) <<< 10) |||
                        (parse_hex4 (d1 :: d2 :: d3 :: d4 :: t11) &&& 0x3FF)))) =
                    some out := h
                refine decode_string_nul _ _ _ _
                  (fun d hd => hs d (by simp [hd])) ?_ h
                have hband : parse_hex4 (d1 :: d2 :: d3 :: d4 :: t11) &&& 0x3FF ≤ 0x3FF :=
                  Nat.and_le_right
                have hband2 : parse_hex4 (c1 :: c2 :: c3 :: c4 :: c5 :: c6 ::
                    d1 :: d2 :: d3 :: d4 :: t11) &&& 0x3FF ≤ 0x3FF := Nat.and_le_right
                have hshift : (parse_hex4 (c1 :: c2 :: c3 :: c4 :: c5 :: c6 ::
                    d1 :: d2 :: d3 :: d4 :: t11) &&& 0x3FF) <<< 10 ≤ 0x3FF <<< 10 := by
                  rw [Nat.shiftLeft_eq, Nat.shiftLeft_eq]
                  exact Nat.mul_le_mul_right _ hband2
                have hor : ((parse_hex4 (c1 :: c2 :: c3 :: c4 :: c5 :: c6 ::
                    d1 :: d2 :: d3 :: d4 :: t11) &&& 0x3FF) <<< 10 |||
                    (parse_hex4 (d1 :: d2 :: d3 :: d4 :: t11) &&& 0x3FF)) < 2 ^ 20 := by
                  refine Nat.or_lt_two_pow ?_ ?_
                  · calc _ ≤ 0x3FF <<< 10 := hshift
                      _ < 2 ^ 20 := by rw [Nat.shiftLeft_eq]; norm_num
                  · calc _ ≤ 0x3FF := hband
                      _ < 2 ^ 20 := by norm_num
                exact happ acc _ (by omega) (by omega) hacc
            · rw [if_neg h5] at h
              exact absurd h (by simp)
        · rw [if_neg h3] at h
          cases s with
          | nil => exact absurd h (by simp)
          | cons c1 s1 =>
          cases s1 with
          | nil => exact absurd h (by simp)
          | cons c2 s2 =>
          cases s2 with
          | nil => exact absurd h (by simp)
          | cons c3 s3 =>
          cases s3 with
          | nil => exact absurd h (by simp)
          | cons c4 t5 =>
          replace h : decode_string (rl - 6) t5
              (acc ++ utf8Encode (parse_hex4 (c1 :: c2 :: c3 :: c4 :: t5))) =
              some out := h
          refine decode_string_nul _ _ _ _
            (fun d hd => hs d (by simp [hd])) ?_ h
          have hlt := parse_hex4_lt (c1 :: c2 :: c3 :: c4 :: t5)
          exact happ acc _ (by omega) (by omega) hacc
  termination_by structural rl s acc out h1 h2 h3 => s

end

/-! ### Well-formedness of the parsed tree -/

/-- The close step never changes the payload. -/
theorem parse_string_close_fst (payload l : List Char) :
    (parse_string_close payload l).1 = payload := by
  cases l with
  | nil => rfl
  | cons q r =>
    rw [parse_string_close]
    split <;> rfl

/-- `parse_string` yields a NUL-free payload on NUL-free input. -/
theorem parse_string_nul (s p rest : List Char)
    (hs : ∀ c ∈ s, c.toNat ≠ 0)
    (h : parse_string s = .ok (p, rest)) : ∀ c ∈ p, c.toNat ≠ 0 := by
  cases s with
  | nil => exact absurd h (by simp [parse_string])
  | cons c r =>
    rw [parse_string] at h
    by_cases hc : c = '\"'
    · rw [if_pos hc, parse_string_scan] at h
      cases hscan : scanEnd r with
      | none =>
        rw [hscan] at h
        exact absurd h (by simp)
      | some endIdx =>
        rw [hscan] at h
        replace h : parse_string_decode (c :: r) r endIdx = .ok (p, rest) := h
        rw [parse_string_decode.eq_def] at h
        cases hdec : decode_string endIdx r [] with
        | none =>
          rw [hdec] at h
          exact absurd h (by simp)
        | some payload =>
          rw [hdec] at h
          replace h : (Except.ok (parse_string_close payload (r.drop endIdx)) :
              Except (Option (List Char)) (List Char × List Char)) = .ok (p, rest) := h
          simp only [Except.ok.injEq] at h
          have hp : payload = p := by
            rw [← parse_string_close_fst payload (r.drop endIdx), h]
          subst hp
          exact decode_string_nul endIdx r [] payload
            (fun d hd => hs d (by simp [hd])) (by simp) hdec
    · rw [if_neg hc] at h
      exact absurd h (by simp)

/-- A successful `parse_key` is a successful `parse_string`. -/
theorem parse_key_ok (s k r : List Char) (h : parse_key s = .ok (k, r)) :
    parse_string s = .ok (k, r) := by
  rw [parse_key] at h
  cases hps : parse_string s with
  | error e =>
    rw [hps] at h
    exact absurd h (by simp)
  | ok x =>
    rw [hps] at h
    simpa using h

/-- `wfNode` ignores the `next` field. -/
theorem wfNode_withNext (c : cJSON) (nx : NodeRef) :
    wfNode (c.withNext nx) = wfNode c := by
  obtain ⟨ty, vs, vn, vb, nm, sc, ir, ch, nx0⟩ := c
  rfl

/-- `wfNode` ignores the `name` field. -/
theorem wfNode_withName (c : cJSON) (nm' : Option (List Char)) :
    wfNode (c.withName nm') = wfNode c := by
  obtain ⟨ty, vs, vn, vb, nm, sc, ir, ch, nx0⟩ := c
  rfl

theorem withNext_name (c : cJSON) (nx : NodeRef) : (c.withNext nx).name = c.name := by
  obtain ⟨ty, vs, vn, vb, nm, sc, ir, ch, nx0⟩ := c
  rfl

theorem withName_withNext_name (c : cJSON) (k : Option (List Char)) (nx : NodeRef) :
    ((c.withName k).withNext nx).name = k := by
  obtain ⟨ty, vs, vn, vb, nm, sc, ir, ch, nx0⟩ := c
  rfl

theorem wfAChainNext_withNext (c : cJSON) (nx : NodeRef) :
    wfAChainNext (c.withNext nx) = wfAChain nx := by
  obtain ⟨ty, vs, vn, vb, nm, sc, ir, ch, nx0⟩ := c
  rfl

theorem wfOChainNext_withNext (c : cJSON) (nx : NodeRef) :
    wfOChainNext (c.withNext nx) = wfOChain nx := by
  obtain ⟨ty, vs, vn, vb, nm, sc, ir, ch, nx0⟩ := c
  rfl

/-- NUL-freeness transfers to any suffix of the input. -/
theorem nulFree_suffix (s t : List Char) (h : t <:+ s)
    (hs : ∀ c ∈ s, c.toNat ≠ 0) : ∀ c ∈ t, c.toNat ≠ 0 :=
  fun c hc => hs c (h.subset hc)

/-- Well-formedness of a fresh array element link. -/
theorem wfAChain_cons (v : cJSON) (chain : NodeRef)
    (hn : v.name = none) (hv : wfNode v = true) (hch : wfAChain chain = true) :
    wfAChain (.ptr (v.withNext chain)) = true := by
  simp only [wfAChain, withNext_name, hn, wfNode_withNext, hv, wfAChainNext_withNext, hch,
    Bool.and_true, Bool.true_and, beq_self_eq_true]

/-- Well-formedness of a fresh object member link. -/
theorem wfOChain_cons (v : cJSON) (k : List Char) (chain : NodeRef)
    (hk : ∀ c ∈ k, c.toNat ≠ 0) (hv : wfNode v = true) (hch : wfOChain chain = true) :
    wfOChain (.ptr ((v.withName (some k)).withNext chain)) = true := by
  simp only [wfOChain, withName_withNext_name, wfNode_withNext, wfNode_withName, hv,
    wfOChainNext_withNext, hch, Bool.and_true, Bool.true_and]
  rw [List.all_eq_true]
  intro x hx
  simpa using hk x hx

theorem wfNode_arrayNode (r : NodeRef) : wfNode (arrayNode r) = wfAChain r := rfl

theorem wfNode_objectNode (r : NodeRef) : wfNode (objectNode r) = wfOChain r := rfl

/-- A fresh string node is well-formed when its payload is NUL-free. -/
theorem wfNode_stringNode (p : List Char) (hp : ∀ c ∈ p, c.toNat ≠ 0) :
    wfNode (stringNode p) = true := by
  have hred : wfNode (stringNode p) = p.all (fun c => c.toNat != 0) := rfl
  rw [hred, List.all_eq_true]
  intro x hx
  simpa using hp x hx

mutual

/-- On NUL-free input every tree `parse_value` returns is a well-formed
fresh node with no name and no sibling link. -/
theorem parse_value_wf : ∀ (fuel : Nat) (s : List Char) (t : cJSON) (r : List Char),
    (∀ c ∈ s, c.toNat ≠ 0) → parse_value fuel s = .ok (t, r) →
    wfNode t = true ∧ t.name = none ∧ t.next = .null
  | 0, s, t, r, _, h => absurd h (by simp [parse_value])
  | fuel + 1, s, t, r, hs, h => by
    cases s with
    | nil =>
      rw [parse_value_nil] at h
      exact absurd h (by simp)
    | cons c rest0 =>
      simp only [parse_value] at h
      by_cases h4 : (c :: rest0).take 4 = "null".toList
      · rw [if_pos h4] at h
        simp only [Except.ok.injEq, Prod.mk.injEq] at h
        obtain ⟨h1, -⟩ := h
        subst h1
        exact ⟨by decide, rfl, rfl⟩
      · rw [if_neg h4] at h
        by_cases h5 : (c :: rest0).take 5 = "false".toList
        · rw [if_pos h5] at h
          simp only [Except.ok.injEq, Prod.mk.injEq] at h
          obtain ⟨h1, -⟩ := h
          subst h1
          exact ⟨by decide, rfl, rfl⟩
        · rw [if_neg h5] at h
          by_cases h6 : (c :: rest0).take 4 = "true".toList
          · rw [if_pos h6] at h
            simp only [Except.ok.injEq, Prod.mk.injEq] at h
            obtain ⟨h1, -⟩ := h
            subst h1
            exact ⟨by decide, rfl, rfl⟩
          · rw [if_neg h6] at h
            by_cases hq : c = '\"'
            · rw [if_pos hq] at h
              cases hps : parse_string (c :: rest0) with
              | error e0 =>
                simp only [hps] at h
                exact absurd h (by simp)
              | ok x =>
                obtain ⟨payload, rest1⟩ := x
                simp only [hps, Except.ok.injEq, Prod.mk.injEq] at h
                obtain ⟨h1, -⟩ := h
                subst h1
                exact ⟨wfNode_stringNode payload
                  (parse_string_nul (c :: rest0) payload rest1 hs hps), rfl, rfl⟩
            · rw [if_neg hq] at h
              by_cases hn : c = '-' ∨ ('0' ≤ c ∧ c ≤ '9')
              · rw [if_pos hn] at h
                rw [parse_number] at h
                cases hst : strtod (c :: rest0) with
                | none =>
                  rw [hst] at h
                  exact absurd h (by simp)
                | some x =>
                  obtain ⟨q, rest1⟩ := x
                  rw [hst] at h
                  replace h : (Except.ok (numberNode q, rest1) :
                      Except ParseErr (cJSON × List Char)) = .ok (t, r) := h
                  simp only [Except.ok.injEq, Prod.mk.injEq] at h
                  obtain ⟨h1, -⟩ := h
                  subst h1
                  exact ⟨rfl, rfl, rfl⟩
              · rw [if_neg hn] at h
                by_cases ha : c = '['
                · rw [if_pos ha] at h
                  exact parse_array_wf fuel (c :: rest0) t r hs h
                · rw [if_neg ha] at h
                  by_cases ho : c = '\x7b'
                  · rw [if_pos ho] at h
                    exact parse_object_wf fuel (c :: rest0) t r hs h
                  · rw [if_neg ho] at h
                    exact absurd h (by simp)

/-- On NUL-free input every tree `parse_array` returns is well-formed. -/
theorem parse_array_wf : ∀ (fuel : Nat) (s : List Char) (t : cJSON) (r : List Char),
    (∀ c ∈ s, c.toNat ≠ 0) → parse_array fuel s = .ok (t, r) →
    wfNode t = true ∧ t.name = none ∧ t.next = .null
  | 0, s, t, r, _, h => absurd h (by simp [parse_array])
  | fuel + 1, s, t, r, hs, h => by
    cases s with
    | nil =>
      rw [parse_array_nil] at h
      exact absurd h (by simp)
    | cons c rest0 =>
      simp only [parse_array] at h
      by_cases hc : c = '['
      · rw [if_pos hc] at h
        by_cases hcl : headIs ']' (skip rest0) = true
        · rw [if_pos hcl] at h
          simp only [Except.ok.injEq, Prod.mk.injEq] at h
          obtain ⟨h1, -⟩ := h
          subst h1
          exact ⟨by decide, rfl, rfl⟩
        · rw [if_neg hcl] at h
          cases hpv : parse_value fuel (skip (skip rest0)) with
          | error e1 =>
            rw [hpv, ebind_err] at h
            exact absurd h (by simp)
          | ok x =>
            obtain ⟨child1, r1⟩ := x
            rw [hpv] at h
            simp only [ebind_ok] at h
            cases har : parse_array_rest fuel (skip r1) with
            | error e2 =>
              rw [har, ebind_err] at h
              exact absurd h (by simp)
            | ok y =>
              obtain ⟨chain, r2⟩ := y
              rw [har] at h
              simp only [ebind_ok] at h
              by_cases hcl2 : headIs ']' r2 = true
              · rw [if_pos hcl2, epure] at h
                simp only [Except.ok.injEq, Prod.mk.injEq] at h
                obtain ⟨h1, -⟩ := h
                subst h1
                have hs2 : ∀ d ∈ skip (skip rest0), d.toNat ≠ 0 :=
                  nulFree_suffix _ _ (((skip_suffix (skip rest0)).trans
                    (skip_suffix rest0)).trans (List.suffix_cons _ _)) hs
                have hv := parse_value_wf fuel (skip (skip rest0)) child1 r1 hs2 hpv
                have hr1s : ∀ d ∈ skip r1, d.toNat ≠ 0 :=
                  nulFree_suffix _ _ ((skip_suffix r1).trans
                    ((parse_value_ok_sfx fuel (skip (skip rest0)) child1 r1 hpv).1.trans
                      (((skip_suffix (skip rest0)).trans (skip_suffix rest0)).trans
                        (List.suffix_cons _ _)))) hs
                have hch := parse_array_rest_wf fuel (skip r1) chain r2 hr1s har
                refine ⟨?_, rfl, rfl⟩
                rw [wfNode_arrayNode]
                exact wfAChain_cons child1 chain hv.2.1 hv.1 hch
              · rw [if_neg hcl2, ethrow] at h
                exact absurd h (by simp)
      · rw [if_neg hc] at h
        exact absurd h (by simp)

/-- On NUL-free input the element loop returns a well-formed array chain. -/
theorem parse_array_rest_wf : ∀ (fuel : Nat) (s : List Char) (ch : NodeRef) (r : List Char),
    (∀ c ∈ s, c.toNat ≠ 0) → parse_array_rest fuel s = .ok (ch, r) →
    wfAChain ch = true
  | 0, s, ch, r, _, h => absurd h (by simp [parse_array_rest])
  | fuel + 1, s, ch, r, hs, h => by
    simp only [parse_array_rest] at h
    by_cases hcm : headIs ',' s = true
    · rw [if_pos hcm] at h
      cases hpv : parse_value fuel (skip s.tail) with
      | error e1 =>
        rw [hpv, ebind_err] at h
        exact absurd h (by simp)
      | ok x =>
        obtain ⟨item, r1⟩ := x
        rw [hpv] at h
        simp only [ebind_ok] at h
        cases har : parse_array_rest fuel (skip r1) with
        | error e2 =>
          rw [har, ebind_err] at h
          exact absurd h (by simp)
        | ok y =>
          obtain ⟨chain, r2⟩ := y
          rw [har] at h
          simp only [ebind_ok, epure, Except.ok.injEq, Prod.mk.injEq] at h
          obtain ⟨h1, -⟩ := h
          subst h1
          have hst : ∀ d ∈ skip s.tail, d.toNat ≠ 0 :=
            nulFree_suffix _ _ ((skip_suffix s.tail).trans (List.tail_suffix s)) hs
          have hv := parse_value_wf fuel (skip s.tail) item r1 hst hpv
          have hr1s : ∀ d ∈ skip r1, d.toNat ≠ 0 :=
            nulFree_suffix _ _ ((skip_suffix r1).trans
              ((parse_value_ok_sfx fuel (skip s.tail) item r1 hpv).1.trans
                ((skip_suffix s.tail).trans (List.tail_suffix s)))) hs
          have hch := parse_array_rest_wf fuel (skip r1) chain r2 hr1s har
          exact wfAChain_cons item chain hv.2.1 hv.1 hch
    · rw [if_neg hcm] at h
      simp only [Except.ok.injEq, Prod.mk.injEq] at h
      obtain ⟨h1, -⟩ := h
      subst h1
      rfl

/-- On NUL-free input every tree `parse_object` returns is well-formed. -/
theorem parse_object_wf : ∀ (fuel : Nat) (s : List Char) (t : cJSON) (r : List Char),
    (∀ c ∈ s, c.toNat ≠ 0) → parse_object fuel s = .ok (t, r) →
    wfNode t = true ∧ t.name = none ∧ t.next = .null
  | 0, s, t, r, _, h => absurd h (by simp [parse_object])
  | fuel + 1, s, t, r, hs, h => by
    cases s with
    | nil =>
      rw [parse_object_nil] at h
      exact absurd h (by simp)
    | cons c rest0 =>
      simp only [parse_object] at h
      by_cases hc : c = '\x7b'
      · rw [if_pos hc] at h
        by_cases hcl : headIs '\x7d' (skip rest0) = true
        · rw [if_pos hcl] at h
          simp only [Except.ok.injEq, Prod.mk.injEq] at h
          obtain ⟨h1, -⟩ := h
          subst h1
          exact ⟨by decide, rfl, rfl⟩
        · rw [if_neg hcl] at h
          cases hpk : parse_key (skip (skip rest0)) with
          | error e1 =>
            rw [hpk, ebind_err] at h
            exact absurd h (by simp)
          | ok x =>
            obtain ⟨key, r1⟩ := x
            rw [hpk] at h
            simp only [ebind_ok] at h
            by_cases hcol : headIs ':' (skip r1) = true
            · rw [if_pos hcol] at h
              cases hpv : parse_value fuel (skip (skip r1).tail) with
              | error e2 =>
                rw [hpv, ebind_err] at h
                exact absurd h (by simp)
              | ok y =>
                obtain ⟨val1, r3⟩ := y
                rw [hpv] at h
                simp only [ebind_ok] at h
                cases hor : parse_object_rest fuel (skip r3) with
                | error e3 =>
                  rw [hor, ebind_err] at h
                  exact absurd h (by simp)
                | ok z =>
                  obtain ⟨chain, r4⟩ := z
                  rw [hor] at h
                  simp only [ebind_ok] at h
                  by_cases hcl2 : headIs '\x7d' r4 = true
                  · rw [if_pos hcl2, epure] at h
                    simp only [Except.ok.injEq, Prod.mk.injEq] at h
                    obtain ⟨h1, -⟩ := h
                    subst h1
                    have hsfx0 : skip (skip rest0) <:+ c :: rest0 :=
                      ((skip_suffix (skip rest0)).trans (skip_suffix rest0)).trans
                        (List.suffix_cons _ _)
                    have hs2 : ∀ d ∈ skip (skip rest0), d.toNat ≠ 0 :=
                      nulFree_suffix _ _ hsfx0 hs
                    have hkey : ∀ d ∈ key, d.toNat ≠ 0 :=
                      parse_string_nul (skip (skip rest0)) key r1 hs2
                        (parse_key_ok (skip (skip rest0)) key r1 hpk)
                    have hkc := parse_key_consumed (skip (skip rest0)) key r1 hpk
                    have hsfx1 : skip (skip r1).tail <:+ c :: rest0 :=
                      (((skip_suffix (skip r1).tail).trans
                        ((List.tail_suffix (skip r1)).trans (skip_suffix r1))).trans
                        hkc.1).trans hsfx0
                    have hs3 : ∀ d ∈ skip (skip r1).tail, d.toNat ≠ 0 :=
                      nulFree_suffix _ _ hsfx1 hs
                    have hv := parse_value_wf fuel (skip (skip r1).tail) val1 r3 hs3 hpv
                    have hr3s : ∀ d ∈ skip r3, d.toNat ≠ 0 :=
                      nulFree_suffix _ _ ((skip_suffix r3).trans
                        ((parse_value_ok_sfx fuel (skip (skip r1).tail) val1 r3 hpv).1.trans
                          hsfx1)) hs
                    have hch := parse_object_rest_wf fuel (skip r3) chain r4 hr3s hor
                    refine ⟨?_, rfl, rfl⟩
                    rw [wfNode_objectNode]
                    exact wfOChain_cons val1 key chain hkey hv.1 hch
                  · rw [if_neg hcl2, ethrow] at h
                    exact absurd h (by simp)
            · rw [if_neg hcol, ethrow] at h
              exact absurd h (by simp)
      · rw [if_neg hc] at h
        exact absurd h (by simp)

/-- On NUL-free input the member loop returns a well-formed object chain. -/
theorem parse_object_rest_wf : ∀ (fuel : Nat) (s : List Char) (ch : NodeRef) (r : List Char),
    (∀ c ∈ s, c.toNat ≠ 0) → parse_object_rest fuel s = .ok (ch, r) →
    wfOChain ch = true
  | 0, s, ch, r, _, h => absurd h (by simp [parse_object_rest])
  | fuel + 1, s, ch, r, hs, h => by
    simp only [parse_object_rest] at h
    by_cases hcm : headIs ',' s = true
    · rw [if_pos hcm] at h
      cases hpk : parse_key (skip s.tail) with
      | error e1 =>
        rw [hpk, ebind_err] at h
        exact absurd h (by simp)
      | ok x =>
        obtain ⟨key, r1⟩ := x
        rw [hpk] at h
        simp only [ebind_ok] at h
        by_cases hcol : headIs ':' (skip r1) = true
        · rw [if_pos hcol] at h
          cases hpv : parse_value fuel (skip (skip r1).tail) with
          | error e2 =>
            rw [hpv, ebind_err] at h
            exact absurd h (by simp)
          | ok y =>
            obtain ⟨val, r3⟩ := y
            rw [hpv] at h
            simp only [ebind_ok] at h
            cases hor : parse_object_rest fuel (skip r3) with
            | error e3 =>
              rw [hor, ebind_err] at h
              exact absurd h (by simp)
            | ok z =>
              obtain ⟨chain, r4⟩ := z
              rw [hor] at h
              simp only [ebind_ok, epure, Except.ok.injEq, Prod.mk.injEq] at h
              obtain ⟨h1, -⟩ := h
              subst h1
              have hsfx0 : skip s.tail <:+ s :=
                (skip_suffix s.tail).trans (List.tail_suffix s)
              have hs2 : ∀ d ∈ skip s.tail, d.toNat ≠ 0 :=
                nulFree_suffix _ _ hsfx0 hs
              have hkey : ∀ d ∈ key, d.toNat ≠ 0 :=
                parse_string_nul (skip s.tail) key r1 hs2
                  (parse_key_ok (skip s.tail) key r1 hpk)
              have hkc := parse_key_consumed (skip s.tail) key r1 hpk
              have hsfx1 : skip (skip r1).tail <:+ s :=
                (((skip_suffix (skip r1).tail).trans
                  ((List.tail_suffix (skip r1)).trans (skip_suffix r1))).trans
                  hkc.1).trans hsfx0
              have hs3 : ∀ d ∈ skip (skip r1).tail, d.toNat ≠ 0 :=
                nulFree_suffix _ _ hsfx1 hs
              have hv := parse_value_wf fuel (skip (skip r1).tail) val r3 hs3 hpv
              have hr3s : ∀ d ∈ skip r3, d.toNat ≠ 0 :=
                nulFree_suffix _ _ ((skip_suffix r3).trans
                  ((parse_value_ok_sfx fuel (skip (skip r1).tail) val r3 hpv).1.trans
                    hsfx1)) hs
              have hch := parse_object_rest_wf fuel (skip r3) chain r4 hr3s hor
              exact wfOChain_cons val key chain hkey hv.1 hch
        · rw [if_neg hcol, ethrow] at h
          exact absurd h (by simp)
    · rw [if_neg hcm] at h
      simp only [Except.ok.injEq, Prod.mk.injEq] at h
      obtain ⟨h1, -⟩ := h
      subst h1
      rfl

end

/-! ### The printed form is long enough for the re-parsing fuel budget -/

mutual

/-- Twice the printed length covers the fuel `parse_value` needs. -/
theorem needV_le : ∀ (c : cJSON) (d : Nat), wfNode c = true →
    needV c ≤ 2 * (print_value c d false).length
  | .mk ty vs vn vb nm sc ir ch nx, d, h => by
    cases ty with
    | cJSON_NULL =>
      have hlen : (print_value (.mk .cJSON_NULL vs vn vb nm sc ir ch nx) d false).length
          = 4 := rfl
      simp only [needV]
      omega
    | cJSON_False =>
      have hlen : (print_value (.mk .cJSON_False vs vn vb nm sc ir ch nx) d false).length
          = 5 := rfl
      simp only [needV]
      omega
    | cJSON_True =>
      have hlen : (print_value (.mk .cJSON_True vs vn vb nm sc ir ch nx) d false).length
          = 4 := rfl
      simp only [needV]
      omega
    | cJSON_Number =>
      cases vn with
      | finite q =>
        obtain ⟨c0, w, heq, -⟩ := print_number_head q
        have hlen : print_value (.mk .cJSON_Number vs (.finite q) vb nm sc ir ch nx) d
            false = c0 :: w := heq
        simp only [needV, hlen, List.length_cons]
        omega
      | nan => exact absurd h (by simp [wfNode])
      | inf b => exact absurd h (by simp [wfNode])
    | cJSON_String =>
      simp only [needV]
      cases vs with
      | none =>
        have hlen : (print_value (.mk .cJSON_String none vn vb nm sc ir ch nx) d
            false).length = 2 := rfl
        omega
      | some p =>
        obtain ⟨w, hw⟩ := print_string_head p
        have hred : print_value (.mk .cJSON_String (some p) vn vb nm sc ir ch nx) d
            false = '\"' :: w := hw
        simp only [hred, List.length_cons]
        omega
    | cJSON_Array =>
      cases ch with
      | null =>
        have hlen : (print_value (.mk .cJSON_Array vs vn vb nm sc ir .null nx) d
            false).length = 2 := rfl
        simp only [needV, needChain]
        omega
      | ptr c1 =>
        simp only [wfNode, NodeRef.isNull, Bool.and_eq_true, Bool.not_eq_true',
          beq_iff_eq, and_true] at h
        obtain ⟨⟨hsc, hir⟩, ⟨⟨hvs, hvn⟩, hvb⟩, hch⟩ := h
        have h1 := needChain_items_le (.ptr c1) d hch
        have hlen : (print_value (.mk .cJSON_Array vs vn vb nm sc ir (.ptr c1) nx) d
            false).length = (print_array_items (.ptr c1) d false).length + 2 := by
          simp [print_value, NodeRef.isNull]
        simp only [needV]
        omega
    | cJSON_Object =>
      cases ch with
      | null =>
        have hlen : (print_value (.mk .cJSON_Object vs vn vb nm sc ir .null nx) d
            false).length = 2 := rfl
        simp only [needV, needChain]
        omega
      | ptr c1 =>
        simp only [wfNode, NodeRef.isNull, Bool.and_eq_true, Bool.not_eq_true',
          beq_iff_eq, and_true] at h
        obtain ⟨⟨hsc, hir⟩, ⟨⟨hvs, hvn⟩, hvb⟩, hch⟩ := h
        have h1 := needChain_oitems_le (.ptr c1) (d + 1) hch
        have hlen : (print_value (.mk .cJSON_Object vs vn vb nm sc ir (.ptr c1) nx) d
            false).length = (print_object_items (.ptr c1) (d + 1) false).length + 2 := by
          simp [print_value, NodeRef.isNull]
        simp only [needV]
        omega
  termination_by structural c d h => c

/-- Fuel bound for an array element chain against its printed items. -/
theorem needChain_items_le : ∀ (r : NodeRef) (d : Nat), wfAChain r = true →
    needChain r ≤ 2 * (print_array_items r d false).length + 2
  | .null, _, _ => by
    simp only [needChain, print_array_items, List.length_nil]
    omega
  | .ptr c, d, h => by
    simp only [wfAChain, Bool.and_eq_true, beq_iff_eq] at h
    obtain ⟨⟨hnm, hwf⟩, hnext⟩ := h
    have h1 := needV_le c (d + 1) hwf
    have h2 := needChainNext_a_le c d hnext
    simp only [needChain, print_array_items, List.length_append]
    omega
  termination_by structural r d h => r

/-- Fuel bound for the elements after one array element. -/
theorem needChainNext_a_le : ∀ (c : cJSON) (d : Nat), wfAChainNext c = true →
    needChainNext c ≤ 2 * (print_array_next c d false).length + 1
  | .mk ty vs vn vb nm sc ir ch nx, d, h => by
    have hx : wfAChain nx = true := h
    have h1 := needChain_items_le nx d hx
    cases nx with
    | null =>
      simp only [needChainNext, needChain]
      omega
    | ptr c2 =>
      have hlen : (print_array_next (.mk ty vs vn vb nm sc ir ch (.ptr c2)) d
          false).length = (print_array_items (.ptr c2) d false).length + 1 := by
        simp [print_array_next, NodeRef.isNull]
      simp only [needChainNext]
      omega
  termination_by structural c d h => c

/-- Fuel bound for an object member chain against its printed members. -/
theorem needChain_oitems_le : ∀ (r : NodeRef) (d : Nat), wfOChain r = true →
    needChain r ≤ 2 * (print_object_items r d false).length + 2
  | .null, _, _ => by
    simp only [needChain, print_object_items, List.length_nil]
    omega
  | .ptr c, d, h => by
    simp only [wfOChain, Bool.and_eq_true] at h
    obtain ⟨⟨hnm, hwf⟩, hnext⟩ := h
    have h1 := needV_le c d hwf
    have h2 := needChainNext_o_le c d hnext
    have hlen : (print_object_items (.ptr c) d false).length =
        (print_string_ptr c.name).length + 1 + (print_value c d false).length +
          (print_object_next c d false).length := by
      simp [print_object_items]
      try omega
    simp only [needChain]
    omega
  termination_by structural r d h => r

/-- Fuel bound for the members after one object member. -/
theorem needChainNext_o_le : ∀ (c : cJSON) (d : Nat), wfOChainNext c = true →
    needChainNext c ≤ 2 * (print_object_next c d false).length + 1
  | .mk ty vs vn vb nm sc ir ch nx, d, h => by
    have hx : wfOChain nx = true := h
    have h1 := needChain_oitems_le nx d hx
    cases nx with
    | null =>
      simp only [needChainNext, needChain]
      omega
    | ptr c2 =>
      have hlen : (print_object_next (.mk ty vs vn vb nm sc ir ch (.ptr c2)) d
          false).length = (print_object_items (.ptr c2) d false).length + 1 := by
        simp [print_object_next, NodeRef.isNull]
      simp only [needChainNext]
      omega
  termination_by structural c d h => c

end

/-- A parsed fresh node is unchanged by stripping its (absent) links. -/
theorem stripItem_eq_self (c : cJSON) (h1 : c.name = none) (h2 : c.next = .null) :
    stripItem c = c := by
  obtain ⟨ty, vs, vn, vb, nm, sc, ir, ch, nx⟩ := c
  simp only [cJSON.name] at h1
  simp only [cJSON.next] at h2
  subst h1
  subst h2
  rfl

/-- C1: for every tree the parser produces from (NUL-free) interchange text,
serializing it in compact mode and re-parsing yields exactly the original
tree with every number value replaced by the value of its own rendering
(`mapNum` — same kinds, same keys, same string payloads, same child order,
numbers up to the rendering's precision loss), and no parse error. -/
theorem C1_roundtrip (s : List Char) (t : cJSON)
    (hnul : ∀ c ∈ s, c.toNat ≠ 0)
    (h : (cJSON_Parse s).1 = some t) :
    cJSON_Parse (print_value t 0 false) = (some (mapNum t), none) := by
  rw [cJSON_Parse, cJSON_ParseWithOpts] at h
  cases hpv : parse_value (3 * s.length + 3) (skip s) with
  | error e =>
    rw [hpv] at h
    cases e with
    | fail e0 => exact absurd h (by simp)
    | outOfFuel => exact absurd h (by simp)
  | ok x =>
    obtain ⟨t0, endp⟩ := x
    rw [hpv] at h
    replace h : some t0 = some t := h
    simp only [Option.some.injEq] at h
    subst h
    have hsnul : ∀ c ∈ skip s, c.toNat ≠ 0 := nulFree_suffix _ _ (skip_suffix s) hnul
    obtain ⟨hwf, hname, hnext⟩ :=
      parse_value_wf (3 * s.length + 3) (skip s) t0 endp hsnul hpv
    obtain ⟨c0, w, heq, h32, -, -, -, -⟩ := print_value_head t0 0 hwf
    have hfb := needV_le t0 0 hwf
    have hpp := parse_print_value t0 (3 * (print_value t0 0 false).length + 3) 0 []
      hwf trivial (by omega)
    rw [List.append_nil] at hpp
    rw [stripItem_eq_self t0 hname hnext] at hpp
    rw [cJSON_Parse, cJSON_ParseWithOpts]
    rw [heq] at hpp
    rw [heq, skip_eq_of_head c0 w h32]
    first
    | (rw [hpp]; rfl)
    | rw [hpp]

theorem C1_roundtrip_witness :
    (∀ c ∈ "[]".toList, c.toNat ≠ 0) ∧
    cJSON_Parse (print_value (arrayNode .null) 0 false) =
      (some (mapNum (arrayNode .null)), none) :=
  ⟨by decide, C1_roundtrip "[]".toList (arrayNode .null) (by decide) rfl⟩
